/-
Verification development for the hamt repository (src/hamt/hamt.py): a
persistent hash array mapped trie.  The Python node classes BitmapNode and
CollisionNode are embedded as a mutual inductive type; the trie operations
find / assoc / without / __iter__ and the HAMT facade (set / get / delete /
contains / len / iteration) are translated function by function.  Python
None is modelled by Option.none (keys and values live in Option D), node
arrays of alternating slots are modelled as lists of slot pairs, Python
object identity on nodes is tracked by provenance flags (a call returns
a flag telling whether it returned self), and identity on plain values is
approximated by structural equality.  Hash functions are arbitrary
parameters, matching the arbitrary host hash.
-/
import Mathlib

set_option autoImplicit false
set_option linter.unusedVariables false
set_option linter.unusedSectionVars false

namespace Hamt

/-! ### Reference bit counting

The reference population count.  The source implements popcount by the
32-bit SWAR routine in hamt.py (_popcount, lines 171-177); this section
defines the mathematical bit count and proves the SWAR routine computes it
for every input below 2 to the 32, which licenses all later reasoning about
compressed slot indices. -/

/-- Mathematical bit count of a natural number: sum of its binary digits. -/
def bitcount : Nat → Nat
  | 0 => 0
  | n + 1 => (n + 1) % 2 + bitcount ((n + 1) / 2)
decreasing_by exact Nat.div_lt_self (Nat.succ_pos n) (by omega)

/-! ### Digit lists

Base-B digit decompositions used to verify the SWAR popcount field by
field. -/

/-- Value of a little-endian digit list in base B. -/
def ofDigs (B : Nat) : List Nat → Nat
  | [] => 0
  | d :: ds => d + B * ofDigs B ds

/-- First k base-B digits of x, little-endian. -/
def digs (B : Nat) : Nat → Nat → List Nat
  | 0, _ => []
  | k + 1, x => x % B :: digs B k (x / B)


/-- Merge pairs of base-4 digits into base-16 digits. -/
def pair4 : List Nat → List Nat
  | [] => []
  | [d] => [d]
  | d0 :: d1 :: r => (d0 + 4 * d1) :: pair4 r

/-- Merge pairs of base-16 digits into base-256 digits. -/
def pair16 : List Nat → List Nat
  | [] => []
  | [d] => [d]
  | d0 :: d1 :: r => (d0 + 16 * d1) :: pair16 r


/-! ### Masks for the SWAR steps -/

/-- Repeated mask 0x5...5 over k base-4 digits. -/
def m55 : Nat → Nat
  | 0 => 0
  | k + 1 => 1 + 4 * m55 k

/-- Repeated mask 0x3...3 over k base-16 digits. -/
def m33 : Nat → Nat
  | 0 => 0
  | k + 1 => 3 + 16 * m33 k

/-- Repeated mask 0x0f...0f over k base-256 digits. -/
def m0f : Nat → Nat
  | 0 => 0
  | k + 1 => 15 + 256 * m0f k


/-- Translation of _popcount (hamt.py lines 171-177), the 32-bit SWAR
population count.  Python integers are unbounded and nonnegative here, and
each subtraction in the routine is borrow-free, so Nat arithmetic agrees
with the Python source. -/
def popcount (x : Nat) : Nat :=
  let x1 := x - ((x >>> 1) &&& 0x55555555)
  let x2 := (x1 &&& 0x33333333) + ((x1 >>> 2) &&& 0x33333333)
  let x3 := (x2 + (x2 >>> 4)) &&& 0x0f0f0f0f
  let x4 := x3 + (x3 >>> 8)
  let x5 := x4 + (x4 >>> 16)
  x5 &&& 0x3f

/-! ### The node model

Embedding of the node classes of hamt.py.  Python None is Option.none; a
key or value is an Option D.  A BitmapNode array of alternating slots
array[2i], array[2i+1] is a list of pairs, its element i holding the two
slots of trie position i.  An even slot holds either a stored key (null
for the None key, obj d otherwise) or a child node; the translation mirrors
the dynamic isinstance and is-None dispatch of the source by matching on
the entry constructor.  Object identity between a slot and a plain value
(the is checks on values) is approximated by structural equality; identity
between nodes is tracked exactly by provenance flags, since the source
only ever compares a recursive result against the child it started from,
and a recursive call returns either that child itself or a fresh node. -/

mutual

inductive Entry (D : Type) : Type where
  | null : Entry D
  | obj : D → Entry D
  | node : Node D → Entry D

inductive Node (D : Type) : Type where
  | bitmap : Nat → List (Entry D × Entry D) → Node D
  | collision : List (Option D × Option D) → Node D

end

variable {D : Type} [DecidableEq D]

/-- Read a non-node slot back as a Python value; on a node entry the result
is junk (never read on well-formed trees, where odd slots of leaf pairs are
never nodes). -/
def Entry.toObj : Entry D → Option D
  | .null => none
  | .obj d => some d
  | .node _ => none

/-- Store a Python value into a slot. -/
def ofObj : Option D → Entry D
  | none => .null
  | some d => .obj d

/-- Python identity test between a stored slot and a plain value: a node is
never the same object as a non-node value; otherwise approximated by
equality. -/
def Entry.eqObj : Entry D → Option D → Bool
  | .node _, _ => false
  | e, v => decide (e.toObj = v)

/-- CollisionNode.find (hamt.py lines 139-143): scan the alternating items
list; none models the KeyError. -/
def collFind (items : List (Option D × Option D)) (key : Option D) :
    Option (Option D) :=
  match items with
  | [] => none
  | (k, v) :: rest => if k = key then some v else collFind rest key

/-- CollisionNode.assoc (lines 145-155).  none models return self (the key
is present with an identical value); some gives the items of the new
CollisionNode. -/
def collAssoc (items : List (Option D × Option D)) (key value : Option D) :
    Option (List (Option D × Option D)) :=
  match items with
  | [] => some [(key, value)]
  | (k, v) :: rest =>
    if k = key then
      if v = value then none
      else some ((k, value) :: rest)
    else
      match collAssoc rest key value with
      | none => none
      | some rest2 => some ((k, v) :: rest2)

/-- Removal scan of CollisionNode.without (lines 158-160): items with the
first pair matching the key removed, or none when the key is absent. -/
def collRemove (items : List (Option D × Option D)) (key : Option D) :
    Option (List (Option D × Option D)) :=
  match items with
  | [] => none
  | (k, v) :: rest =>
    if k = key then some rest
    else
      match collRemove rest key with
      | none => none
      | some rest2 => some ((k, v) :: rest2)

/-- CollisionNode.without (lines 157-164).  Outer none: KeyError.  Inner
none: the source returns None after removing (len(new_items) == 2, one pair
left), silently dropping the remaining pair. -/
def collWithout (items : List (Option D × Option D)) (key : Option D) :
    Option (Option (List (Option D × Option D))) :=
  match collRemove items key with
  | none => none
  | some items2 => if items2.length = 1 then some none else some (some items2)

/-- Recursion core of _create_node (lines 180-198).  The recursion adds 5
to shift and stops as soon as shift exceeds 25; from any start at most six
recursive steps happen, so with the fuel 7 supplied by create_node the
fuel-exhausted arm (which returns what the next base case would) is
unreachable; createNodeFuel_eq_create_node below makes that precise. -/
def createNodeGo (hsh : Option D → Nat) : Nat → Nat → Option D → Option D →
    Nat → Option D → Option D → Node D
  | fuel, shift, key1, val1, hash2, key2, val2 =>
    let hash1 := hsh key1
    if 25 < shift then .collision [(key1, val1), (key2, val2)]
    else
      let mask1 := (hash1 >>> shift) &&& 0x1f
      let mask2 := (hash2 >>> shift) &&& 0x1f
      if mask1 = mask2 then
        match fuel with
        | 0 => .collision [(key1, val1), (key2, val2)]
        | fuel + 1 =>
          let node := createNodeGo hsh fuel (shift + 5) key1 val1 hash2 key2 val2
          .bitmap (1 <<< mask1) [(.node node, .null)]
      else
        let bitmap := (1 <<< mask1) ||| (1 <<< mask2)
        if mask1 < mask2 then
          .bitmap bitmap [(ofObj key1, ofObj val1), (ofObj key2, ofObj val2)]
        else
          .bitmap bitmap [(ofObj key2, ofObj val2), (ofObj key1, ofObj val1)]

/-- Translation of _create_node (lines 180-198): build the spine separating
two keys below a given shift. -/
def create_node (hsh : Option D → Nat) (shift : Nat) (key1 val1 : Option D)
    (hash2 : Nat) (key2 val2 : Option D) : Node D :=
  createNodeGo hsh 7 shift key1 val1 hash2 key2 val2

/-- Fuel-explicit variant of _create_node, returning none when the fuel
runs out; used to settle that the recursion of _create_node terminates. -/
def createNodeFuel (hsh : Option D → Nat) : Nat → Nat → Option D → Option D →
    Nat → Option D → Option D → Option (Node D)
  | fuel, shift, key1, val1, hash2, key2, val2 =>
    let hash1 := hsh key1
    if 25 < shift then some (.collision [(key1, val1), (key2, val2)])
    else
      match fuel with
      | 0 => none
      | fuel + 1 =>
        let mask1 := (hash1 >>> shift) &&& 0x1f
        let mask2 := (hash2 >>> shift) &&& 0x1f
        if mask1 = mask2 then
          match createNodeFuel hsh fuel (shift + 5) key1 val1 hash2 key2 val2 with
          | none => none
          | some node => some (.bitmap (1 <<< mask1) [(.node node, .null)])
        else
          let bitmap := (1 <<< mask1) ||| (1 <<< mask2)
          if mask1 < mask2 then
            some (.bitmap bitmap [(ofObj key1, ofObj val1), (ofObj key2, ofObj val2)])
          else
            some (.bitmap bitmap [(ofObj key2, ofObj val2), (ofObj key1, ofObj val1)])

mutual

/-- BitmapNode.find and CollisionNode.find (lines 21-41, 139-143); none
models the KeyError.  Indexed array access array[2 idx] is rendered by the
walk findSlot. -/
def Node.find (n : Node D) (shift hashVal : Nat) (key : Option D) :
    Option (Option D) :=
  match n with
  | .collision items => collFind items key
  | .bitmap bitmap arr =>
    let bit := 1 <<< ((hashVal >>> shift) &&& 0x1f)
    if bitmap &&& bit = 0 then none
    else findSlot arr (popcount (bitmap &&& (bit - 1))) shift hashVal key
termination_by structural n

/-- Body of BitmapNode.find from line 27 on, at the probed slot: the
is-None branch (lines 29-34), the isinstance branch (36-37), and the leaf
comparison (39-41).  The out-of-bounds arm is unreachable on well-formed
nodes (Python would raise IndexError). -/
def findSlot (arr : List (Entry D × Entry D)) (idx shift hashVal : Nat)
    (key : Option D) : Option (Option D) :=
  match arr, idx with
  | [], _ => none
  | (.null, e2) :: _, 0 => if (none : Option D) = key then some e2.toObj else none
  | (.node child, _) :: _, 0 => child.find (shift + 5) hashVal key
  | (.obj d, e2) :: _, 0 => if some d = key then some e2.toObj else none
  | _ :: rest, i + 1 => findSlot rest i shift hashVal key
termination_by structural arr

end

mutual

/-- BitmapNode.assoc and CollisionNode.assoc (lines 43-87, 145-155).  The
boolean is true exactly when the source returns self. -/
def Node.assoc (hsh : Option D → Nat) (n : Node D) (shift hashVal : Nat)
    (key value : Option D) : Node D × Bool :=
  match n with
  | .collision items =>
    match collAssoc items key value with
    | none => (n, true)
    | some items2 => (.collision items2, false)
  | .bitmap bitmap arr =>
    let bit := 1 <<< ((hashVal >>> shift) &&& 0x1f)
    let idx := popcount (bitmap &&& (bit - 1))
    if bitmap &&& bit ≠ 0 then
      match assocSlot hsh arr idx shift hashVal key value with
      | none => (n, true)
      | some pr => (.bitmap bitmap (arr.set idx pr), false)
    else
      (.bitmap (bitmap ||| bit) (arr.take idx ++ (ofObj key, ofObj value) :: arr.drop idx),
        false)
termination_by structural n

/-- Occupied-bit body of BitmapNode.assoc (lines 47-79) at the probed slot.
none models return self; some gives the replacement for the slot pair.
Arm 2 is line 51 (both slots None); arm 3 the subtrie recursion (54-60);
arm 4 the leaf update (62-67) and the split (69-79).  The out-of-bounds
arm is unreachable on well-formed nodes. -/
def assocSlot (hsh : Option D → Nat) (arr : List (Entry D × Entry D))
    (idx shift hashVal : Nat) (key value : Option D) :
    Option (Entry D × Entry D) :=
  match arr, idx with
  | [], _ => none
  | (.null, .null) :: _, 0 => none
  | (.node child, e2) :: _, 0 =>
    let res := Node.assoc hsh child (shift + 5) hashVal key value
    if res.2 then none else some (.node res.1, e2)
  | (e1, e2) :: _, 0 =>
    if e1.toObj = key then
      if e2.eqObj value then none
      else some (e1, ofObj value)
    else
      let newNode :=
        if 25 ≤ shift then Node.collision [(e1.toObj, e2.toObj), (key, value)]
        else create_node hsh (shift + 5) e1.toObj e2.toObj hashVal key value
      some (.node newNode, .null)
  | _ :: rest, i + 1 => assocSlot hsh rest i shift hashVal key value
termination_by structural arr

end

/-- Result of a without call: err is the KeyError, gone the None return
(node collapsed), kept a returned node with the provenance flag telling
whether it is self. -/
inductive WRes (D : Type) : Type where
  | err : WRes D
  | gone : WRes D
  | kept : Node D → Bool → WRes D

/-- Outcome at the probed slot inside BitmapNode.without. -/
inductive WSlot (D : Type) : Type where
  | err : WSlot D
  | unchanged : WSlot D
  | replaced : Entry D × Entry D → WSlot D
  | vanish : WSlot D

mutual

/-- BitmapNode.without and CollisionNode.without (lines 89-120, 157-164). -/
def Node.without (n : Node D) (shift hashVal : Nat) (key : Option D) : WRes D :=
  match n with
  | .collision items =>
    match collWithout items key with
    | none => .err
    | some none => .gone
    | some (some items2) => .kept (.collision items2) false
  | .bitmap bitmap arr =>
    let bit := 1 <<< ((hashVal >>> shift) &&& 0x1f)
    if bitmap &&& bit = 0 then .err
    else
      let idx := popcount (bitmap &&& (bit - 1))
      match withoutSlot arr idx shift hashVal key with
      | .err => .err
      | .unchanged => .kept n true
      | .replaced pr => .kept (.bitmap bitmap (arr.set idx pr)) false
      | .vanish =>
        if popcount bitmap = 1 then .gone
        else
          .kept (.bitmap (bitmap &&& (0xffffffff ^^^ bit))
            (arr.take idx ++ arr.drop (idx + 1))) false
termination_by structural n

/-- Body of BitmapNode.without from line 95 on at the probed slot: subtrie
recursion (98-111) and leaf removal (113-120); vanish asks the caller to
drop the slot (either the child collapsed or the leaf matched), and the
caller then applies the popcount test of lines 104 and 116.  The bitmap
update bitmap & ~bit of the source is rendered as
bitmap &&& (0xffffffff ^^^ bit), which agrees with the Python
infinite-precision complement on every bitmap below 2 to the 32. -/
def withoutSlot (arr : List (Entry D × Entry D)) (idx shift hashVal : Nat)
    (key : Option D) : WSlot D :=
  match arr, idx with
  | [], _ => .err
  | (.node child, e2) :: _, 0 =>
    match Node.without child (shift + 5) hashVal key with
    | .err => .err
    | .kept _ true => .unchanged
    | .kept newNode false => .replaced (.node newNode, e2)
    | .gone => .vanish
  | (e1, e2) :: _, 0 =>
    if e1.toObj ≠ key then .err
    else .vanish
  | _ :: rest, i + 1 => withoutSlot rest i shift hashVal key
termination_by structural arr

end

mutual

/-- BitmapNode.--iter-- and CollisionNode.--iter-- (lines 122-130 and
166-168): keys in slot order; a subtrie is recursed into, a leaf with a
non-None key is yielded, and the elif of line 129 silently skips a leaf
pair whose key is None. -/
def Node.toList : Node D → List (Option D)
  | .bitmap _ arr => pairsKeys arr
  | .collision items => items.map Prod.fst
termination_by structural n => n

/-- Loop body of BitmapNode.--iter--. -/
def pairsKeys : List (Entry D × Entry D) → List (Option D)
  | [] => []
  | (e1, _) :: rest =>
    (match e1 with
     | .node child => child.toList
     | .null => []
     | .obj d => [some d]) ++ pairsKeys rest
termination_by structural arr => arr

end

mutual

/-- Count of leaf pairs plus collision-node entries reachable from a node:
the measure the specification equates with the stored size. -/
def Node.entryCount : Node D → Nat
  | .bitmap _ arr => pairsCount arr
  | .collision items => items.length
termination_by structural n => n

def pairsCount : List (Entry D × Entry D) → Nat
  | [] => 0
  | (e1, _) :: rest =>
    (match e1 with
     | .node child => child.entryCount
     | _ => 1) + pairsCount rest
termination_by structural arr => arr

end

mutual

/-- Key lists of every CollisionNode reachable from a node, in slot order;
an observer for the collision-node invariants. -/
def Node.collKeyLists : Node D → List (List (Option D))
  | .bitmap _ arr => pairsColl arr
  | .collision items => [items.map Prod.fst]
termination_by structural n => n

def pairsColl : List (Entry D × Entry D) → List (List (Option D))
  | [] => []
  | (e1, _) :: rest =>
    (match e1 with
     | .node child => child.collKeyLists
     | _ => []) ++ pairsColl rest
termination_by structural arr => arr

end

mutual

/-- Instrumentation of BitmapNode.find: true exactly when some call in the
descent enters the is-None branch of lines 29-34. -/
def Node.findNullHit (n : Node D) (shift hashVal : Nat) (key : Option D) : Bool :=
  match n with
  | .collision _ => false
  | .bitmap bitmap arr =>
    let bit := 1 <<< ((hashVal >>> shift) &&& 0x1f)
    if bitmap &&& bit = 0 then false
    else nullHitSlot arr (popcount (bitmap &&& (bit - 1))) shift hashVal key
termination_by structural n

def nullHitSlot (arr : List (Entry D × Entry D)) (idx shift hashVal : Nat)
    (key : Option D) : Bool :=
  match arr, idx with
  | [], _ => false
  | (.null, _) :: _, 0 => true
  | (.node child, _) :: _, 0 => child.findNullHit (shift + 5) hashVal key
  | _ :: _, 0 => false
  | _ :: rest, i + 1 => nullHitSlot rest i shift hashVal key
termination_by structural arr

end

/-! ### The container facade (class HAMT, lines 201-301) -/

/-- Container: root node (None for empty) and stored size.  The size is an
integer because the source decrements it without a guard. -/
structure HAMT (D : Type) : Type where
  root : Option (Node D)
  size : Int

/-- HAMT() with no items (lines 204-206). -/
def HAMT.empty (D : Type) : HAMT D := ⟨none, 0⟩

/-- HAMT._assoc_with_added (lines 217-227): returns the new node and the
added flag obtained by probing with find before assoc. -/
def assocWithAdded (hsh : Option D → Nat) (node : Option (Node D))
    (shift hashVal : Nat) (key value : Option D) : Node D × Bool :=
  match node with
  | none => (.bitmap (1 <<< ((hashVal >>> shift) &&& 0x1f)) [(ofObj key, ofObj value)], true)
  | some node =>
    match node.find shift hashVal key with
    | some _ => ((Node.assoc hsh node shift hashVal key value).1, false)
    | none => ((Node.assoc hsh node shift hashVal key value).1, true)

/-- HAMT.set (lines 242-250). -/
def HAMT.set (hsh : Option D → Nat) (c : HAMT D) (key value : Option D) : HAMT D :=
  match c.root with
  | none => ⟨some (.bitmap (1 <<< (hsh key &&& 0x1f)) [(ofObj key, ofObj value)]), 1⟩
  | some r =>
    let res := assocWithAdded hsh (some r) 0 (hsh key) key value
    ⟨some res.1, c.size + if res.2 then 1 else 0⟩

/-- HAMT.get with default (lines 229-235); total by recovery. -/
def HAMT.get (hsh : Option D → Nat) (c : HAMT D) (key default : Option D) : Option D :=
  match c.root with
  | none => default
  | some r =>
    match r.find 0 (hsh key) key with
    | some v => v
    | none => default

/-- HAMT.--getitem-- (lines 237-240); none models the KeyError escaping to
the caller. -/
def HAMT.getItem (hsh : Option D → Nat) (c : HAMT D) (key : Option D) :
    Option (Option D) :=
  match c.root with
  | none => none
  | some r => r.find 0 (hsh key) key

/-- HAMT.delete (lines 252-260); none models the KeyError escaping to the
caller, in which case no container is produced. -/
def HAMT.delete (hsh : Option D → Nat) (c : HAMT D) (key : Option D) :
    Option (HAMT D) :=
  match c.root with
  | none => none
  | some r =>
    match r.without 0 (hsh key) key with
    | .err => none
    | .gone => some ⟨none, c.size - 1⟩
    | .kept n _ => some ⟨some n, c.size - 1⟩

/-- HAMT.--contains-- (lines 262-269). -/
def HAMT.contains (hsh : Option D → Nat) (c : HAMT D) (key : Option D) : Bool :=
  match c.root with
  | none => false
  | some r => (r.find 0 (hsh key) key).isSome

/-- HAMT.--iter-- (lines 274-276): the key sequence the container yields. -/
def HAMT.toList (c : HAMT D) : List (Option D) :=
  match c.root with
  | none => []
  | some r => r.toList

/-- HAMT.--len-- (lines 271-272). -/
def HAMT.len (c : HAMT D) : Int := c.size

/-- Reachable entry count of a container, the specification measure for
the size invariant. -/
def HAMT.entryCount (c : HAMT D) : Nat :=
  match c.root with
  | none => 0
  | some r => r.entryCount

/-- Collision-node key lists of a container. -/
def HAMT.collKeyLists (c : HAMT D) : List (List (Option D)) :=
  match c.root with
  | none => []
  | some r => r.collKeyLists

/-- Instrumented lookup: does a lookup of key execute the is-None branch
of BitmapNode.find anywhere. -/
def HAMT.findNullHit (hsh : Option D → Nat) (c : HAMT D) (key : Option D) : Bool :=
  match c.root with
  | none => false
  | some r => r.findNullHit 0 (hsh key) key


/-- Discriminator for node entries. -/
def Entry.isNode : Entry D → Bool
  | .node _ => true
  | _ => false

mutual

/-- Structural sanity of slot pairs: the odd slot of a leaf pair never
holds a node (the source only ever stores values there, and stores the
None sentinel next to a child node). -/
def Node.valsOk : Node D → Bool
  | .bitmap _ arr => pairsValsOk arr
  | .collision _ => true
termination_by structural n => n

def pairsValsOk : List (Entry D × Entry D) → Bool
  | [] => true
  | (.node child, _) :: rest => child.valsOk && pairsValsOk rest
  | (e1, e2) :: rest => !e2.isNode && pairsValsOk rest
termination_by structural arr => arr

end

/-- Structural sanity of a container. -/
def HAMT.valsOk (c : HAMT D) : Bool :=
  match c.root with
  | none => true
  | some r => r.valsOk


/-- Bit i of a bitmap, arithmetically. -/
def bitAt (bm i : Nat) : Nat := (bm / 2 ^ i) % 2

/-- Compressed slot index of trie position i: number of set bits below i. -/
def slotIdx (bm i : Nat) : Nat := bitcount (bm % 2 ^ i)

mutual

/-- Well-formed slot pair at trie position i of a node at the given shift
with established prefix acc: either a leaf whose key hashes into this
position, or a well-formed child one level deeper. -/
inductive SlotWF (hsh : Option D → Nat) : Entry D × Entry D → Nat → Nat → Nat → Prop where
  | leaf : ∀ (k v : Option D) (shift acc i : Nat),
      hsh k % 2 ^ (shift + 5) = acc + 2 ^ shift * i →
      SlotWF hsh (ofObj k, ofObj v) shift acc i
  | child : ∀ (c : Node D) (shift acc i : Nat),
      WFN hsh c (shift + 5) (acc + 2 ^ shift * i) →
      SlotWF hsh (.node c, .null) shift acc i

/-- Well-formed node at a given shift with a given established hash prefix
acc (the value of the hash bits consumed on the path): bitmap width and
slot count agree, every populated slot is well formed at its position,
bitmap nodes only occur at shifts 0, 5, ..., 25, and collision nodes sit
at shift 30 holding at least two pairwise-distinct keys which all hash to
the established 30-bit prefix. -/
inductive WFN (hsh : Option D → Nat) : Node D → Nat → Nat → Prop where
  | bitmap : ∀ {bm : Nat} {arr : List (Entry D × Entry D)} {shift acc : Nat},
      shift ≤ 25 → 5 ∣ shift → acc < 2 ^ shift →
      bm < 2 ^ 32 →
      arr.length = bitcount bm →
      (∀ i, i < 32 → bitAt bm i = 1 →
        SlotWF hsh (arr.getD (slotIdx bm i) (.null, .null)) shift acc i) →
      WFN hsh (.bitmap bm arr) shift acc
  | collision : ∀ {items : List (Option D × Option D)} {acc : Nat},
      acc < 2 ^ 30 →
      2 ≤ items.length →
      (∀ p ∈ items, hsh p.1 % 2 ^ 30 = acc) →
      items.Pairwise (fun p q => p.1 ≠ q.1) →
      WFN hsh (.collision items) 30 acc

end

/-- Well-formed container: a present root is well formed at the top. -/
def WFC (hsh : Option D → Nat) (c : HAMT D) : Prop :=
  ∀ r, c.root = some r → WFN hsh r 0 0

/-- Containers reachable from the empty container by the public write
operations (set, and delete when it succeeds). -/
inductive Reach (hsh : Option D → Nat) : HAMT D → Prop where
  | empty : Reach hsh (HAMT.empty D)
  | set : ∀ {c : HAMT D} (key value : Option D), Reach hsh c →
      Reach hsh (c.set hsh key value)
  | delete : ∀ {c c2 : HAMT D} (key : Option D), Reach hsh c →
      c.delete hsh key = some c2 → Reach hsh c2


/-! ### Concrete scenario containers

Containers built only through the public operations, used to evaluate the
code on the inputs that decide the claims. -/

/-- Constant hash: every key collides on every slice. -/
def hshZero : Option Nat → Nat := fun _ => 0

/-- Hash agreeing on the dispatched low 30 bits for the keys 0 and 1 while
their full 32-bit hashes differ. -/
def hshSplit : Option Nat → Nat := fun o => if o = some 1 then 2 ^ 30 else 0

/-- Container mapping the None key to the None value. -/
def hamtNoneNone : HAMT Nat := (HAMT.empty Nat).set hshZero none none

/-- The previous container after a second write of 5 to the None key. -/
def hamtNoneOverwrite : HAMT Nat := hamtNoneNone.set hshZero none (some 5)

/-- Two keys with identical hash: the trie carries a CollisionNode of two
pairs at the depth ceiling. -/
def hamtTwoColl : HAMT Nat :=
  ((HAMT.empty Nat).set hshZero (some 1) (some 10)).set hshZero (some 2) (some 20)

/-- Container holding only the None key. -/
def hamtNoneKey : HAMT Nat := (HAMT.empty Nat).set hshZero none (some 7)

/-- Two keys whose hashes agree modulo 2 to the 30 and differ above it. -/
def hamtSplitColl : HAMT Nat :=
  ((HAMT.empty Nat).set hshSplit (some 0) (some 10)).set hshSplit (some 1) (some 11)


/-! ### Slot interpretations

The body of each bitmap walker at the probed slot, as a function of the
slot pair; the characterization lemmas below show each walker agrees with
its interpretation at every in-bounds index. -/

/-- Body of findSlot at the probed pair. -/
def slotFind (p : Entry D × Entry D) (shift hashVal : Nat) (key : Option D) :
    Option (Option D) :=
  match p with
  | (.null, e2) => if (none : Option D) = key then some e2.toObj else none
  | (.node child, _) => child.find (shift + 5) hashVal key
  | (.obj d, e2) => if some d = key then some e2.toObj else none

/-- Body of assocSlot at the probed pair. -/
def slotAssoc (hsh : Option D → Nat) (p : Entry D × Entry D)
    (shift hashVal : Nat) (key value : Option D) : Option (Entry D × Entry D) :=
  match p with
  | (.null, .null) => none
  | (.node child, e2) =>
    let res := Node.assoc hsh child (shift + 5) hashVal key value
    if res.2 then none else some (.node res.1, e2)
  | (e1, e2) =>
    if e1.toObj = key then
      if e2.eqObj value then none
      else some (e1, ofObj value)
    else
      let newNode :=
        if 25 ≤ shift then Node.collision [(e1.toObj, e2.toObj), (key, value)]
        else create_node hsh (shift + 5) e1.toObj e2.toObj hashVal key value
      some (.node newNode, .null)

/-- Body of withoutSlot at the probed pair. -/
def slotWithout (p : Entry D × Entry D) (shift hashVal : Nat) (key : Option D) :
    WSlot D :=
  match p with
  | (.node child, e2) =>
    match Node.without child (shift + 5) hashVal key with
    | .err => .err
    | .kept _ true => .unchanged
    | .kept newNode false => .replaced (.node newNode, e2)
    | .gone => .vanish
  | (e1, _) => if e1.toObj ≠ key then .err else .vanish

/-- Body of nullHitSlot at the probed pair. -/
def slotNullHit (p : Entry D × Entry D) (shift hashVal : Nat) (key : Option D) :
    Bool :=
  match p with
  | (.null, _) => true
  | (.node child, _) => child.findNullHit (shift + 5) hashVal key
  | _ => false

/-! ### Heap rendering for the persistence claim

The structural model above cannot express Python object identity or
mutation, so the operations are rendered a second time over an explicit
object heap: nodes live at addresses (indices into a list), a slot holds
None, a plain value, or a pointer, and constructing a node in the source
(BitmapNode(...), CollisionNode([...])) appends to the heap.  A method
returning self returns its own address unchanged.  Every recursion goes
through the heap, so the functions carry fuel; the fuel-exhausted arm
returns the failure value and is irrelevant to the frame property, which
is proved for every fuel. -/

/-- Heap slot value: the None sentinel, a plain value, or a node pointer. -/
inductive HEntry (D : Type) : Type where
  | null : HEntry D
  | obj : D → HEntry D
  | ptr : Nat → HEntry D
deriving DecidableEq

/-- Heap node: BitmapNode or CollisionNode with pointer slots. -/
inductive HNode (D : Type) : Type where
  | bitmap : Nat → List (HEntry D × HEntry D) → HNode D
  | collision : List (Option D × Option D) → HNode D
deriving DecidableEq

/-- Read a heap slot as a Python value. -/
def HEntry.toObj : HEntry D → Option D
  | .null => none
  | .obj d => some d
  | .ptr _ => none

/-- Store a Python value into a heap slot. -/
def hOfObj : Option D → HEntry D
  | none => .null
  | some d => .obj d

/-- Python identity test between a heap slot and a plain value. -/
def HEntry.eqObj : HEntry D → Option D → Bool
  | .ptr _, _ => false
  | e, v => decide (e.toObj = v)

/-- BitmapNode.find and CollisionNode.find over the heap (lines 21-41,
139-143); a is the node address, none the KeyError (or exhausted fuel). -/
def findH : Nat → List (HNode D) → Nat → Nat → Nat → Option D → Option (Option D)
  | 0, _, _, _, _, _ => none
  | fuel + 1, heap, a, shift, hashVal, key =>
    match heap[a]? with
    | none => none
    | some (.collision items) => collFind items key
    | some (.bitmap bitmap arr) =>
      let bit := 1 <<< ((hashVal >>> shift) &&& 0x1f)
      if bitmap &&& bit = 0 then none
      else
        match arr.getD (popcount (bitmap &&& (bit - 1))) (.null, .null) with
        | (.null, e2) => if (none : Option D) = key then some e2.toObj else none
        | (.ptr child, _) => findH fuel heap child (shift + 5) hashVal key
        | (.obj d, e2) => if some d = key then some e2.toObj else none

/-- _create_node over the heap (lines 180-198): allocates the spine and
returns the extended heap with the address of the new node. -/
def createNodeH (hsh : Option D → Nat) : Nat → List (HNode D) → Nat → Option D →
    Option D → Nat → Option D → Option D → Option (List (HNode D) × Nat)
  | 0, _, _, _, _, _, _, _ => none
  | fuel + 1, heap, shift, key1, val1, hash2, key2, val2 =>
    let hash1 := hsh key1
    if 25 < shift then
      some (heap ++ [.collision [(key1, val1), (key2, val2)]], heap.length)
    else
      let mask1 := (hash1 >>> shift) &&& 0x1f
      let mask2 := (hash2 >>> shift) &&& 0x1f
      if mask1 = mask2 then
        match createNodeH hsh fuel heap (shift + 5) key1 val1 hash2 key2 val2 with
        | none => none
        | some (heap2, node) =>
          some (heap2 ++ [.bitmap (1 <<< mask1) [(.ptr node, .null)]], heap2.length)
      else
        let bitmap := (1 <<< mask1) ||| (1 <<< mask2)
        if mask1 < mask2 then
          some (heap ++ [.bitmap bitmap [(hOfObj key1, hOfObj val1), (hOfObj key2, hOfObj val2)]],
            heap.length)
        else
          some (heap ++ [.bitmap bitmap [(hOfObj key2, hOfObj val2), (hOfObj key1, hOfObj val1)]],
            heap.length)

/-- BitmapNode.assoc and CollisionNode.assoc over the heap (lines 43-87,
145-155): returns the extended heap and the address of the result; the
source's return self is returning the probed address itself, and the
identity test new_node is key_or_node of line 56 is address equality. -/
def assocH (hsh : Option D → Nat) : Nat → List (HNode D) → Nat → Nat → Nat →
    Option D → Option D → Option (List (HNode D) × Nat)
  | 0, _, _, _, _, _, _ => none
  | fuel + 1, heap, a, shift, hashVal, key, value =>
    match heap[a]? with
    | none => none
    | some (.collision items) =>
      match collAssoc items key value with
      | none => some (heap, a)
      | some items2 => some (heap ++ [.collision items2], heap.length)
    | some (.bitmap bitmap arr) =>
      let bit := 1 <<< ((hashVal >>> shift) &&& 0x1f)
      let idx := popcount (bitmap &&& (bit - 1))
      if bitmap &&& bit ≠ 0 then
        match arr.getD idx (.null, .null) with
        | (.null, .null) => some (heap, a)
        | (.ptr child, e2) =>
          match assocH hsh fuel heap child (shift + 5) hashVal key value with
          | none => none
          | some (heap2, newNode) =>
            if newNode = child then some (heap2, a)
            else some (heap2 ++ [.bitmap bitmap (arr.set idx (.ptr newNode, e2))],
              heap2.length)
        | (e1, e2) =>
          if e1.toObj = key then
            if e2.eqObj value then some (heap, a)
            else some (heap ++ [.bitmap bitmap (arr.set idx (e1, hOfObj value))],
              heap.length)
          else
            if 25 ≤ shift then
              some (heap ++ [.collision [(e1.toObj, e2.toObj), (key, value)],
                .bitmap bitmap (arr.set idx (.ptr heap.length, .null))], heap.length + 1)
            else
              match createNodeH hsh fuel heap (shift + 5) e1.toObj e2.toObj
                  hashVal key value with
              | none => none
              | some (heap2, newNode) =>
                some (heap2 ++ [.bitmap bitmap (arr.set idx (.ptr newNode, .null))],
                  heap2.length)
      else
        some (heap ++ [.bitmap (bitmap ||| bit)
          (arr.take idx ++ (hOfObj key, hOfObj value) :: arr.drop idx)], heap.length)

/-- Result of a heap without: KeyError, collapsed to None, or a kept node
address in the extended heap. -/
inductive WResH (D : Type) : Type where
  | err : WResH D
  | gone : WResH D
  | kept : List (HNode D) → Nat → WResH D

/-- BitmapNode.without and CollisionNode.without over the heap (lines
89-120, 157-164); returning self is returning the probed address. -/
def withoutH : Nat → List (HNode D) → Nat → Nat → Nat → Option D → Option (WResH D)
  | 0, _, _, _, _, _ => none
  | fuel + 1, heap, a, shift, hashVal, key =>
    match heap[a]? with
    | none => none
    | some (.collision items) =>
      match collWithout items key with
      | none => some .err
      | some none => some .gone
      | some (some items2) => some (.kept (heap ++ [.collision items2]) heap.length)
    | some (.bitmap bitmap arr) =>
      let bit := 1 <<< ((hashVal >>> shift) &&& 0x1f)
      if bitmap &&& bit = 0 then some .err
      else
        let idx := popcount (bitmap &&& (bit - 1))
        match arr.getD idx (.null, .null) with
        | (.ptr child, e2) =>
          match withoutH fuel heap child (shift + 5) hashVal key with
          | none => none
          | some .err => some .err
          | some (.kept heap2 newNode) =>
            if newNode = child then some (.kept heap2 a)
            else some (.kept (heap2 ++ [.bitmap bitmap (arr.set idx (.ptr newNode, e2))])
              heap2.length)
          | some .gone =>
            if popcount bitmap = 1 then some .gone
            else some (.kept (heap ++ [.bitmap (bitmap &&& (0xffffffff ^^^ bit))
              (arr.take idx ++ arr.drop (idx + 1))]) heap.length)
        | (e1, _) =>
          if e1.toObj ≠ key then some .err
          else if popcount bitmap = 1 then some .gone
          else some (.kept (heap ++ [.bitmap (bitmap &&& (0xffffffff ^^^ bit))
            (arr.take idx ++ arr.drop (idx + 1))]) heap.length)

mutual

/-- BitmapNode.--iter-- and CollisionNode.--iter-- over the heap (lines
122-130, 166-168). -/
def toListH : Nat → List (HNode D) → Nat → List (Option D)
  | 0, _, _ => []
  | fuel + 1, heap, a =>
    match heap[a]? with
    | none => []
    | some (.collision items) => items.map Prod.fst
    | some (.bitmap _ arr) => pairsKeysH fuel heap arr
termination_by fuel _ _ => (fuel, 0)

/-- Loop body of BitmapNode.--iter-- over the heap. -/
def pairsKeysH : Nat → List (HNode D) → List (HEntry D × HEntry D) → List (Option D)
  | _, _, [] => []
  | fuel, heap, (e1, _) :: rest =>
    (match e1 with
     | .ptr child => toListH fuel heap child
     | .null => []
     | .obj d => [some d]) ++ pairsKeysH fuel heap rest
termination_by fuel _ arr => (fuel, arr.length + 1)

end

/-- Container over the heap. -/
structure HHAMT (D : Type) : Type where
  heap : List (HNode D)
  root : Option Nat
  size : Int
deriving DecidableEq

/-- HAMT.set over the heap (lines 242-250, with _assoc_with_added of
lines 217-227 inlined: the find probe only computes the added flag). -/
def HHAMT.setH (hsh : Option D → Nat) (c : HHAMT D) (key value : Option D)
    (fuel : Nat) : Option (HHAMT D) :=
  match c.root with
  | none =>
    some ⟨c.heap ++ [.bitmap (1 <<< (hsh key &&& 0x1f)) [(hOfObj key, hOfObj value)]],
      some c.heap.length, 1⟩
  | some r =>
    match assocH hsh fuel c.heap r 0 (hsh key) key value with
    | none => none
    | some (heap2, r2) =>
      some ⟨heap2, some r2,
        c.size + if findH fuel c.heap r 0 (hsh key) key = none then 1 else 0⟩

/-- HAMT.delete over the heap (lines 252-260); none covers the KeyError
and exhausted fuel. -/
def HHAMT.deleteH (hsh : Option D → Nat) (c : HHAMT D) (key : Option D)
    (fuel : Nat) : Option (HHAMT D) :=
  match c.root with
  | none => none
  | some r =>
    match withoutH fuel c.heap r 0 (hsh key) key with
    | none => none
    | some .err => none
    | some .gone => some ⟨c.heap, none, c.size - 1⟩
    | some (.kept heap2 r2) => some ⟨heap2, some r2, c.size - 1⟩

/-- HAMT.--contains-- read off an explicitly chosen heap: the container
record c is the old container, heap the heap to dereference it in. -/
def HHAMT.containsIn (hsh : Option D → Nat) (heap : List (HNode D)) (c : HHAMT D)
    (key : Option D) (fuel : Nat) : Bool :=
  match c.root with
  | none => false
  | some r => (findH fuel heap r 0 (hsh key) key).isSome

/-- HAMT.get read off an explicitly chosen heap. -/
def HHAMT.getIn (hsh : Option D → Nat) (heap : List (HNode D)) (c : HHAMT D)
    (key default : Option D) (fuel : Nat) : Option D :=
  match c.root with
  | none => default
  | some r =>
    match findH fuel heap r 0 (hsh key) key with
    | some v => v
    | none => default

/-- HAMT.--iter-- read off an explicitly chosen heap. -/
def HHAMT.keysIn (heap : List (HNode D)) (c : HHAMT D) (fuel : Nat) :
    List (Option D) :=
  match c.root with
  | none => []
  | some r => toListH fuel heap r

/-- All pointers of a node lie below a given address. -/
def HNode.ptrsBelow : HNode D → Nat → Bool
  | .collision _, _ => true
  | .bitmap _ arr, a =>
    arr.all fun p =>
      (match p.1 with
       | .ptr c => decide (c < a)
       | _ => true)
      && (match p.2 with
       | .ptr c => decide (c < a)
       | _ => true)

/-- Heap closure from a base address: every node points only below its
own address (allocation order), so dereferences stay in the heap. -/
def heapClosedFrom : List (HNode D) → Nat → Bool
  | [], _ => true
  | nd :: rest, i => nd.ptrsBelow i && heapClosedFrom rest (i + 1)

/-- Closed heap. -/
def heapClosed (heap : List (HNode D)) : Bool := heapClosedFrom heap 0

/-- Closed container: closed heap and an in-heap root. -/
def HHClosed (c : HHAMT D) : Bool :=
  heapClosed c.heap &&
    match c.root with
    | none => true
    | some r => decide (r < c.heap.length)

/-- The new heap extends the old: same nodes at every old address. -/
def HeapExtends (heap2 heap : List (HNode D)) : Prop :=
  heap.length ≤ heap2.length ∧ ∀ i, i < heap.length → heap2[i]? = heap[i]?

/-- A sample closed container for evaluating the persistence theorem: one
root BitmapNode holding the key 1 with value 2 under the constant hash. -/
def hheapEx : HHAMT Nat :=
  ⟨[HNode.bitmap 1 [(HEntry.obj 1, HEntry.obj 2)]], some 0, 1⟩

/-- The container the sample set call produces. -/
def hheapEx2 : HHAMT Nat :=
  (HHAMT.setH hshZero hheapEx (some 3) (some 4) 8).getD ⟨[], none, 0⟩


/-! ### Bit counting and SWAR lemmas -/

theorem bitcount_eq (n : Nat) : bitcount n = n % 2 + bitcount (n / 2) := by
  cases n with
  | zero => simp [bitcount]
  | succ m => rw [bitcount]

theorem bitcount_zero : bitcount 0 = 0 := by simp [bitcount]

theorem bitcount_two_mul_add {b : Nat} (x : Nat) (hb : b < 2) :
    bitcount (b + 2 * x) = b + bitcount x := by
  rw [bitcount_eq]
  have h1 : (b + 2 * x) % 2 = b := by omega
  have h2 : (b + 2 * x) / 2 = x := by omega
  rw [h1, h2]

theorem bitcount_one : bitcount 1 = 1 := by
  rw [bitcount_eq]
  simp [bitcount_zero]

/-- Additivity of bitcount over a split at bit position i. -/
theorem bitcount_add_mul_pow :
    ∀ (i a c : Nat), a < 2 ^ i → bitcount (a + 2 ^ i * c) = bitcount a + bitcount c := by
  intro i
  induction i with
  | zero =>
    intro a c ha
    interval_cases a
    simp [bitcount_zero]
  | succ i ih =>
    intro a c ha
    have hpow : (2 : Nat) ^ (i + 1) = 2 * 2 ^ i := by ring
    have ha2 : a / 2 < 2 ^ i := by omega
    have hmul : 2 ^ (i + 1) * c = 2 * (2 ^ i * c) := by rw [hpow]; ring
    have hrw : a + 2 ^ (i + 1) * c = a % 2 + 2 * (a / 2 + 2 ^ i * c) := by omega
    rw [hrw, bitcount_two_mul_add _ (Nat.mod_lt a (by omega)), ih _ c ha2,
      bitcount_eq a]
    omega

theorem bitcount_lt_two_pow {x k : Nat} (h : x < 2 ^ k) : bitcount x ≤ k := by
  induction k generalizing x with
  | zero => interval_cases x; simp [bitcount_zero]
  | succ k ih =>
    rw [bitcount_eq]
    have : x / 2 < 2 ^ k := by
      have : (2 : Nat) ^ (k + 1) = 2 ^ k * 2 := by ring
      omega
    have := ih this
    omega

theorem bitcount_two_pow (i : Nat) : bitcount (2 ^ i) = 1 := by
  have h := bitcount_add_mul_pow i 0 1 (Nat.pos_pow_of_pos i (by omega))
  simpa [bitcount_zero, bitcount_one] using h

/-! ### Splitting bitwise operations at a power of two -/

theorem land_split {w a c : Nat} (b d : Nat) (ha : a < 2 ^ w) (hc : c < 2 ^ w) :
    (2 ^ w * b + a) &&& (2 ^ w * d + c) = 2 ^ w * (b &&& d) + (a &&& c) := by
  apply Nat.eq_of_testBit_eq
  intro j
  rw [Nat.testBit_and, Nat.testBit_mul_pow_two_add _ ha,
    Nat.testBit_mul_pow_two_add _ hc,
    Nat.testBit_mul_pow_two_add _ (Nat.and_lt_two_pow a hc)]
  by_cases h : j < w <;> simp [h, Nat.testBit_and]

theorem lor_split {w a c : Nat} (b d : Nat) (ha : a < 2 ^ w) (hc : c < 2 ^ w) :
    (2 ^ w * b + a) ||| (2 ^ w * d + c) = 2 ^ w * (b ||| d) + (a ||| c) := by
  apply Nat.eq_of_testBit_eq
  intro j
  rw [Nat.testBit_or, Nat.testBit_mul_pow_two_add _ ha,
    Nat.testBit_mul_pow_two_add _ hc,
    Nat.testBit_mul_pow_two_add _ (Nat.or_lt_two_pow ha hc)]
  by_cases h : j < w <;> simp [h, Nat.testBit_or]

theorem xor_split {w a c : Nat} (b d : Nat) (ha : a < 2 ^ w) (hc : c < 2 ^ w) :
    (2 ^ w * b + a) ^^^ (2 ^ w * d + c) = 2 ^ w * (b ^^^ d) + (a ^^^ c) := by
  apply Nat.eq_of_testBit_eq
  intro j
  rw [Nat.testBit_xor, Nat.testBit_mul_pow_two_add _ ha,
    Nat.testBit_mul_pow_two_add _ hc,
    Nat.testBit_mul_pow_two_add _ (Nat.xor_lt_two_pow ha hc)]
  by_cases h : j < w <;> simp [h, Nat.testBit_xor]

theorem land_ones_of_lt {a w : Nat} (ha : a < 2 ^ w) : a &&& (2 ^ w - 1) = a :=
  Nat.and_pow_two_sub_one_of_lt_two_pow ha

theorem land_split4 {a c : Nat} (b d : Nat) (ha : a < 4) (hc : c < 4) :
    (4 * b + a) &&& (4 * d + c) = 4 * (b &&& d) + (a &&& c) := by
  have h := @land_split 2 a c b d (by omega) (by omega)
  norm_num at h
  exact h

theorem land_split16 {a c : Nat} (b d : Nat) (ha : a < 16) (hc : c < 16) :
    (16 * b + a) &&& (16 * d + c) = 16 * (b &&& d) + (a &&& c) := by
  have h := @land_split 4 a c b d (by omega) (by omega)
  norm_num at h
  exact h

theorem land_split256 {a c : Nat} (b d : Nat) (ha : a < 256) (hc : c < 256) :
    (256 * b + a) &&& (256 * d + c) = 256 * (b &&& d) + (a &&& c) := by
  have h := @land_split 8 a c b d (by omega) (by omega)
  norm_num at h
  exact h

theorem land_three_eq_mod (e : Nat) : e &&& 3 = e % 4 := by
  have h := Nat.and_pow_two_sub_one_eq_mod e 2
  norm_num at h
  exact h

theorem land_fifteen_eq_mod (e : Nat) : e &&& 15 = e % 16 := by
  have h := Nat.and_pow_two_sub_one_eq_mod e 4
  norm_num at h
  exact h

theorem digs_length (B : Nat) : ∀ (k x : Nat), (digs B k x).length = k
  | 0, _ => rfl
  | k + 1, x => by simp [digs, digs_length B k]

theorem digs_lt {B : Nat} (hB : 0 < B) : ∀ (k x : Nat), ∀ d ∈ digs B k x, d < B
  | 0, _ => by simp [digs]
  | k + 1, x => by
    intro d hd
    simp only [digs, List.mem_cons] at hd
    rcases hd with h | h
    · subst h
      exact Nat.mod_lt x hB
    · exact digs_lt hB k (x / B) d h

theorem ofDigs_digs {B : Nat} (hB : 1 < B) :
    ∀ (k x : Nat), x < B ^ k → ofDigs B (digs B k x) = x
  | 0, x, hx => by
    rw [pow_zero] at hx
    have hx0 : x = 0 := by omega
    subst hx0
    rfl
  | k + 1, x, hx => by
    have hdiv : x / B < B ^ k := by
      rw [Nat.div_lt_iff_lt_mul (by omega)]
      calc x < B ^ (k + 1) := hx
        _ = B ^ k * B := by ring
    simp only [digs, ofDigs]
    rw [ofDigs_digs hB k (x / B) hdiv]
    exact Nat.mod_add_div x B

theorem ofDigs_pair4 : ∀ l : List Nat, ofDigs 4 l = ofDigs 16 (pair4 l)
  | [] => rfl
  | [d] => by simp [ofDigs, pair4]
  | d0 :: d1 :: r => by
    simp only [ofDigs, pair4, ofDigs_pair4 r]
    ring

theorem ofDigs_pair16 : ∀ l : List Nat, ofDigs 16 l = ofDigs 256 (pair16 l)
  | [] => rfl
  | [d] => by simp [ofDigs, pair16]
  | d0 :: d1 :: r => by
    simp only [ofDigs, pair16, ofDigs_pair16 r]
    ring

theorem pair4_length : ∀ l : List Nat, (pair4 l).length = (l.length + 1) / 2
  | [] => rfl
  | [d] => by simp [pair4]
  | d0 :: d1 :: r => by
    simp only [pair4, List.length_cons, pair4_length r]
    omega

theorem pair16_length : ∀ l : List Nat, (pair16 l).length = (l.length + 1) / 2
  | [] => rfl
  | [d] => by simp [pair16]
  | d0 :: d1 :: r => by
    simp only [pair16, List.length_cons, pair16_length r]
    omega

theorem pair4_bounds : ∀ l : List Nat, (∀ d ∈ l, d ≤ 2) →
    ∀ e ∈ pair4 l, e % 4 ≤ 2 ∧ e / 4 ≤ 2
  | [], _ => by simp [pair4]
  | [d], h => by
    have hd : d ≤ 2 := h d (by simp)
    intro e he
    simp only [pair4, List.mem_singleton] at he
    subst he
    omega
  | d0 :: d1 :: r, h => by
    have h0 : d0 ≤ 2 := h d0 (by simp)
    have h1 : d1 ≤ 2 := h d1 (by simp)
    have hr : ∀ d ∈ r, d ≤ 2 := fun d hd => h d (by simp [hd])
    intro e he
    simp only [pair4, List.mem_cons] at he
    rcases he with he | he
    · subst he
      omega
    · exact pair4_bounds r hr e he

theorem pair16_bounds : ∀ l : List Nat, (∀ d ∈ l, d ≤ 4) →
    ∀ e ∈ pair16 l, e % 16 ≤ 4 ∧ e / 16 ≤ 4
  | [], _ => by simp [pair16]
  | [d], h => by
    have hd : d ≤ 4 := h d (by simp)
    intro e he
    simp only [pair16, List.mem_singleton] at he
    subst he
    omega
  | d0 :: d1 :: r, h => by
    have h0 : d0 ≤ 4 := h d0 (by simp)
    have h1 : d1 ≤ 4 := h d1 (by simp)
    have hr : ∀ d ∈ r, d ≤ 4 := fun d hd => h d (by simp [hd])
    intro e he
    simp only [pair16, List.mem_cons] at he
    rcases he with he | he
    · subst he
      omega
    · exact pair16_bounds r hr e he

theorem sum_pair4 : ∀ l : List Nat, (∀ d ∈ l, d ≤ 2) →
    ((pair4 l).map fun e => e % 4 + e / 4).sum = l.sum
  | [], _ => rfl
  | [d], h => by
    have hd : d ≤ 2 := h d (by simp)
    simp only [pair4, List.map_cons, List.map_nil, List.sum_cons, List.sum_nil]
    omega
  | d0 :: d1 :: r, h => by
    have h0 : d0 ≤ 2 := h d0 (by simp)
    have h1 : d1 ≤ 2 := h d1 (by simp)
    have hr : ∀ d ∈ r, d ≤ 2 := fun d hd => h d (by simp [hd])
    simp only [pair4, List.map_cons, List.sum_cons, sum_pair4 r hr, List.sum_cons]
    omega

theorem sum_pair16 : ∀ l : List Nat, (∀ d ∈ l, d ≤ 4) →
    ((pair16 l).map fun e => e % 16 + e / 16).sum = l.sum
  | [], _ => rfl
  | [d], h => by
    have hd : d ≤ 4 := h d (by simp)
    simp only [pair16, List.map_cons, List.map_nil, List.sum_cons, List.sum_nil]
    omega
  | d0 :: d1 :: r, h => by
    have h0 : d0 ≤ 4 := h d0 (by simp)
    have h1 : d1 ≤ 4 := h d1 (by simp)
    have hr : ∀ d ∈ r, d ≤ 4 := fun d hd => h d (by simp [hd])
    simp only [pair16, List.map_cons, List.sum_cons, sum_pair16 r hr, List.sum_cons]
    omega

theorem bitcount_ofDigs4 : ∀ l : List Nat, (∀ d ∈ l, d < 4) →
    bitcount (ofDigs 4 l) = (l.map bitcount).sum
  | [], _ => by simp [ofDigs, bitcount_zero]
  | d :: r, h => by
    have hd : d < 4 := h d (by simp)
    have hr : ∀ e ∈ r, e < 4 := fun e he => h e (by simp [he])
    have hsplit : d + 4 * ofDigs 4 r = d + 2 ^ 2 * ofDigs 4 r := by norm_num
    simp only [ofDigs, List.map_cons, List.sum_cons]
    rw [hsplit, bitcount_add_mul_pow 2 d (ofDigs 4 r) (by omega),
      bitcount_ofDigs4 r hr]

theorem bitcount_lt_four {d : Nat} (h : d < 4) : bitcount d = d - d / 2 := by
  have b2 : bitcount 2 = 1 := by
    rw [bitcount_eq]
    norm_num [bitcount_one]
  have b3 : bitcount 3 = 2 := by
    rw [bitcount_eq]
    norm_num [bitcount_one]
  interval_cases d
  · simp [bitcount_zero]
  · simp [bitcount_one]
  · simp [b2]
  · simp [b3]

theorem m55_sixteen : m55 16 = 0x55555555 := by decide
theorem m33_eight : m33 8 = 0x33333333 := by decide
theorem m0f_four : m0f 4 = 0x0f0f0f0f := by decide

/-! ### The four SWAR steps -/

theorem swar_stepA : ∀ ds : List Nat, (∀ d ∈ ds, d < 4) →
    ofDigs 4 ds - ((ofDigs 4 ds >>> 1) &&& m55 ds.length) = ofDigs 4 (ds.map bitcount) := by
  intro ds
  induction ds with
  | nil => simp [ofDigs, m55]
  | cons d r ih =>
    intro hmem
    have hd : d < 4 := hmem d (by simp)
    have hr : ∀ e ∈ r, e < 4 := fun e he => hmem e (by simp [he])
    have ihr := ih hr
    set y := ofDigs 4 r with hy
    have hx : ofDigs 4 (d :: r) = d + 4 * y := by simp [ofDigs]
    have hhalf : y >>> 1 = y / 2 := by
      rw [Nat.shiftRight_eq_div_pow]
    have hshift : (d + 4 * y) >>> 1 = 4 * (y / 2) + (d / 2 + 2 * (y % 2)) := by
      rw [Nat.shiftRight_eq_div_pow]
      norm_num
      omega
    have hmask : m55 (r.length + 1) = 4 * m55 r.length + 1 := by
      simp [m55]
      omega
    have hland : (d + 4 * y) >>> 1 &&& m55 (r.length + 1)
        = 4 * (y / 2 &&& m55 r.length) + (d / 2) := by
      rw [hshift, hmask, land_split4 _ _ (by omega) (by omega),
        Nat.and_one_is_mod]
      have : (d / 2 + 2 * (y % 2)) % 2 = d / 2 := by omega
      rw [this]
    have ht : y / 2 &&& m55 r.length ≤ y / 2 := Nat.and_le_left
    have hbd : bitcount d = d - d / 2 := bitcount_lt_four hd
    have hgoal : ofDigs 4 ((d :: r).map bitcount)
        = bitcount d + 4 * ofDigs 4 (r.map bitcount) := by simp [ofDigs]
    rw [hx]
    simp only [List.length_cons]
    rw [hland, hgoal, ← ihr, hbd, ← hhalf]
    have ht2 : y >>> 1 &&& m55 r.length ≤ y / 2 := by rw [hhalf]; exact ht
    omega

theorem swar_stepB : ∀ es : List Nat, (∀ e ∈ es, e % 4 ≤ 2 ∧ e / 4 ≤ 2) →
    ((ofDigs 16 es) &&& m33 es.length) + (((ofDigs 16 es) >>> 2) &&& m33 es.length)
      = ofDigs 16 (es.map fun e => e % 4 + e / 4) := by
  intro es
  induction es with
  | nil => simp [ofDigs, m33]
  | cons e r ih =>
    intro hmem
    have he : e % 4 ≤ 2 ∧ e / 4 ≤ 2 := hmem e (by simp)
    have helt : e < 16 := by omega
    have hr : ∀ f ∈ r, f % 4 ≤ 2 ∧ f / 4 ≤ 2 := fun f hf => hmem f (by simp [hf])
    have ihr := ih hr
    set y := ofDigs 16 r with hy
    have hx : ofDigs 16 (e :: r) = 16 * y + e := by simp [ofDigs]; ring
    have hmask : m33 (r.length + 1) = 16 * m33 r.length + 3 := by
      simp [m33]
      omega
    have hquarter : y >>> 2 = y / 4 := by
      rw [Nat.shiftRight_eq_div_pow]
    have hland1 : ofDigs 16 (e :: r) &&& m33 (r.length + 1)
        = 16 * (y &&& m33 r.length) + e % 4 := by
      rw [hx, hmask, land_split16 _ _ helt (by omega), land_three_eq_mod]
    have hshift : ofDigs 16 (e :: r) >>> 2 = 16 * (y / 4) + (e / 4 + 4 * (y % 4)) := by
      rw [hx, Nat.shiftRight_eq_div_pow]
      norm_num
      omega
    have hland2 : (ofDigs 16 (e :: r) >>> 2) &&& m33 (r.length + 1)
        = 16 * (y / 4 &&& m33 r.length) + e / 4 := by
      rw [hshift, hmask, land_split16 _ _ (by omega) (by omega), land_three_eq_mod]
      have : (e / 4 + 4 * (y % 4)) % 4 = e / 4 := by omega
      rw [this]
    simp only [List.length_cons]
    rw [hland1, hland2]
    simp only [List.map_cons, ofDigs]
    rw [← ihr, ← hquarter]
    ring

theorem ofDigs256_mod16_le {r : List Nat} (h : ∀ e ∈ r, e % 16 ≤ 4) :
    ofDigs 256 r % 16 ≤ 4 := by
  cases r with
  | nil => simp [ofDigs]
  | cons e r =>
    have he : e % 16 ≤ 4 := h e (by simp)
    simp only [ofDigs]
    omega

theorem swar_stepC : ∀ es : List Nat, (∀ e ∈ es, e % 16 ≤ 4 ∧ e / 16 ≤ 4) →
    ((ofDigs 256 es + ((ofDigs 256 es) >>> 4)) &&& m0f es.length)
      = ofDigs 256 (es.map fun e => e % 16 + e / 16) := by
  intro es
  induction es with
  | nil => simp [ofDigs, m0f]
  | cons e r ih =>
    intro hmem
    have he : e % 16 ≤ 4 ∧ e / 16 ≤ 4 := hmem e (by simp)
    have helt : e ≤ 68 := by omega
    have hr : ∀ f ∈ r, f % 16 ≤ 4 ∧ f / 16 ≤ 4 := fun f hf => hmem f (by simp [hf])
    have ihr := ih hr
    set y := ofDigs 256 r with hy
    have hymod : y % 16 ≤ 4 := ofDigs256_mod16_le (fun f hf => (hr f hf).1)
    have hx : ofDigs 256 (e :: r) = e + 256 * y := by simp [ofDigs]
    have hmask : m0f (r.length + 1) = 256 * m0f r.length + 15 := by
      simp [m0f]
      omega
    have hsixteenth : y >>> 4 = y / 16 := by
      rw [Nat.shiftRight_eq_div_pow]
    have hshift : ofDigs 256 (e :: r) >>> 4 = e / 16 + 16 * y := by
      rw [hx, Nat.shiftRight_eq_div_pow]
      norm_num
      omega
    have hsum : ofDigs 256 (e :: r) + ofDigs 256 (e :: r) >>> 4
        = 256 * (y + y / 16) + (e + e / 16 + 16 * (y % 16)) := by
      rw [hshift, hx]
      omega
    have hlow : e + e / 16 + 16 * (y % 16) < 256 := by omega
    have hland : (ofDigs 256 (e :: r) + ofDigs 256 (e :: r) >>> 4) &&& m0f (r.length + 1)
        = 256 * ((y + y / 16) &&& m0f r.length) + (e % 16 + e / 16) := by
      rw [hsum, hmask, land_split256 _ _ hlow (by omega), land_fifteen_eq_mod]
      have : (e + e / 16 + 16 * (y % 16)) % 16 = e % 16 + e / 16 := by omega
      rw [this]
    simp only [List.length_cons]
    rw [hland]
    simp only [List.map_cons, ofDigs]
    rw [← ihr, ← hsixteenth]
    ring

theorem swar_stepD {b0 b1 b2 b3 : Nat} (h0 : b0 ≤ 8) (h1 : b1 ≤ 8) (h2 : b2 ≤ 8)
    (h3 : b3 ≤ 8) :
    (b0 + 256 * (b1 + 256 * (b2 + 256 * (b3 + 256 * 0)))
      + (b0 + 256 * (b1 + 256 * (b2 + 256 * (b3 + 256 * 0)))) >>> 8
      + (b0 + 256 * (b1 + 256 * (b2 + 256 * (b3 + 256 * 0)))
        + (b0 + 256 * (b1 + 256 * (b2 + 256 * (b3 + 256 * 0)))) >>> 8) >>> 16)
      &&& 63 = b0 + b1 + b2 + b3 := by
  have hmask : ∀ z : Nat, z &&& 63 = z % 64 := by
    intro z
    have h := Nat.and_pow_two_sub_one_eq_mod z 6
    norm_num at h
    exact h
  have h8 : ∀ z : Nat, z >>> 8 = z / 256 := by
    intro z
    rw [Nat.shiftRight_eq_div_pow]
  have h16 : ∀ z : Nat, z >>> 16 = z / 65536 := by
    intro z
    rw [Nat.shiftRight_eq_div_pow]
  rw [hmask, h8, h16]
  have he1 : (b0 + 256 * (b1 + 256 * (b2 + 256 * (b3 + 256 * 0)))) / 256
      = b1 + 256 * b2 + 65536 * b3 := by omega
  rw [he1]
  have he2 : (b0 + 256 * (b1 + 256 * (b2 + 256 * (b3 + 256 * 0)))
      + (b1 + 256 * b2 + 65536 * b3)) / 65536 = b2 + b3 + 256 * b3 := by omega
  rw [he2]
  omega

/-- The SWAR routine computes the mathematical bit count on every 32-bit
input, hence on every bitmap the trie can hold. -/
theorem popcount_eq_bitcount {x : Nat} (hx : x < 2 ^ 32) : popcount x = bitcount x := by
  have h416 : (4 : Nat) ^ 16 = 2 ^ 32 := by norm_num
  set ds := digs 4 16 x with hds
  have hlen : ds.length = 16 := digs_length 4 16 x
  have hlt : ∀ d ∈ ds, d < 4 := digs_lt (by omega) 16 x
  have hofd : ofDigs 4 ds = x := ofDigs_digs (by omega) 16 x (by omega)
  set ds1 := ds.map bitcount with hds1
  have hlen1 : ds1.length = 16 := by simp [hds1, hlen]
  have hle1 : ∀ d ∈ ds1, d ≤ 2 := by
    intro d hd
    rw [hds1] at hd
    simp only [List.mem_map] at hd
    obtain ⟨e, he, rfl⟩ := hd
    have helt := hlt e he
    rw [bitcount_lt_four helt]
    omega
  set es1 := pair4 ds1 with hes1
  have hofd1 : ofDigs 4 ds1 = ofDigs 16 es1 := ofDigs_pair4 ds1
  have hlen2 : es1.length = 8 := by rw [hes1, pair4_length, hlen1]
  have hb1 : ∀ e ∈ es1, e % 4 ≤ 2 ∧ e / 4 ≤ 2 := pair4_bounds ds1 hle1
  set es2 := es1.map (fun e => e % 4 + e / 4) with hes2
  have hlen3 : es2.length = 8 := by simp [hes2, hlen2]
  have hle2 : ∀ e ∈ es2, e ≤ 4 := by
    intro e he
    rw [hes2] at he
    simp only [List.mem_map] at he
    obtain ⟨f, hf, rfl⟩ := he
    have := hb1 f hf
    omega
  set es3 := pair16 es2 with hes3
  have hofd2 : ofDigs 16 es2 = ofDigs 256 es3 := ofDigs_pair16 es2
  have hlen4 : es3.length = 4 := by rw [hes3, pair16_length, hlen3]
  have hb3 : ∀ e ∈ es3, e % 16 ≤ 4 ∧ e / 16 ≤ 4 := pair16_bounds es2 hle2
  set es4 := es3.map (fun e => e % 16 + e / 16) with hes4
  have hlen5 : es4.length = 4 := by simp [hes4, hlen4]
  have hle4 : ∀ e ∈ es4, e ≤ 8 := by
    intro e he
    rw [hes4] at he
    simp only [List.mem_map] at he
    obtain ⟨f, hf, rfl⟩ := he
    have := hb3 f hf
    omega
  -- the five sequential assignments of the routine
  set y1 := x - ((x >>> 1) &&& 0x55555555) with hy1
  set y2 := (y1 &&& 0x33333333) + ((y1 >>> 2) &&& 0x33333333) with hy2
  set y3 := (y2 + (y2 >>> 4)) &&& 0x0f0f0f0f with hy3
  set y4 := y3 + (y3 >>> 8) with hy4
  set y5 := y4 + (y4 >>> 16) with hy5
  have hpc : popcount x = y5 &&& 0x3f := rfl
  have hA : y1 = ofDigs 16 es1 := by
    have h := swar_stepA ds hlt
    rw [hlen, m55_sixteen, hofd] at h
    rw [hy1, h, ← hds1, hofd1]
  have hB : y2 = ofDigs 256 es3 := by
    have h := swar_stepB es1 hb1
    rw [hlen2, m33_eight] at h
    rw [hy2, hA, h, ← hes2, hofd2]
  have hC : y3 = ofDigs 256 es4 := by
    have h := swar_stepC es3 hb3
    rw [hlen4, m0f_four] at h
    rw [hy3, hB, h, ← hes4]
  -- peel the four bytes
  obtain ⟨c0, c1, c2, c3, hc⟩ : ∃ c0 c1 c2 c3, es4 = [c0, c1, c2, c3] := by
    rcases es4 with _ | ⟨c0, _ | ⟨c1, _ | ⟨c2, _ | ⟨c3, _ | ⟨c4, t⟩⟩⟩⟩⟩ <;>
      simp only [List.length_cons, List.length_nil] at hlen5 <;> try omega
    exact ⟨c0, c1, c2, c3, rfl⟩
  have hc0 : c0 ≤ 8 := hle4 c0 (by simp [hc])
  have hc1 : c1 ≤ 8 := hle4 c1 (by simp [hc])
  have hc2 : c2 ≤ 8 := hle4 c2 (by simp [hc])
  have hc3 : c3 ≤ 8 := hle4 c3 (by simp [hc])
  have hy3v : y3 = c0 + 256 * (c1 + 256 * (c2 + 256 * (c3 + 256 * 0))) := by
    rw [hC, hc]
    simp [ofDigs]
  have hfinal : y5 &&& 0x3f = c0 + c1 + c2 + c3 := by
    rw [hy5, hy4, hy3v]
    exact swar_stepD hc0 hc1 hc2 hc3
  -- the bit count side
  have hsum4 : (ds.map bitcount).sum = bitcount x := by
    rw [← bitcount_ofDigs4 ds hlt, hofd]
  have hsum3 : es2.sum = bitcount x := by
    rw [hes2, hes1, sum_pair4 ds1 hle1, hds1]
    exact hsum4
  have hsum2 : es4.sum = bitcount x := by
    rw [hes4, hes3, sum_pair16 es2 hle2, hsum3]
  rw [hc] at hsum2
  simp only [List.sum_cons, List.sum_nil] at hsum2
  rw [hpc, hfinal]
  omega

/-! ### Claims C1, C2, C3, C6: evaluations at the failing inputs -/

/-- C1.  The claim (insert-then-lookup returns the written value for every
key the host permits, None included) fails on the code: with
c = empty.set(None, None), the write c.set(None, 5) hits the guard at
hamt.py line 51 (key_or_node is None and val_or_node is None) and returns
self, so looking None up still yields None; the same guard silently drops
an insert of a different key dispatched to that slot while the facade
still increments the size. -/
theorem c1_insert_lookup_failure :
    hamtNoneOverwrite.getItem hshZero none = some none
      ∧ hamtNoneOverwrite.size = 1
      ∧ (hamtNoneNone.set hshZero (some 3) (some 5)).contains hshZero (some 3) = false
      ∧ (hamtNoneNone.set hshZero (some 3) (some 5)).size = 2 := by
  refine ⟨by decide, by decide, by decide, by decide⟩

/-- C2.  The claim (after deleting one key of a two-entry CollisionNode the
other key stays reachable) fails on the code: CollisionNode.without
returns None when one pair remains (line 161-162) and BitmapNode.without
treats that None as a collapsed child and removes the slot (lines 103-107)
instead of reattaching the remaining pair, so the sibling key disappears
from lookup, membership and iteration and the whole spine collapses. -/
theorem c2_collision_delete_loses_sibling :
    hamtTwoColl.contains hshZero (some 1) = true
      ∧ hamtTwoColl.contains hshZero (some 2) = true
      ∧ (hamtTwoColl.delete hshZero (some 2)).map (fun c => c.contains hshZero (some 1))
          = some false
      ∧ (hamtTwoColl.delete hshZero (some 2)).map (fun c => c.getItem hshZero (some 1))
          = some none
      ∧ (hamtTwoColl.delete hshZero (some 2)).map HAMT.toList = some [] := by
  refine ⟨by decide, by decide, by decide, by decide, by decide⟩

/-- C3.  The stored size diverges from the reachable entry count on
reachable containers: deleting one of two colliding keys decrements the
size by one while two entries vanish (size 1, zero entries reachable), and
a set through a (None, None) leaf increments the size while storing
nothing (size 2, one entry reachable). -/
theorem c3_size_invariant_broken :
    hamtTwoColl.len = 2 ∧ hamtTwoColl.entryCount = 2
      ∧ (hamtTwoColl.delete hshZero (some 2)).map HAMT.len = some 1
      ∧ (hamtTwoColl.delete hshZero (some 2)).map HAMT.entryCount = some 0
      ∧ (hamtNoneNone.set hshZero (some 3) (some 5)).len = 2
      ∧ (hamtNoneNone.set hshZero (some 3) (some 5)).entryCount = 1 := by
  refine ⟨by decide, by decide, by decide, by decide, by decide, by decide⟩

/-- C6.  Iteration completeness fails on the code: a container whose only
key is None reports the key as present, but iteration yields nothing,
because the elif guard of BitmapNode.--iter-- (line 129) mistakes the
stored None key for an empty sentinel and skips the pair. -/
theorem c6_iteration_misses_none_key :
    hamtNoneKey.contains hshZero none = true
      ∧ hamtNoneKey.size = 1
      ∧ hamtNoneKey.toList = [] := by
  refine ⟨by decide, by decide, by decide⟩

/-! ### Claims C5 and C9: counterexamples to the claims as stated -/

/-- C5 counterexample.  A container reachable by two public writes holds a
CollisionNode whose two keys have different 32-bit hashes (0 and 2 to the
30): when assoc splits at the depth ceiling only the dispatched low 30
bits of the hashes are known to agree, so "identical 32-bit hash" is
false as stated. -/
theorem c5_counterexample :
    Reach hshSplit hamtSplitColl
      ∧ hamtSplitColl.collKeyLists = [[some 0, some 1]]
      ∧ hshSplit (some 0) < 2 ^ 32 ∧ hshSplit (some 1) < 2 ^ 32
      ∧ hshSplit (some 0) ≠ hshSplit (some 1) :=
  ⟨Reach.set _ _ Reach.empty |> Reach.set _ _,
    by decide, by decide, by decide, by decide⟩

/-- C9 counterexample.  The is-None branch of BitmapNode.find is not dead:
in the reachable container holding the key None, looking None up executes
the branch (and needs it to return the stored value). -/
theorem c9_counterexample :
    Reach hshZero hamtNoneKey
      ∧ hamtNoneKey.findNullHit hshZero none = true
      ∧ hamtNoneKey.contains hshZero none = true :=
  ⟨Reach.set _ _ Reach.empty, by decide, by decide⟩

/-! ### Claim C10: termination of _create_node -/

theorem createNodeGo_fuel_irrel {hsh : Option D → Nat} :
    ∀ (f1 f2 shift : Nat) (k1 v1 : Option D) (h2 : Nat) (k2 v2 : Option D),
      25 < shift + 5 * f1 → 25 < shift + 5 * f2 →
      createNodeGo hsh f1 shift k1 v1 h2 k2 v2 = createNodeGo hsh f2 shift k1 v1 h2 k2 v2 := by
  intro f1
  induction f1 with
  | zero =>
    intro f2 shift k1 v1 h2 k2 v2 hf1 hf2
    have hs : 25 < shift := by omega
    rw [createNodeGo.eq_def, createNodeGo.eq_def]
    simp only [hs, if_true]
  | succ g1 ih =>
    intro f2 shift k1 v1 h2 k2 v2 hf1 hf2
    by_cases hs : 25 < shift
    · rw [createNodeGo.eq_def, createNodeGo.eq_def]
      simp only [hs, if_true]
    · cases f2 with
      | zero => omega
      | succ g2 =>
        rw [createNodeGo.eq_def, createNodeGo.eq_def]
        by_cases hm : (hsh k1 >>> shift) &&& 0x1f = (h2 >>> shift) &&& 0x1f
        · simp only [hs, if_false, hm, if_true]
          rw [ih g2 (shift + 5) k1 v1 h2 k2 v2 (by omega) (by omega)]
        · simp only [hs, if_false, hm]

/-- Controlled one-step unfolding of create_node, matching the recursion of
_create_node on itself. -/
theorem create_node_unfold {hsh : Option D → Nat} (shift : Nat) (k1 v1 : Option D)
    (h2 : Nat) (k2 v2 : Option D) :
    create_node hsh shift k1 v1 h2 k2 v2 =
      if 25 < shift then Node.collision [(k1, v1), (k2, v2)]
      else if (hsh k1 >>> shift) &&& 0x1f = (h2 >>> shift) &&& 0x1f then
        Node.bitmap (1 <<< ((hsh k1 >>> shift) &&& 0x1f))
          [(.node (create_node hsh (shift + 5) k1 v1 h2 k2 v2), .null)]
      else if (hsh k1 >>> shift) &&& 0x1f < (h2 >>> shift) &&& 0x1f then
        Node.bitmap ((1 <<< ((hsh k1 >>> shift) &&& 0x1f)) ||| (1 <<< ((h2 >>> shift) &&& 0x1f)))
          [(ofObj k1, ofObj v1), (ofObj k2, ofObj v2)]
      else
        Node.bitmap ((1 <<< ((hsh k1 >>> shift) &&& 0x1f)) ||| (1 <<< ((h2 >>> shift) &&& 0x1f)))
          [(ofObj k2, ofObj v2), (ofObj k1, ofObj v1)] := by
  show createNodeGo hsh 7 shift k1 v1 h2 k2 v2 = _
  rw [createNodeGo.eq_def]
  by_cases hs : 25 < shift
  · simp only [hs, if_true]
  · by_cases hm : (hsh k1 >>> shift) &&& 0x1f = (h2 >>> shift) &&& 0x1f
    · simp only [hs, if_false, hm, if_true]
      rw [createNodeGo_fuel_irrel 6 7 (shift + 5) k1 v1 h2 k2 v2 (by omega) (by omega)]
      rfl
    · simp only [hs, if_false, hm]

/-- C10.  _create_node terminates on every input: each recursive call
increases shift by 5 and shift above 25 is a base case, so the fueled
rendering createNodeFuel succeeds with any fuel exceeding the bounded
recursion depth and computes the function create_node (whose fixed fuel 7
covers every start, since 25 < shift + 35 for every shift). -/
theorem c10_create_node_total {hsh : Option D → Nat} :
    ∀ (fuel shift : Nat) (k1 v1 : Option D) (h2 : Nat) (k2 v2 : Option D),
      25 < shift + 5 * fuel →
      createNodeFuel hsh fuel shift k1 v1 h2 k2 v2
        = some (create_node hsh shift k1 v1 h2 k2 v2) := by
  intro fuel
  induction fuel with
  | zero =>
    intro shift k1 v1 h2 k2 v2 hf
    have hs : 25 < shift := by omega
    rw [createNodeFuel.eq_def, create_node_unfold]
    simp only [hs, if_true]
  | succ g ih =>
    intro shift k1 v1 h2 k2 v2 hf
    rw [createNodeFuel.eq_def, create_node_unfold]
    by_cases hs : 25 < shift
    · simp only [hs, if_true]
    · simp only [hs, if_false]
      by_cases hm : (hsh k1 >>> shift) &&& 0x1f = (h2 >>> shift) &&& 0x1f
      · simp only [hm, if_true]
        rw [ih (shift + 5) k1 v1 h2 k2 v2 (by omega)]
      · simp only [hm, if_false]
        by_cases hlt : (hsh k1 >>> shift) &&& 0x1f < (h2 >>> shift) &&& 0x1f
        · simp only [hlt, if_true]
        · simp only [hlt, if_false]

/-- C10 witness: fuel 7 from shift 0 on two colliding keys. -/
theorem c10_witness :
    25 < 0 + 5 * 7
      ∧ createNodeFuel hshZero 7 0 (some 1) (some 10) 0 (some 2) (some 20)
        = some (create_node hshZero 0 (some 1) (some 10) 0 (some 2) (some 20)) :=
  ⟨by decide, c10_create_node_total 7 0 (some 1) (some 10) 0 (some 2) (some 20) (by decide)⟩



/-! ### Claim C4: KeyMissing exactly on absence -/

theorem collRemove_none_iff {items : List (Option D × Option D)} {k : Option D} :
    collRemove items k = none ↔ collFind items k = none := by
  induction items with
  | nil => simp [collRemove, collFind]
  | cons p rest ih =>
    obtain ⟨k0, v0⟩ := p
    by_cases hk : k0 = k
    · simp [collRemove, collFind, hk]
    · simp only [collRemove, collFind, hk, if_false]
      cases h : collRemove rest k with
      | none => simp [h] at ih ⊢; exact ih
      | some l => simp [h] at ih ⊢; exact ih

theorem collWithout_none_iff {items : List (Option D × Option D)} {k : Option D} :
    collWithout items k = none ↔ collFind items k = none := by
  rw [collWithout]
  cases h : collRemove items k with
  | none => simpa [h] using collRemove_none_iff.mp h
  | some l =>
    have : ¬ collFind items k = none := by
      intro hf
      rw [collRemove_none_iff.mpr hf] at h
      exact Option.noConfusion h
    by_cases hl : l.length = 1 <;> simp [hl, this]

mutual

theorem without_err_iff : ∀ (n : Node D) (shift hv : Nat) (k : Option D),
    n.without shift hv k = WRes.err ↔ n.find shift hv k = none
  | .collision items, shift, hv, k => by
    simp only [Node.without, Node.find]
    cases h : collWithout items k with
    | none => simpa [h] using (@collWithout_none_iff D _ items k).mp h
    | some o =>
      have hne : ¬ collFind items k = none := by
        intro hf
        rw [collWithout_none_iff.mpr hf] at h
        exact Option.noConfusion h
      cases o <;> simp [hne]
  | .bitmap bm arr, shift, hv, k => by
    simp only [Node.without, Node.find]
    by_cases hb : bm &&& (1 <<< ((hv >>> shift) &&& 0x1f)) = 0
    · simp [hb]
    · simp only [hb, if_false, if_true]
      have hs := withoutSlot_err_iff arr (popcount (bm &&& (1 <<< ((hv >>> shift) &&& 0x1f) - 1)))
        shift hv k
      cases hw : withoutSlot arr (popcount (bm &&& (1 <<< ((hv >>> shift) &&& 0x1f) - 1)))
          shift hv k <;>
        simp [hw] at hs <;> simp [hs]
      · by_cases hp : popcount bm = 1 <;> simp [hp]

theorem withoutSlot_err_iff : ∀ (arr : List (Entry D × Entry D)) (idx shift hv : Nat)
      (k : Option D),
    withoutSlot arr idx shift hv k = WSlot.err ↔ findSlot arr idx shift hv k = none
  | [], _, _, _, _ => by simp [withoutSlot, findSlot]
  | (.null, e2) :: rest, 0, shift, hv, k => by
    by_cases hk : (none : Option D) = k
    · simp [withoutSlot, findSlot, Entry.toObj, hk]
    · simp [withoutSlot, findSlot, Entry.toObj, hk]
  | (.node child, e2) :: rest, 0, shift, hv, k => by
    simp only [withoutSlot, findSlot]
    have hc := without_err_iff child (shift + 5) hv k
    cases hw : Node.without child (shift + 5) hv k with
    | err => simp [hw] at hc; simp [hc]
    | gone => simp [hw] at hc; simp [hc]
    | kept m b => simp [hw] at hc; cases b <;> simp [hc]
  | (.obj d, e2) :: rest, 0, shift, hv, k => by
    by_cases hk : some d = k
    · simp [withoutSlot, findSlot, Entry.toObj, hk]
    · simp [withoutSlot, findSlot, Entry.toObj, hk]
  | p :: rest, idx + 1, shift, hv, k => by
    simp only [withoutSlot, findSlot]
    exact withoutSlot_err_iff rest idx shift hv k

end

/-- C4.  For every container and key: total lookup fails exactly on absent
keys, delete fails exactly on absent keys (and, failing, produces no new
container: the result is none and the argument container is untouched),
and defaulted lookup and membership are total functions that signal
nothing. -/
theorem c4_keymissing_iff_absent {hsh : Option D → Nat} (c : HAMT D) (k : Option D) :
    (c.getItem hsh k = none ↔ c.contains hsh k = false)
      ∧ (c.delete hsh k = none ↔ c.contains hsh k = false) := by
  obtain ⟨root, size⟩ := c
  cases root with
  | none => simp [HAMT.getItem, HAMT.contains, HAMT.delete]
  | some r =>
    constructor
    · simp only [HAMT.getItem, HAMT.contains]
      cases h : Node.find r 0 (hsh k) k <;> simp
    · simp only [HAMT.delete, HAMT.contains]
      have hiff := without_err_iff r 0 (hsh k) k
      cases hw : Node.without r 0 (hsh k) k with
      | err =>
        simp [hw] at hiff
        simp [hiff]
      | gone =>
        simp [hw] at hiff
        simp [hiff]
      | kept m b =>
        simp [hw] at hiff
        simp [hiff]



/-! ### Claim C8: overwriting with the looked-up value is a no-op -/

theorem collAssoc_none_of_find {items : List (Option D × Option D)} {k v : Option D}
    (h : collFind items k = some v) : collAssoc items k v = none := by
  induction items with
  | nil => simp [collFind] at h
  | cons p rest ih =>
    obtain ⟨k0, v0⟩ := p
    by_cases hk : k0 = k
    · simp only [collFind, hk, if_true, Option.some.injEq] at h
      simp [collAssoc, hk, h]
    · simp only [collFind, hk, if_false] at h
      simp [collAssoc, hk, ih h]

theorem pairsValsOk_tail {p : Entry D × Entry D} {rest : List (Entry D × Entry D)}
    (h : pairsValsOk (p :: rest) = true) : pairsValsOk rest = true := by
  obtain ⟨e1, e2⟩ := p
  cases e1 <;> simp only [pairsValsOk, Bool.and_eq_true] at h <;> exact h.2

theorem pairsValsOk_head_node {child : Node D} {e2 : Entry D}
    {rest : List (Entry D × Entry D)}
    (h : pairsValsOk ((Entry.node child, e2) :: rest) = true) : child.valsOk = true := by
  simp only [pairsValsOk, Bool.and_eq_true] at h
  exact h.1

theorem pairsValsOk_null_node {c2 : Node D} {rest : List (Entry D × Entry D)}
    (h : pairsValsOk ((Entry.null, Entry.node c2) :: rest) = true) : False := by
  simp [pairsValsOk, Entry.isNode] at h

theorem pairsValsOk_obj_node {d : D} {c2 : Node D} {rest : List (Entry D × Entry D)}
    (h : pairsValsOk ((Entry.obj d, Entry.node c2) :: rest) = true) : False := by
  simp [pairsValsOk, Entry.isNode] at h

mutual

theorem assoc_self_of_find : ∀ (n : Node D) (hsh : Option D → Nat) (shift hv : Nat)
      (k v : Option D), n.valsOk = true → n.find shift hv k = some v →
      Node.assoc hsh n shift hv k v = (n, true)
  | .collision items, hsh, shift, hv, k, v => by
    intro _ hf
    simp only [Node.find] at hf
    simp [Node.assoc, collAssoc_none_of_find hf]
  | .bitmap bm arr, hsh, shift, hv, k, v => by
    intro hok hf
    simp only [Node.find] at hf
    by_cases hb : bm &&& (1 <<< ((hv >>> shift) &&& 0x1f)) = 0
    · simp [hb] at hf
    · simp only [hb, if_false, if_true] at hf
      simp only [Node.assoc, hb, if_false, if_true, ne_eq, not_false_eq_true]
      rw [assocSlot_none_of_findSlot arr hsh
        (popcount (bm &&& (1 <<< ((hv >>> shift) &&& 0x1f) - 1))) shift hv k v hok hf]

theorem assocSlot_none_of_findSlot : ∀ (arr : List (Entry D × Entry D))
      (hsh : Option D → Nat) (idx shift hv : Nat) (k v : Option D),
      pairsValsOk arr = true → findSlot arr idx shift hv k = some v →
      assocSlot hsh arr idx shift hv k v = none
  | [], hsh, idx, shift, hv, k, v => by
    intro _ hf
    simp [findSlot] at hf
  | (.null, .null) :: rest, hsh, 0, shift, hv, k, v => by
    intro _ _
    simp [assocSlot]
  | (.null, .obj d2) :: rest, hsh, 0, shift, hv, k, v => by
    intro _ hf
    simp only [findSlot] at hf
    by_cases hk : (none : Option D) = k
    · simp only [hk, if_true, Option.some.injEq] at hf
      simp [assocSlot, Entry.toObj, Entry.eqObj, ← hk, ← hf]
    · simp [hk] at hf
  | (.null, .node c2) :: rest, hsh, 0, shift, hv, k, v => by
    intro hok _
    exact absurd hok (fun h => pairsValsOk_null_node h)
  | (.node child, e2) :: rest, hsh, 0, shift, hv, k, v => by
    intro hok hf
    simp only [findSlot] at hf
    have := assoc_self_of_find child hsh (shift + 5) hv k v (pairsValsOk_head_node hok) hf
    simp [assocSlot, this]
  | (.obj d, .node c2) :: rest, hsh, 0, shift, hv, k, v => by
    intro hok _
    exact absurd hok (fun h => pairsValsOk_obj_node h)
  | (.obj d, .null) :: rest, hsh, 0, shift, hv, k, v => by
    intro _ hf
    simp only [findSlot] at hf
    by_cases hk : some d = k
    · simp only [hk, if_true, Option.some.injEq] at hf
      simp [assocSlot, Entry.toObj, Entry.eqObj, hk, ← hf]
    · simp [hk] at hf
  | (.obj d, .obj d2) :: rest, hsh, 0, shift, hv, k, v => by
    intro _ hf
    simp only [findSlot] at hf
    by_cases hk : some d = k
    · simp only [hk, if_true, Option.some.injEq] at hf
      simp [assocSlot, Entry.toObj, Entry.eqObj, hk, ← hf]
    · simp [hk] at hf
  | p :: rest, hsh, idx + 1, shift, hv, k, v => by
    intro hok hf
    simp only [findSlot] at hf
    simp only [assocSlot]
    exact assocSlot_none_of_findSlot rest hsh idx shift hv k v (pairsValsOk_tail hok) hf

end

/-- C8.  Writing back the value a total lookup returned leaves the
container intact: the result of set is the very same container (the root
of the result is provenance-flagged as self, the rendering of the Python
identity of the returned root object), for every structurally sane
container; the identity checks of lines 56 and 63 of hamt.py propagate
return self along the whole path. -/
theorem c8_idempotent_overwrite {hsh : Option D → Nat} (c : HAMT D) (k v : Option D)
    (hok : c.valsOk = true) (hfind : c.getItem hsh k = some v) :
    c.set hsh k v = c ∧ ∀ r, c.root = some r → Node.assoc hsh r 0 (hsh k) k v = (r, true) := by
  obtain ⟨root, size⟩ := c
  cases root with
  | none => simp [HAMT.getItem] at hfind
  | some r =>
    simp only [HAMT.getItem] at hfind
    simp only [HAMT.valsOk, Node.valsOk] at hok
    have hself := assoc_self_of_find r hsh 0 (hsh k) k v hok hfind
    constructor
    · simp only [HAMT.set, assocWithAdded, hfind, hself]
      simp
    · intro r2 hr2
      cases hr2
      exact hself

/-- C8 witness: a concrete put-back of a looked-up value. -/
theorem c8_witness :
    hamtTwoColl.valsOk = true
      ∧ hamtTwoColl.getItem hshZero (some 1) = some (some 10)
      ∧ hamtTwoColl.set hshZero (some 1) (some 10) = hamtTwoColl :=
  ⟨by decide, by decide,
    (c8_idempotent_overwrite hamtTwoColl (some 1) (some 10) (by decide) (by decide)).1⟩



/-! ### Bitmap index arithmetic -/

theorem slice_eq_div_mod (hv s : Nat) : (hv >>> s) &&& 0x1f = hv / 2 ^ s % 32 := by
  rw [Nat.shiftRight_eq_div_pow]
  have h := Nat.and_pow_two_sub_one_eq_mod (hv / 2 ^ s) 5
  norm_num at h
  exact h

theorem land_shift_pred (bm i : Nat) : bm &&& (1 <<< i - 1) = bm % 2 ^ i := by
  rw [Nat.shiftLeft_eq, one_mul]
  exact Nat.and_pow_two_sub_one_eq_mod bm i

theorem land_bit_ne_zero_iff (bm i : Nat) : bm &&& 1 <<< i ≠ 0 ↔ bitAt bm i = 1 := by
  rw [Nat.shiftLeft_eq, one_mul]
  constructor
  · intro h
    obtain ⟨j, hj⟩ := Nat.ne_zero_implies_bit_true h
    rw [Nat.testBit_and, Bool.and_eq_true] at hj
    have hij : i = j := by
      by_contra hne
      rw [Nat.testBit_two_pow_of_ne hne] at hj
      exact Bool.noConfusion hj.2
    subst hij
    have := hj.1
    rw [Nat.testBit_to_div_mod] at this
    simpa [bitAt] using of_decide_eq_true this
  · intro h hz
    have ht : (bm &&& 2 ^ i).testBit i = true := by
      rw [Nat.testBit_and, Nat.testBit_two_pow_self, Bool.and_true,
        Nat.testBit_to_div_mod]
      simpa [bitAt] using h
    have := Nat.testBit_implies_ge ht
    have hpos := Nat.pos_pow_of_pos i (show 0 < 2 by omega)
    omega

theorem popcount_mask_eq {i : Nat} (bm : Nat) (hi : i ≤ 32) :
    popcount (bm &&& (1 <<< i - 1)) = slotIdx bm i := by
  rw [land_shift_pred, slotIdx]
  have hlt : bm % 2 ^ i < 2 ^ 32 :=
    lt_of_lt_of_le (Nat.mod_lt bm (Nat.pos_pow_of_pos i (by omega)))
      (Nat.pow_le_pow_right (by omega) hi)
  exact popcount_eq_bitcount hlt

theorem bm_decomp (bm i : Nat) :
    bm = bm % 2 ^ i + 2 ^ i * bitAt bm i + 2 ^ (i + 1) * (bm / 2 ^ (i + 1)) := by
  have h4 : bm / 2 ^ (i + 1) = bm / 2 ^ i / 2 := by
    rw [Nat.div_div_eq_div_mul, ← pow_succ]
  have h2 : bm / 2 ^ i = bm / 2 ^ i % 2 + 2 * (bm / 2 ^ i / 2) := by omega
  calc bm = bm % 2 ^ i + 2 ^ i * (bm / 2 ^ i) := (Nat.mod_add_div _ _).symm
    _ = bm % 2 ^ i + 2 ^ i * (bm / 2 ^ i % 2 + 2 * (bm / 2 ^ i / 2)) := by
        rw [← h2]
    _ = bm % 2 ^ i + 2 ^ i * bitAt bm i + 2 ^ (i + 1) * (bm / 2 ^ (i + 1)) := by
        rw [bitAt, h4, pow_succ]
        ring

theorem bitAt_lt_two : ∀ bm i : Nat, bitAt bm i < 2 := fun bm i =>
  Nat.mod_lt _ (by omega)

theorem bitcount_bitAt (bm i : Nat) : bitcount (bitAt bm i) = bitAt bm i := by
  have h : bitAt bm i = 0 ∨ bitAt bm i = 1 := by
    have := bitAt_lt_two bm i
    omega
  rcases h with h0 | h1
  · rw [h0, bitcount_zero]
  · rw [h1, bitcount_one]

theorem bitcount_decomp (bm i : Nat) :
    bitcount bm = slotIdx bm i + bitAt bm i + bitcount (bm / 2 ^ (i + 1)) := by
  have hd := bm_decomp bm i
  have hmod : bm % 2 ^ i < 2 ^ i := Nat.mod_lt bm (Nat.pos_pow_of_pos i (by omega))
  have hb : bitAt bm i < 2 := bitAt_lt_two bm i
  have hsum : bm % 2 ^ i + 2 ^ i * bitAt bm i < 2 ^ (i + 1) := by
    have hp : (2 : Nat) ^ (i + 1) = 2 * 2 ^ i := by ring
    have h2 : 2 ^ i * bitAt bm i ≤ 2 ^ i * 1 := Nat.mul_le_mul_left _ (by omega)
    omega
  calc bitcount bm
      = bitcount (bm % 2 ^ i + 2 ^ i * bitAt bm i + 2 ^ (i + 1) * (bm / 2 ^ (i + 1))) := by
        rw [← hd]
    _ = bitcount (bm % 2 ^ i + 2 ^ i * bitAt bm i) + bitcount (bm / 2 ^ (i + 1)) :=
        bitcount_add_mul_pow (i + 1) _ _ hsum
    _ = slotIdx bm i + bitAt bm i + bitcount (bm / 2 ^ (i + 1)) := by
        rw [bitcount_add_mul_pow i _ _ hmod, slotIdx, bitcount_bitAt]

theorem slotIdx_lt_bitcount {bm i : Nat} (h : bitAt bm i = 1) :
    slotIdx bm i < bitcount bm := by
  have := bitcount_decomp bm i
  omega

theorem slotIdx_le_bitcount (bm i : Nat) : slotIdx bm i ≤ bitcount bm := by
  have := bitcount_decomp bm i
  omega

theorem bitAt_of_lt_two_pow {bm i : Nat} (hbm : bm < 2 ^ i) : bitAt bm i = 0 := by
  rw [bitAt, Nat.div_eq_of_lt hbm]

theorem bitAt_one_lt {bm i w : Nat} (hbm : bm < 2 ^ w) (h : bitAt bm i = 1) : i < w := by
  by_contra hge
  have h1 : 2 ^ w ≤ 2 ^ i := Nat.pow_le_pow_right (by omega) (by omega)
  have h2 : bm < 2 ^ i := by omega
  rw [bitAt_of_lt_two_pow h2] at h
  omega

theorem mod_pow_split (x s : Nat) :
    x % 2 ^ (s + 5) = x % 2 ^ s + 2 ^ s * (x / 2 ^ s % 32) := by
  have h1 : (2 : Nat) ^ (s + 5) = 2 ^ s * 32 := by
    rw [pow_add]
    norm_num
  rw [h1, Nat.mod_mul]



/-! ### Index shifts under bit insertion and removal -/

theorem mod_pow_div {bm i j : Nat} (hij : i ≤ j) :
    bm % 2 ^ j / 2 ^ i = bm / 2 ^ i % 2 ^ (j - i) := by
  have h : (2 : Nat) ^ j = 2 ^ i * 2 ^ (j - i) := by
    rw [← pow_add]
    congr 1
    omega
  rw [h, Nat.mod_mul,
    Nat.add_mul_div_left _ _ (Nat.pos_pow_of_pos i (by omega)),
    Nat.div_eq_of_lt (Nat.mod_lt bm (Nat.pos_pow_of_pos i (by omega)))]
  omega

theorem bitAt_mod_pow {bm i j : Nat} (hij : i < j) : bitAt (bm % 2 ^ j) i = bitAt bm i := by
  unfold bitAt
  rw [mod_pow_div (show i ≤ j by omega)]
  exact Nat.mod_mod_of_dvd _ (dvd_pow_self 2 (show j - i ≠ 0 by omega))

theorem mod_pow_mod_pow (bm : Nat) {i j : Nat} (hij : i ≤ j) :
    bm % 2 ^ j % 2 ^ i = bm % 2 ^ i :=
  Nat.mod_mod_of_dvd bm (Nat.pow_dvd_pow 2 hij)

theorem add_sub_swap_of_le {A P c : Nat} (h : c ≤ A) : A + P - c = A - c + P := by omega

theorem le_of_bitAt {m i : Nat} (h : bitAt m i = 1) : 2 ^ i ≤ m := by
  unfold bitAt at h
  have h1 : 1 ≤ m / 2 ^ i := by
    generalize m / 2 ^ i = q at h ⊢
    omega
  calc 2 ^ i = 1 * 2 ^ i := (one_mul _).symm
    _ ≤ m / 2 ^ i * 2 ^ i := Nat.mul_le_mul_right _ h1
    _ ≤ m := Nat.div_mul_le_self _ _

theorem two_pow_even {n : Nat} (h : n ≠ 0) : 2 ^ n % 2 = 0 := by
  obtain ⟨m, rfl⟩ : ∃ m, n = m + 1 := ⟨n - 1, by omega⟩
  rw [pow_succ]
  omega

theorem add_pow_mod_lt {bm i j : Nat} (hfresh : bitAt bm i = 0) (hij : i < j) :
    bm % 2 ^ j + 2 ^ i < 2 ^ j := by
  set m := bm % 2 ^ j with hm
  have hb : bitAt m i = 0 := by rw [hm, bitAt_mod_pow hij, hfresh]
  have heven : m / 2 ^ i % 2 = 0 := hb
  have hdiv : m / 2 ^ i = bm / 2 ^ i % 2 ^ (j - i) := mod_pow_div (by omega)
  have hlt : m / 2 ^ i < 2 ^ (j - i) := by
    rw [hdiv]
    exact Nat.mod_lt _ (Nat.pos_pow_of_pos _ (by omega))
  have h2e : 2 ^ (j - i) % 2 = 0 := two_pow_even (by omega)
  have hle : m / 2 ^ i + 1 ≤ 2 ^ (j - i) - 1 := by omega
  have hmm := Nat.mod_add_div m (2 ^ i)
  have hmodlt : m % 2 ^ i < 2 ^ i := Nat.mod_lt _ (Nat.pos_pow_of_pos _ (by omega))
  have hj : (2 : Nat) ^ j = 2 ^ i * 2 ^ (j - i) := by
    rw [← pow_add]
    congr 1
    omega
  have key : 2 ^ i * (m / 2 ^ i + 1) ≤ 2 ^ i * (2 ^ (j - i) - 1) :=
    Nat.mul_le_mul_left _ hle
  have e1 : 2 ^ i * (m / 2 ^ i + 1) = 2 ^ i * (m / 2 ^ i) + 2 ^ i := by ring
  have e2 : 2 ^ i * (2 ^ (j - i) - 1) + 2 ^ i = 2 ^ i * 2 ^ (j - i) := by
    have h1 : 1 ≤ (2 : Nat) ^ (j - i) := Nat.pos_pow_of_pos _ (by omega)
    calc 2 ^ i * (2 ^ (j - i) - 1) + 2 ^ i = 2 ^ i * ((2 ^ (j - i) - 1) + 1) := by ring
      _ = 2 ^ i * 2 ^ (j - i) := by rw [Nat.sub_add_cancel h1]
  omega

theorem add_pow_mod_high {bm i j : Nat} (hfresh : bitAt bm i = 0) (hij : i < j) :
    (bm + 2 ^ i) % 2 ^ j = bm % 2 ^ j + 2 ^ i := by
  have hlow := add_pow_mod_lt hfresh hij
  conv_lhs => rw [← Nat.mod_add_div bm (2 ^ j)]
  rw [show bm % 2 ^ j + 2 ^ j * (bm / 2 ^ j) + 2 ^ i
      = bm % 2 ^ j + 2 ^ i + 2 ^ j * (bm / 2 ^ j) by ring,
    Nat.add_mul_mod_self_left, Nat.mod_eq_of_lt hlow]

theorem add_pow_div_high {bm i j : Nat} (hfresh : bitAt bm i = 0) (hij : i < j) :
    (bm + 2 ^ i) / 2 ^ j = bm / 2 ^ j := by
  have hlow := add_pow_mod_lt hfresh hij
  conv_lhs => rw [← Nat.mod_add_div bm (2 ^ j)]
  rw [show bm % 2 ^ j + 2 ^ j * (bm / 2 ^ j) + 2 ^ i
      = bm % 2 ^ j + 2 ^ i + 2 ^ j * (bm / 2 ^ j) by ring,
    Nat.add_mul_div_left _ _ (Nat.pos_pow_of_pos j (by omega)),
    Nat.div_eq_of_lt hlow]
  omega

theorem add_pow_mod_low (bm : Nat) {i j : Nat} (hji : j ≤ i) :
    (bm + 2 ^ i) % 2 ^ j = bm % 2 ^ j := by
  rw [show (2 : Nat) ^ i = 2 ^ j * 2 ^ (i - j) by rw [← pow_add]; congr 1; omega,
    Nat.add_mul_mod_self_left]

theorem sub_pow_mod_low {bm i : Nat} (hset : bitAt bm i = 1) {j : Nat} (hji : j ≤ i) :
    (bm - 2 ^ i) % 2 ^ j = bm % 2 ^ j := by
  have hle : 2 ^ i ≤ bm := le_of_bitAt hset
  conv_rhs => rw [← Nat.sub_add_cancel hle]
  rw [show (2 : Nat) ^ i = 2 ^ j * 2 ^ (i - j) by rw [← pow_add]; congr 1; omega,
    Nat.add_mul_mod_self_left]

theorem sub_pow_mod_high {bm i j : Nat} (hset : bitAt bm i = 1) (hij : i < j) :
    (bm - 2 ^ i) % 2 ^ j = bm % 2 ^ j - 2 ^ i := by
  have hge : 2 ^ i ≤ bm % 2 ^ j := by
    have hb : bitAt (bm % 2 ^ j) i = 1 := by rw [bitAt_mod_pow hij, hset]
    exact le_of_bitAt hb
  have hlt : bm % 2 ^ j - 2 ^ i < 2 ^ j :=
    lt_of_le_of_lt (Nat.sub_le _ _)
      (Nat.mod_lt bm (Nat.pos_pow_of_pos j (show (0 : Nat) < 2 by omega)))
  conv_lhs => rw [← Nat.mod_add_div bm (2 ^ j)]
  rw [add_sub_swap_of_le hge, Nat.add_mul_mod_self_left, Nat.mod_eq_of_lt hlt]

theorem sub_pow_div_high {bm i j : Nat} (hset : bitAt bm i = 1) (hij : i < j) :
    (bm - 2 ^ i) / 2 ^ j = bm / 2 ^ j := by
  have hge : 2 ^ i ≤ bm % 2 ^ j := by
    have hb : bitAt (bm % 2 ^ j) i = 1 := by rw [bitAt_mod_pow hij, hset]
    exact le_of_bitAt hb
  have hlt : bm % 2 ^ j - 2 ^ i < 2 ^ j :=
    lt_of_le_of_lt (Nat.sub_le _ _)
      (Nat.mod_lt bm (Nat.pos_pow_of_pos j (show (0 : Nat) < 2 by omega)))
  conv_lhs => rw [← Nat.mod_add_div bm (2 ^ j)]
  rw [add_sub_swap_of_le hge,
    Nat.add_mul_div_left _ _ (Nat.pos_pow_of_pos j (by omega)),
    Nat.div_eq_of_lt hlt]
  omega

theorem sub_pow_div {bm i : Nat} (hset : bitAt bm i = 1) :
    (bm - 2 ^ i) / 2 ^ i = bm / 2 ^ i - 1 := by
  have hp : 0 < (2 : Nat) ^ i := Nat.pos_pow_of_pos i (by omega)
  have hbm : 2 ^ i ≤ bm := le_of_bitAt hset
  unfold bitAt at hset
  have hq : 1 ≤ bm / 2 ^ i := by
    generalize bm / 2 ^ i = q at hset ⊢
    omega
  have e : bm - 2 ^ i = bm % 2 ^ i + 2 ^ i * (bm / 2 ^ i - 1) := by
    have e2 : 2 ^ i * (bm / 2 ^ i - 1) + 2 ^ i = 2 ^ i * (bm / 2 ^ i) := by
      calc 2 ^ i * (bm / 2 ^ i - 1) + 2 ^ i = 2 ^ i * ((bm / 2 ^ i - 1) + 1) := by ring
        _ = 2 ^ i * (bm / 2 ^ i) := by rw [Nat.sub_add_cancel hq]
    have e3 := Nat.mod_add_div bm (2 ^ i)
    omega
  rw [e, Nat.add_mul_div_left _ _ hp, Nat.div_eq_of_lt (Nat.mod_lt bm hp)]
  omega

theorem bitAt_add_pow_self {bm i : Nat} (hfresh : bitAt bm i = 0) :
    bitAt (bm + 2 ^ i) i = 1 := by
  unfold bitAt at hfresh ⊢
  rw [Nat.add_div_right _ (Nat.pos_pow_of_pos i (by omega))]
  omega

theorem bitAt_add_pow_ne {bm i j : Nat} (hfresh : bitAt bm i = 0) (hne : j ≠ i) :
    bitAt (bm + 2 ^ i) j = bitAt bm j := by
  rcases Nat.lt_or_ge j i with hji | hij
  · unfold bitAt
    rw [show (2 : Nat) ^ i = 2 ^ j * 2 ^ (i - j) by rw [← pow_add]; congr 1; omega,
      Nat.add_mul_div_left _ _ (Nat.pos_pow_of_pos j (by omega))]
    have := two_pow_even (show i - j ≠ 0 by omega)
    omega
  · have hij2 : i < j := by omega
    unfold bitAt
    rw [add_pow_div_high hfresh hij2]

theorem bitAt_sub_pow_self {bm i : Nat} (hset : bitAt bm i = 1) :
    bitAt (bm - 2 ^ i) i = 0 := by
  have hd := sub_pow_div hset
  unfold bitAt at hset ⊢
  rw [hd]
  omega

theorem bitAt_sub_pow_ne {bm i j : Nat} (hset : bitAt bm i = 1) (hne : j ≠ i) :
    bitAt (bm - 2 ^ i) j = bitAt bm j := by
  rcases Nat.lt_or_ge j i with hji | hij
  · have hle : 2 ^ i ≤ bm := le_of_bitAt hset
    have hsplit : (2 : Nat) ^ i = 2 ^ j * 2 ^ (i - j) := by
      rw [← pow_add]
      congr 1
      omega
    have hdd : (bm - 2 ^ i) / 2 ^ j = bm / 2 ^ j - 2 ^ (i - j) := by
      rw [hsplit]
      exact Nat.sub_mul_div _ _ _ (hsplit ▸ hle)
    have hXe : 2 ^ (i - j) % 2 = 0 := two_pow_even (by omega)
    have hXle : 2 ^ (i - j) ≤ bm / 2 ^ j := by
      rw [Nat.le_div_iff_mul_le (Nat.pos_pow_of_pos j (by omega))]
      calc 2 ^ (i - j) * 2 ^ j = 2 ^ i := by rw [← pow_add]; congr 1; omega
        _ ≤ bm := hle
    unfold bitAt
    rw [hdd]
    omega
  · have hij2 : i < j := by omega
    unfold bitAt
    rw [sub_pow_div_high hset hij2]

theorem bitcount_add_pow {bm i : Nat} (hfresh : bitAt bm i = 0) :
    bitcount (bm + 2 ^ i) = bitcount bm + 1 := by
  have hmod : (bm + 2 ^ i) % 2 ^ i = bm % 2 ^ i := add_pow_mod_low bm (le_refl i)
  have hdiv : (bm + 2 ^ i) / 2 ^ i = bm / 2 ^ i + 1 :=
    Nat.add_div_right _ (Nat.pos_pow_of_pos i (by omega))
  have hb : bitAt (bm + 2 ^ i) i = 1 := bitAt_add_pow_self hfresh
  have hdd : (bm + 2 ^ i) / 2 ^ (i + 1) = bm / 2 ^ (i + 1) := by
    have h1 : (bm + 2 ^ i) / 2 ^ (i + 1) = (bm + 2 ^ i) / 2 ^ i / 2 := by
      rw [Nat.div_div_eq_div_mul, ← pow_succ]
    have h2 : bm / 2 ^ (i + 1) = bm / 2 ^ i / 2 := by
      rw [Nat.div_div_eq_div_mul, ← pow_succ]
    rw [h1, h2, hdiv]
    unfold bitAt at hfresh
    generalize bm / 2 ^ i = q at hfresh ⊢
    omega
  have hsl : slotIdx (bm + 2 ^ i) i = slotIdx bm i := by
    unfold slotIdx
    rw [hmod]
  have d1 := bitcount_decomp (bm + 2 ^ i) i
  have d2 := bitcount_decomp bm i
  rw [hsl, hb, hdd] at d1
  rw [hfresh] at d2
  omega

theorem bitcount_sub_pow {bm i : Nat} (hset : bitAt bm i = 1) :
    bitcount (bm - 2 ^ i) = bitcount bm - 1 := by
  have hmod : (bm - 2 ^ i) % 2 ^ i = bm % 2 ^ i := sub_pow_mod_low hset (le_refl i)
  have hdiv : (bm - 2 ^ i) / 2 ^ i = bm / 2 ^ i - 1 := sub_pow_div hset
  have hb : bitAt (bm - 2 ^ i) i = 0 := bitAt_sub_pow_self hset
  have hdd : (bm - 2 ^ i) / 2 ^ (i + 1) = bm / 2 ^ (i + 1) := by
    have h1 : (bm - 2 ^ i) / 2 ^ (i + 1) = (bm - 2 ^ i) / 2 ^ i / 2 := by
      rw [Nat.div_div_eq_div_mul, ← pow_succ]
    have h2 : bm / 2 ^ (i + 1) = bm / 2 ^ i / 2 := by
      rw [Nat.div_div_eq_div_mul, ← pow_succ]
    rw [h1, h2, hdiv]
    unfold bitAt at hset
    generalize bm / 2 ^ i = q at hset ⊢
    omega
  have hsl : slotIdx (bm - 2 ^ i) i = slotIdx bm i := by
    unfold slotIdx
    rw [hmod]
  have d1 := bitcount_decomp (bm - 2 ^ i) i
  have d2 := bitcount_decomp bm i
  rw [hsl, hb, hdd] at d1
  rw [hset] at d2
  omega

theorem slotIdx_add_pow {bm i : Nat} (hfresh : bitAt bm i = 0) (j : Nat) :
    slotIdx (bm + 2 ^ i) j = slotIdx bm j + if i < j then 1 else 0 := by
  rcases Nat.lt_or_ge i j with hij | hji
  · unfold slotIdx
    rw [add_pow_mod_high hfresh hij, if_pos hij]
    have hb : bitAt (bm % 2 ^ j) i = 0 := by rw [bitAt_mod_pow hij, hfresh]
    exact bitcount_add_pow hb
  · unfold slotIdx
    rw [add_pow_mod_low bm hji, if_neg (show ¬ i < j by omega)]
    omega

theorem slotIdx_sub_pow {bm i : Nat} (hset : bitAt bm i = 1) (j : Nat) :
    slotIdx (bm - 2 ^ i) j = slotIdx bm j - if i < j then 1 else 0 := by
  rcases Nat.lt_or_ge i j with hij | hji
  · unfold slotIdx
    rw [sub_pow_mod_high hset hij, if_pos hij]
    have hb : bitAt (bm % 2 ^ j) i = 1 := by rw [bitAt_mod_pow hij, hset]
    exact bitcount_sub_pow hb
  · unfold slotIdx
    rw [sub_pow_mod_low hset hji, if_neg (show ¬ i < j by omega)]
    omega


/-! ### List splice and set lemmas -/

theorem getD_mem {α : Type} (arr : List α) (idx : Nat) (d : α) (h : idx < arr.length) :
    arr.getD idx d ∈ arr := by
  rw [List.getD_eq_getElem?_getD, List.getElem?_eq_getElem h, Option.getD_some]
  exact List.getElem_mem h

theorem getD_set_self {α : Type} (arr : List α) (idx : Nat) (p d : α)
    (h : idx < arr.length) : (arr.set idx p).getD idx d = p := by
  rw [List.getD_eq_getElem?_getD, List.getElem?_set_self h, Option.getD_some]

theorem getD_set_ne {α : Type} (arr : List α) (idx j : Nat) (p d : α) (h : j ≠ idx) :
    (arr.set idx p).getD j d = arr.getD j d := by
  rw [List.getD_eq_getElem?_getD, List.getD_eq_getElem?_getD,
    List.getElem?_set_ne (Ne.symm h)]

theorem length_insertAt {α : Type} (arr : List α) (idx : Nat) (p : α)
    (h : idx ≤ arr.length) :
    (arr.take idx ++ p :: arr.drop idx).length = arr.length + 1 := by
  simp only [List.length_append, List.length_take_of_le h, List.length_cons,
    List.length_drop]
  omega

theorem getD_insertAt_lt {α : Type} (arr : List α) (idx j : Nat) (p d : α)
    (hle : idx ≤ arr.length) (hj : j < idx) :
    (arr.take idx ++ p :: arr.drop idx).getD j d = arr.getD j d := by
  rw [List.getD_eq_getElem?_getD, List.getD_eq_getElem?_getD,
    List.getElem?_append_left (by rw [List.length_take_of_le hle]; omega),
    List.getElem?_take_of_lt hj]

theorem getD_insertAt_self {α : Type} (arr : List α) (idx : Nat) (p d : α)
    (hle : idx ≤ arr.length) :
    (arr.take idx ++ p :: arr.drop idx).getD idx d = p := by
  rw [List.getD_eq_getElem?_getD,
    List.getElem?_append_right (by rw [List.length_take_of_le hle]),
    List.length_take_of_le hle, Nat.sub_self, List.getElem?_cons_zero,
    Option.getD_some]

theorem getD_insertAt_gt {α : Type} (arr : List α) (idx j : Nat) (p d : α)
    (hle : idx ≤ arr.length) (hj : idx < j) :
    (arr.take idx ++ p :: arr.drop idx).getD j d = arr.getD (j - 1) d := by
  rw [List.getD_eq_getElem?_getD, List.getD_eq_getElem?_getD,
    List.getElem?_append_right (by rw [List.length_take_of_le hle]; omega),
    List.length_take_of_le hle,
    show j - idx = (j - idx - 1) + 1 by omega,
    List.getElem?_cons_succ, List.getElem?_drop,
    show idx + (j - idx - 1) = j - 1 by omega]

theorem length_eraseAt {α : Type} (arr : List α) (idx : Nat) (h : idx < arr.length) :
    (arr.take idx ++ arr.drop (idx + 1)).length = arr.length - 1 := by
  simp only [List.length_append,
    List.length_take_of_le (show idx ≤ arr.length by omega), List.length_drop]
  omega

theorem getD_eraseAt_lt {α : Type} (arr : List α) (idx j : Nat) (d : α)
    (h : idx < arr.length) (hj : j < idx) :
    (arr.take idx ++ arr.drop (idx + 1)).getD j d = arr.getD j d := by
  rw [List.getD_eq_getElem?_getD, List.getD_eq_getElem?_getD,
    List.getElem?_append_left
      (by rw [List.length_take_of_le (show idx ≤ arr.length by omega)]; omega),
    List.getElem?_take_of_lt hj]

theorem getD_eraseAt_ge {α : Type} (arr : List α) (idx j : Nat) (d : α)
    (h : idx < arr.length) (hj : idx ≤ j) :
    (arr.take idx ++ arr.drop (idx + 1)).getD j d = arr.getD (j + 1) d := by
  rw [List.getD_eq_getElem?_getD, List.getD_eq_getElem?_getD,
    List.getElem?_append_right
      (by rw [List.length_take_of_le (show idx ≤ arr.length by omega)]; omega),
    List.length_take_of_le (show idx ≤ arr.length by omega),
    List.getElem?_drop,
    show idx + 1 + (j - idx) = j + 1 by omega]

/-! ### Walker characterization at an in-bounds slot -/

theorem findSlot_lt : ∀ (arr : List (Entry D × Entry D)) (idx : Nat),
    idx < arr.length → ∀ (shift hashVal : Nat) (key : Option D),
    findSlot arr idx shift hashVal key
      = slotFind (arr.getD idx (.null, .null)) shift hashVal key := by
  intro arr
  induction arr with
  | nil =>
    intro idx h
    simp at h
  | cons p rest ih =>
    intro idx h shift hashVal key
    obtain ⟨e1, e2⟩ := p
    match idx with
    | 0 => cases e1 <;> rfl
    | i + 1 =>
      have hlt : i < rest.length := by
        simp only [List.length_cons] at h
        omega
      rw [List.getD_cons_succ]
      cases e1 <;> exact ih i hlt shift hashVal key

theorem assocSlot_lt (hsh : Option D → Nat) :
    ∀ (arr : List (Entry D × Entry D)) (idx : Nat),
    idx < arr.length → ∀ (shift hashVal : Nat) (key value : Option D),
    assocSlot hsh arr idx shift hashVal key value
      = slotAssoc hsh (arr.getD idx (.null, .null)) shift hashVal key value := by
  intro arr
  induction arr with
  | nil =>
    intro idx h
    simp at h
  | cons p rest ih =>
    intro idx h shift hashVal key value
    obtain ⟨e1, e2⟩ := p
    match idx with
    | 0 => cases e1 <;> cases e2 <;> rfl
    | i + 1 =>
      have hlt : i < rest.length := by
        simp only [List.length_cons] at h
        omega
      rw [List.getD_cons_succ]
      cases e1 <;> cases e2 <;> exact ih i hlt shift hashVal key value

theorem withoutSlot_lt : ∀ (arr : List (Entry D × Entry D)) (idx : Nat),
    idx < arr.length → ∀ (shift hashVal : Nat) (key : Option D),
    withoutSlot arr idx shift hashVal key
      = slotWithout (arr.getD idx (.null, .null)) shift hashVal key := by
  intro arr
  induction arr with
  | nil =>
    intro idx h
    simp at h
  | cons p rest ih =>
    intro idx h shift hashVal key
    obtain ⟨e1, e2⟩ := p
    match idx with
    | 0 => cases e1 <;> rfl
    | i + 1 =>
      have hlt : i < rest.length := by
        simp only [List.length_cons] at h
        omega
      rw [List.getD_cons_succ]
      cases e1 <;> exact ih i hlt shift hashVal key

theorem nullHitSlot_lt : ∀ (arr : List (Entry D × Entry D)) (idx : Nat),
    idx < arr.length → ∀ (shift hashVal : Nat) (key : Option D),
    nullHitSlot arr idx shift hashVal key
      = slotNullHit (arr.getD idx (.null, .null)) shift hashVal key := by
  intro arr
  induction arr with
  | nil =>
    intro idx h
    simp at h
  | cons p rest ih =>
    intro idx h shift hashVal key
    obtain ⟨e1, e2⟩ := p
    match idx with
    | 0 => cases e1 <;> rfl
    | i + 1 =>
      have hlt : i < rest.length := by
        simp only [List.length_cons] at h
        omega
      rw [List.getD_cons_succ]
      cases e1 <;> exact ih i hlt shift hashVal key

/-! ### More bitmap index lemmas -/

theorem bitAt_two_pow (m i : Nat) : bitAt (2 ^ m) i = if i = m then 1 else 0 := by
  unfold bitAt
  rcases Nat.lt_trichotomy i m with h | h | h
  · rw [if_neg (by omega), Nat.pow_div (by omega) (by omega)]
    exact two_pow_even (by omega)
  · subst h
    rw [if_pos rfl, Nat.div_self (Nat.pos_pow_of_pos i (by omega))]
  · rw [if_neg (by omega), Nat.div_eq_of_lt (Nat.pow_lt_pow_right (by omega) h)]

theorem slotIdx_two_pow_self (m : Nat) : slotIdx (2 ^ m) m = 0 := by
  unfold slotIdx
  rw [Nat.mod_self, bitcount_zero]

theorem slotIdx_succ (bm i : Nat) : slotIdx bm (i + 1) = slotIdx bm i + bitAt bm i := by
  unfold slotIdx bitAt
  rw [pow_succ, Nat.mod_mul,
    bitcount_add_mul_pow i _ _ (Nat.mod_lt bm (Nat.pos_pow_of_pos i (by omega)))]
  have hb : bm / 2 ^ i % 2 = 0 ∨ bm / 2 ^ i % 2 = 1 := by omega
  rcases hb with hb | hb <;> rw [hb] <;> simp [bitcount_zero, bitcount_one]

theorem slotIdx_mono (bm : Nat) {i j : Nat} (hij : i ≤ j) :
    slotIdx bm i ≤ slotIdx bm j := by
  induction j, hij using Nat.le_induction with
  | base => exact le_refl _
  | succ n hn ih =>
    rw [slotIdx_succ]
    omega

theorem slotIdx_lt_slotIdx {bm i j : Nat} (hbi : bitAt bm i = 1) (hij : i < j) :
    slotIdx bm i < slotIdx bm j := by
  have h1 : slotIdx bm (i + 1) = slotIdx bm i + 1 := by rw [slotIdx_succ, hbi]
  have h2 : slotIdx bm (i + 1) ≤ slotIdx bm j := slotIdx_mono bm (by omega)
  omega

theorem slotIdx_inj {bm i j : Nat} (hbi : bitAt bm i = 1) (hbj : bitAt bm j = 1)
    (h : slotIdx bm i = slotIdx bm j) : i = j := by
  rcases Nat.lt_trichotomy i j with hij | hij | hij
  · have := slotIdx_lt_slotIdx hbi hij
    omega
  · exact hij
  · have := slotIdx_lt_slotIdx hbj hij
    omega

theorem slotIdx_surj : ∀ (bm j : Nat), j < bitcount bm →
    ∃ i, bitAt bm i = 1 ∧ slotIdx bm i = j := by
  intro bm
  induction bm using Nat.strong_induction_on with
  | _ bm ih =>
    intro j hj
    rcases Nat.eq_zero_or_pos bm with h0 | hpos
    · subst h0
      rw [bitcount_zero] at hj
      omega
    · have hhalf : bm / 2 < bm := Nat.div_lt_self hpos (by omega)
      have hbc : bitcount bm = bm % 2 + bitcount (bm / 2) := bitcount_eq bm
      have hstep : ∀ i, bitAt bm (i + 1) = bitAt (bm / 2) i := by
        intro i
        unfold bitAt
        rw [show bm / 2 ^ (i + 1) = bm / 2 / 2 ^ i by
          rw [Nat.div_div_eq_div_mul, ← pow_succ']]
      have hslot : ∀ i, slotIdx bm (i + 1) = bm % 2 + slotIdx (bm / 2) i := by
        intro i
        unfold slotIdx
        rw [show (2 : Nat) ^ (i + 1) = 2 * 2 ^ i from pow_succ' 2 i, Nat.mod_mul,
          bitcount_two_mul_add _ (Nat.mod_lt bm (by omega))]
      by_cases hpar : bm % 2 = 1
      · match j with
        | 0 =>
          refine ⟨0, ?_, ?_⟩
          · unfold bitAt
            simpa using hpar
          · unfold slotIdx
            simp [pow_zero, Nat.mod_one, bitcount_zero]
        | j + 1 =>
          obtain ⟨i, hbi, hsi⟩ := ih (bm / 2) hhalf j (by omega)
          refine ⟨i + 1, ?_, ?_⟩
          · rw [hstep]
            exact hbi
          · rw [hslot, hpar, hsi]
            omega
      · have hpar0 : bm % 2 = 0 := by omega
        obtain ⟨i, hbi, hsi⟩ := ih (bm / 2) hhalf j (by omega)
        refine ⟨i + 1, ?_, ?_⟩
        · rw [hstep]
          exact hbi
        · rw [hslot, hpar0, hsi]
          omega

theorem lor_fresh {bm i : Nat} (hfresh : bitAt bm i = 0) :
    bm ||| 1 <<< i = bm + 2 ^ i := by
  rw [Nat.shiftLeft_eq, one_mul]
  apply Nat.eq_of_testBit_eq
  intro j
  rw [Nat.testBit_or]
  by_cases hji : j = i
  · subst hji
    have h1 := bitAt_add_pow_self hfresh
    unfold bitAt at h1
    rw [Nat.testBit_two_pow_self, Bool.or_true, Nat.testBit_to_div_mod, h1]
    simp
  · have h1 := bitAt_add_pow_ne hfresh hji
    unfold bitAt at h1
    rw [Nat.testBit_two_pow_of_ne (Ne.symm hji)]
    simp [Nat.testBit_to_div_mod, h1]

theorem add_pow_lt_32 {bm i : Nat} (hbm : bm < 2 ^ 32) (hi : i < 32)
    (hfresh : bitAt bm i = 0) : bm + 2 ^ i < 2 ^ 32 := by
  rw [← lor_fresh hfresh, Nat.shiftLeft_eq, one_mul]
  exact Nat.or_lt_two_pow hbm (Nat.pow_lt_pow_right (by omega) hi)

theorem land_clear_bit {bm i : Nat} (hbm : bm < 2 ^ 32) (hi : i < 32)
    (hset : bitAt bm i = 1) :
    bm &&& (0xffffffff ^^^ 1 <<< i) = bm - 2 ^ i := by
  rw [Nat.shiftLeft_eq, one_mul]
  apply Nat.eq_of_testBit_eq
  intro j
  rw [Nat.testBit_and, Nat.testBit_xor,
    show (0xffffffff : Nat) = 2 ^ 32 - 1 by norm_num,
    Nat.testBit_two_pow_sub_one]
  by_cases hji : j = i
  · subst hji
    have h0 := bitAt_sub_pow_self hset
    unfold bitAt at h0
    rw [Nat.testBit_two_pow_self, decide_eq_true hi]
    simp [Nat.testBit_to_div_mod, h0]
  · rw [Nat.testBit_two_pow_of_ne (Ne.symm hji)]
    by_cases hj32 : j < 32
    · have hb := bitAt_sub_pow_ne hset hji
      unfold bitAt at hb
      rw [decide_eq_true hj32]
      simp [Nat.testBit_to_div_mod, hb]
    · have hjb : (2 : Nat) ^ 32 ≤ 2 ^ j := Nat.pow_le_pow_right (by omega) (by omega)
      have hblt : bm < 2 ^ j := by omega
      have h1 : bm.testBit j = false := Nat.testBit_lt_two_pow hblt
      have h2 : (bm - 2 ^ i).testBit j = false :=
        Nat.testBit_lt_two_pow (lt_of_le_of_lt (Nat.sub_le bm (2 ^ i)) hblt)
      rw [h1, h2, decide_eq_false hj32]
      simp

theorem sizeOf_child_lt (bm : Nat) {arr : List (Entry D × Entry D)}
    {child : Node D} {e2 : Entry D} (h : (Entry.node child, e2) ∈ arr) :
    sizeOf child < sizeOf (Node.bitmap bm arr) := by
  have h1 := List.sizeOf_lt_of_mem h
  simp only [Prod.mk.sizeOf_spec, Entry.node.sizeOf_spec] at h1
  simp only [Node.bitmap.sizeOf_spec]
  omega


/-! ### Entry and collision-list lemmas -/

theorem toObj_ofObj (k : Option D) : (ofObj k).toObj = k := by
  cases k <;> rfl

theorem ofObj_ne_node (k : Option D) (c : Node D) : ofObj k ≠ .node c := by
  cases k <;> simp [ofObj]

theorem collAssoc_keys : ∀ (items : List (Option D × Option D)) (key value : Option D)
    (items2 : List (Option D × Option D)), collAssoc items key value = some items2 →
    (items2.map Prod.fst = items.map Prod.fst ∧ items2.length = items.length) ∨
    (items2.map Prod.fst = items.map Prod.fst ++ [key] ∧ (∀ p ∈ items, p.1 ≠ key) ∧
      items2.length = items.length + 1) := by
  intro items
  induction items with
  | nil =>
    intro key value items2 h
    simp only [collAssoc, Option.some.injEq] at h
    subst h
    right
    simp
  | cons p rest ih =>
    intro key value items2 h
    obtain ⟨k, v⟩ := p
    simp only [collAssoc] at h
    by_cases hk : k = key
    · rw [if_pos hk] at h
      by_cases hv : v = value
      · rw [if_pos hv] at h
        exact absurd h (by simp)
      · rw [if_neg hv] at h
        simp only [Option.some.injEq] at h
        subst h
        left
        constructor <;> simp
    · rw [if_neg hk] at h
      cases hrec : collAssoc rest key value with
      | none =>
        rw [hrec] at h
        simp at h
      | some rest2 =>
        rw [hrec] at h
        simp only [Option.some.injEq] at h
        subst h
        rcases ih key value rest2 hrec with ⟨hm, hl⟩ | ⟨hm, habs, hl⟩
        · left
          constructor
          · simp [hm]
          · simp [hl]
        · right
          refine ⟨by simp [hm], ?_, by simp [hl]⟩
          intro q hq
          rcases List.mem_cons.1 hq with hq2 | hq2
          · subst hq2
            exact hk
          · exact habs q hq2

theorem collRemove_shape : ∀ (items : List (Option D × Option D)) (key : Option D)
    (items2 : List (Option D × Option D)), collRemove items key = some items2 →
    items2.Sublist items ∧ items2.length + 1 = items.length := by
  intro items
  induction items with
  | nil =>
    intro key items2 h
    simp [collRemove] at h
  | cons p rest ih =>
    intro key items2 h
    obtain ⟨k, v⟩ := p
    simp only [collRemove] at h
    by_cases hk : k = key
    · rw [if_pos hk] at h
      simp only [Option.some.injEq] at h
      subst h
      exact ⟨List.sublist_cons_self _ _, by simp⟩
    · rw [if_neg hk] at h
      cases hrec : collRemove rest key with
      | none =>
        rw [hrec] at h
        simp at h
      | some rest2 =>
        rw [hrec] at h
        simp only [Option.some.injEq] at h
        subst h
        obtain ⟨hs, hl⟩ := ih key rest2 hrec
        exact ⟨List.Sublist.cons₂ _ hs, by simp [← hl]⟩

/-! ### Well-formed node constructions -/

theorem WFN_coll_two (hsh : Option D → Nat) {acc : Nat} (k1 v1 k2 v2 : Option D)
    (hacc : acc < 2 ^ 30) (h1 : hsh k1 % 2 ^ 30 = acc) (h2 : hsh k2 % 2 ^ 30 = acc)
    (hne : k1 ≠ k2) : WFN hsh (.collision [(k1, v1), (k2, v2)]) 30 acc := by
  refine WFN.collision hacc (by simp) ?_ ?_
  · intro p hp
    rcases List.mem_cons.1 hp with hq | hq
    · subst hq
      exact h1
    · rcases List.mem_cons.1 hq with hq2 | hq2
      · subst hq2
        exact h2
      · simp at hq2
  · refine List.Pairwise.cons ?_ (List.Pairwise.cons ?_ List.Pairwise.nil)
    · intro q hq
      rcases List.mem_cons.1 hq with hq2 | hq2
      · subst hq2
        exact hne
      · simp at hq2
    · intro q hq
      simp at hq

theorem WFN_one_leaf (hsh : Option D → Nat) {s acc : Nat} (a : Nat) (k v : Option D)
    (hs25 : s ≤ 25) (hdvd : 5 ∣ s) (hacc : acc < 2 ^ s) (ha : a < 32)
    (h1 : hsh k % 2 ^ (s + 5) = acc + 2 ^ s * a) :
    WFN hsh (.bitmap (1 <<< a) [(ofObj k, ofObj v)]) s acc := by
  rw [show (1 : Nat) <<< a = 2 ^ a by rw [Nat.shiftLeft_eq, one_mul]]
  refine WFN.bitmap hs25 hdvd hacc ?_ ?_ ?_
  · exact Nat.pow_lt_pow_right (by omega) ha
  · simp [bitcount_two_pow]
  · intro i hi32 hbi
    rw [bitAt_two_pow] at hbi
    have hia : i = a := by
      by_contra hne
      rw [if_neg hne] at hbi
      omega
    rw [hia, slotIdx_two_pow_self]
    exact SlotWF.leaf k v s acc a h1

theorem WFN_two_leaf (hsh : Option D → Nat) {s acc : Nat} (a b : Nat)
    (k1 v1 k2 v2 : Option D) (hs25 : s ≤ 25) (hdvd : 5 ∣ s) (hacc : acc < 2 ^ s)
    (ha : a < 32) (hb : b < 32) (hab : a < b)
    (h1 : hsh k1 % 2 ^ (s + 5) = acc + 2 ^ s * a)
    (h2 : hsh k2 % 2 ^ (s + 5) = acc + 2 ^ s * b) :
    WFN hsh (.bitmap (1 <<< a ||| 1 <<< b)
      [(ofObj k1, ofObj v1), (ofObj k2, ofObj v2)]) s acc := by
  have hfb : bitAt (2 ^ a) b = 0 := by rw [bitAt_two_pow, if_neg (by omega)]
  have hbm : (1 : Nat) <<< a ||| 1 <<< b = 2 ^ a + 2 ^ b := by
    rw [show (1 : Nat) <<< a = 2 ^ a by rw [Nat.shiftLeft_eq, one_mul]]
    exact lor_fresh hfb
  rw [hbm]
  have h2a32 : (2 : Nat) ^ a < 2 ^ 32 := Nat.pow_lt_pow_right (by omega) ha
  refine WFN.bitmap hs25 hdvd hacc ?_ ?_ ?_
  · exact add_pow_lt_32 h2a32 hb hfb
  · rw [bitcount_add_pow hfb, bitcount_two_pow]
    simp
  · intro i hi32 hbi
    by_cases hib : i = b
    · rw [hib]
      have hsl1 : slotIdx (2 ^ a) b = 1 := by
        unfold slotIdx
        rw [Nat.mod_eq_of_lt (Nat.pow_lt_pow_right (by omega) hab), bitcount_two_pow]
      rw [slotIdx_add_pow hfb b, if_neg (by omega), hsl1]
      exact SlotWF.leaf k2 v2 s acc b h2
    · have hbi2 : bitAt (2 ^ a) i = 1 := by
        rw [← bitAt_add_pow_ne hfb hib]
        exact hbi
      rw [bitAt_two_pow] at hbi2
      have hia : i = a := by
        by_contra hne
        rw [if_neg hne] at hbi2
        omega
      rw [hia]
      rw [slotIdx_add_pow hfb a, if_neg (by omega), slotIdx_two_pow_self]
      exact SlotWF.leaf k1 v1 s acc a h1

/-! ### Unfolding equations for createNodeGo -/

theorem createNodeGo_base (hsh : Option D → Nat) (g s : Nat) (k1 v1 : Option D)
    (hv : Nat) (k2 v2 : Option D) (hs : 25 < s) :
    createNodeGo hsh g s k1 v1 hv k2 v2 = .collision [(k1, v1), (k2, v2)] := by
  rw [createNodeGo.eq_def]
  dsimp only
  rw [if_pos hs]

theorem createNodeGo_step (hsh : Option D → Nat) (g s : Nat) (k1 v1 : Option D)
    (hv : Nat) (k2 v2 : Option D) (hs : ¬ 25 < s)
    (hm : (hsh k1 >>> s) &&& 0x1f = (hv >>> s) &&& 0x1f) :
    createNodeGo hsh (g + 1) s k1 v1 hv k2 v2 =
      .bitmap (1 <<< ((hsh k1 >>> s) &&& 0x1f))
        [(.node (createNodeGo hsh g (s + 5) k1 v1 hv k2 v2), .null)] := by
  rw [createNodeGo.eq_def]
  dsimp only
  rw [if_neg hs, if_pos hm]

theorem createNodeGo_split_lt (hsh : Option D → Nat) (g s : Nat) (k1 v1 : Option D)
    (hv : Nat) (k2 v2 : Option D) (hs : ¬ 25 < s)
    (hm : ¬ (hsh k1 >>> s) &&& 0x1f = (hv >>> s) &&& 0x1f)
    (hlt : (hsh k1 >>> s) &&& 0x1f < (hv >>> s) &&& 0x1f) :
    createNodeGo hsh g s k1 v1 hv k2 v2 =
      .bitmap ((1 <<< ((hsh k1 >>> s) &&& 0x1f)) ||| (1 <<< ((hv >>> s) &&& 0x1f)))
        [(ofObj k1, ofObj v1), (ofObj k2, ofObj v2)] := by
  rw [createNodeGo.eq_def]
  dsimp only
  rw [if_neg hs, if_neg hm, if_pos hlt]

theorem createNodeGo_split_ge (hsh : Option D → Nat) (g s : Nat) (k1 v1 : Option D)
    (hv : Nat) (k2 v2 : Option D) (hs : ¬ 25 < s)
    (hm : ¬ (hsh k1 >>> s) &&& 0x1f = (hv >>> s) &&& 0x1f)
    (hlt : ¬ (hsh k1 >>> s) &&& 0x1f < (hv >>> s) &&& 0x1f) :
    createNodeGo hsh g s k1 v1 hv k2 v2 =
      .bitmap ((1 <<< ((hsh k1 >>> s) &&& 0x1f)) ||| (1 <<< ((hv >>> s) &&& 0x1f)))
        [(ofObj k2, ofObj v2), (ofObj k1, ofObj v1)] := by
  rw [createNodeGo.eq_def]
  dsimp only
  rw [if_neg hs, if_neg hm, if_neg hlt]

/-- The spine _create_node builds below a shift that two agreeing keys have
already been dispatched through is well formed at that shift. -/
theorem WFN_createNodeGo (hsh : Option D → Nat) :
    ∀ (g s : Nat) (k1 v1 : Option D) (hv : Nat) (k2 v2 : Option D),
    5 ∣ s → s ≤ 30 → 30 ≤ s + 5 * g → hsh k2 = hv → k1 ≠ k2 →
    hsh k1 % 2 ^ s = hv % 2 ^ s →
    WFN hsh (createNodeGo hsh g s k1 v1 hv k2 v2) s (hv % 2 ^ s) := by
  intro g
  induction g with
  | zero =>
    intro s k1 v1 hv k2 v2 hdvd hs30 hfuel hk2 hne hagree
    have hs : s = 30 := by omega
    subst hs
    rw [createNodeGo_base hsh 0 30 k1 v1 hv k2 v2 (by omega)]
    exact WFN_coll_two hsh k1 v1 k2 v2 (Nat.mod_lt hv (by norm_num)) hagree
      (by rw [hk2]) hne
  | succ g ihg =>
    intro s k1 v1 hv k2 v2 hdvd hs30 hfuel hk2 hne hagree
    by_cases hs : 25 < s
    · have hs2 : s = 30 := by omega
      subst hs2
      rw [createNodeGo_base hsh (g + 1) 30 k1 v1 hv k2 v2 (by omega)]
      exact WFN_coll_two hsh k1 v1 k2 v2 (Nat.mod_lt hv (by norm_num)) hagree
        (by rw [hk2]) hne
    · have e1 : hsh k1 % 2 ^ (s + 5) = hv % 2 ^ s + 2 ^ s * (hsh k1 / 2 ^ s % 32) := by
        rw [mod_pow_split, hagree]
      have e2 : hsh k2 % 2 ^ (s + 5) = hv % 2 ^ s + 2 ^ s * (hv / 2 ^ s % 32) := by
        rw [hk2, mod_pow_split]
      have hm132 : hsh k1 / 2 ^ s % 32 < 32 := Nat.mod_lt _ (by omega)
      have hm232 : hv / 2 ^ s % 32 < 32 := Nat.mod_lt _ (by omega)
      have haccs : hv % 2 ^ s < 2 ^ s := Nat.mod_lt hv (Nat.pos_pow_of_pos s (by omega))
      by_cases hmm : (hsh k1 >>> s) &&& 0x1f = (hv >>> s) &&& 0x1f
      · rw [createNodeGo_step hsh g s k1 v1 hv k2 v2 hs hmm]
        have hmm2 : hsh k1 / 2 ^ s % 32 = hv / 2 ^ s % 32 := by
          rw [← slice_eq_div_mod, ← slice_eq_div_mod]
          exact hmm
        have hchild := ihg (s + 5) k1 v1 hv k2 v2 (by omega)
          (by omega) (by omega) hk2 hne (by rw [e1, hmm2, mod_pow_split])
        rw [slice_eq_div_mod, hmm2]
        rw [show (1 : Nat) <<< (hv / 2 ^ s % 32) = 2 ^ (hv / 2 ^ s % 32) by
          rw [Nat.shiftLeft_eq, one_mul]]
        refine WFN.bitmap (by omega) hdvd haccs ?_ ?_ ?_
        · exact Nat.pow_lt_pow_right (by omega) hm232
        · simp [bitcount_two_pow]
        · intro i hi32 hbi
          rw [bitAt_two_pow] at hbi
          have hia : i = hv / 2 ^ s % 32 := by
            by_contra hia
            rw [if_neg hia] at hbi
            omega
          subst hia
          rw [slotIdx_two_pow_self]
          refine SlotWF.child _ s (hv % 2 ^ s) _ ?_
          rw [← mod_pow_split]
          exact hchild
      · have hmm2 : ¬ hsh k1 / 2 ^ s % 32 = hv / 2 ^ s % 32 := by
          rw [← slice_eq_div_mod, ← slice_eq_div_mod]
          exact hmm
        by_cases hlt : (hsh k1 >>> s) &&& 0x1f < (hv >>> s) &&& 0x1f
        · rw [createNodeGo_split_lt hsh (g + 1) s k1 v1 hv k2 v2 hs hmm hlt]
          rw [slice_eq_div_mod, slice_eq_div_mod] at hlt
          rw [slice_eq_div_mod, slice_eq_div_mod]
          exact WFN_two_leaf hsh _ _ k1 v1 k2 v2 (by omega) hdvd haccs hm132 hm232
            hlt e1 e2
        · rw [createNodeGo_split_ge hsh (g + 1) s k1 v1 hv k2 v2 hs hmm hlt]
          rw [slice_eq_div_mod, slice_eq_div_mod] at hlt
          rw [slice_eq_div_mod, slice_eq_div_mod]
          have hlt2 : hv / 2 ^ s % 32 < hsh k1 / 2 ^ s % 32 := by omega
          have hwf := WFN_two_leaf hsh _ _ k2 v2 k1 v1 (by omega) hdvd haccs hm232 hm132
            hlt2 e2 e1
          rwa [Nat.lor_comm] at hwf

/-- _create_node at a dispatched shift is well formed there. -/
theorem WFN_create_node (hsh : Option D → Nat) (s : Nat) (k1 v1 : Option D) (hv : Nat)
    (k2 v2 : Option D) (hdvd : 5 ∣ s) (hs30 : s ≤ 30) (hk2 : hsh k2 = hv)
    (hne : k1 ≠ k2) (hagree : hsh k1 % 2 ^ s = hv % 2 ^ s) :
    WFN hsh (create_node hsh s k1 v1 hv k2 v2) s (hv % 2 ^ s) :=
  WFN_createNodeGo hsh 7 s k1 v1 hv k2 v2 hdvd hs30 (by omega) hk2 hne hagree


/-! ### Slot-level and node-level evaluation lemmas -/

theorem slot_decomp_unique {x shift acc i : Nat} (hacc : acc < 2 ^ shift)
    (h : x % 2 ^ (shift + 5) = acc + 2 ^ shift * i) :
    x % 2 ^ shift = acc ∧ x / 2 ^ shift % 32 = i := by
  have hs := mod_pow_split x shift
  have h1 : x % 2 ^ shift = acc := by
    have h2 : x % 2 ^ (shift + 5) % 2 ^ shift = x % 2 ^ shift :=
      mod_pow_mod_pow x (by omega)
    rw [h, Nat.add_mul_mod_self_left, Nat.mod_eq_of_lt hacc] at h2
    exact h2.symm
  refine ⟨h1, ?_⟩
  have h3 : 2 ^ shift * (x / 2 ^ shift % 32) = 2 ^ shift * i := by omega
  exact Nat.eq_of_mul_eq_mul_left (Nat.pos_pow_of_pos shift (by omega)) h3

theorem slotAssoc_leaf (hsh : Option D → Nat) (k2 v2 : Option D) (s hv : Nat)
    (key value : Option D) (hnn : ¬(k2 = none ∧ v2 = none)) :
    slotAssoc hsh (ofObj k2, ofObj v2) s hv key value =
      if k2 = key then
        (if v2 = value then none else some (ofObj k2, ofObj value))
      else
        some (.node (if 25 ≤ s then Node.collision [(k2, v2), (key, value)]
          else create_node hsh (s + 5) k2 v2 hv key value), .null) := by
  rcases k2 with _ | d2 <;> rcases v2 with _ | e2v
  · exact absurd ⟨rfl, rfl⟩ hnn
  · simp [slotAssoc, ofObj, Entry.toObj, Entry.eqObj, decide_eq_true_eq]
  · simp [slotAssoc, ofObj, Entry.toObj, Entry.eqObj, decide_eq_true_eq]
  · simp [slotAssoc, ofObj, Entry.toObj, Entry.eqObj, decide_eq_true_eq]

theorem slotAssoc_child_none (hsh : Option D → Nat) (c : Node D) (e2 : Entry D)
    (s hv : Nat) (key value : Option D)
    (hb : (Node.assoc hsh c (s + 5) hv key value).2 = true) :
    slotAssoc hsh (.node c, e2) s hv key value = none := by
  simp [slotAssoc, hb]

theorem slotAssoc_child_some (hsh : Option D → Nat) (c : Node D) (e2 : Entry D)
    (s hv : Nat) (key value : Option D)
    (hb : (Node.assoc hsh c (s + 5) hv key value).2 = false) :
    slotAssoc hsh (.node c, e2) s hv key value
      = some (.node (Node.assoc hsh c (s + 5) hv key value).1, e2) := by
  simp [slotAssoc, hb]

theorem slotWithout_child (c : Node D) (e2 : Entry D) (s hv : Nat) (key : Option D) :
    slotWithout (.node c, e2) s hv key
      = match Node.without c (s + 5) hv key with
        | .err => .err
        | .kept _ true => .unchanged
        | .kept newNode false => .replaced (.node newNode, e2)
        | .gone => .vanish := rfl

theorem slotWithout_leaf (k2 v2 : Option D) (s hv : Nat) (key : Option D) :
    slotWithout (ofObj k2, ofObj v2) s hv key
      = if k2 ≠ key then .err else .vanish := by
  rcases k2 with _ | d2 <;> rcases v2 with _ | e2v <;>
    simp [slotWithout, ofObj, Entry.toObj]

theorem slotWithout_null_null (s hv : Nat) (key : Option D) :
    slotWithout ((.null, .null) : Entry D × Entry D) s hv key
      = if (none : Option D) ≠ key then .err else .vanish := rfl

theorem assoc_bitmap_eq (hsh : Option D → Nat) (bm : Nat)
    (arr : List (Entry D × Entry D)) (shift hv : Nat) (key value : Option D) :
    Node.assoc hsh (.bitmap bm arr) shift hv key value =
      if bm &&& 1 <<< ((hv >>> shift) &&& 0x1f) ≠ 0 then
        match assocSlot hsh arr (popcount (bm &&& (1 <<< ((hv >>> shift) &&& 0x1f) - 1)))
            shift hv key value with
        | none => (.bitmap bm arr, true)
        | some pr =>
          (.bitmap bm (arr.set (popcount (bm &&& (1 <<< ((hv >>> shift) &&& 0x1f) - 1))) pr),
            false)
      else
        (.bitmap (bm ||| 1 <<< ((hv >>> shift) &&& 0x1f))
          (arr.take (popcount (bm &&& (1 <<< ((hv >>> shift) &&& 0x1f) - 1)))
            ++ (ofObj key, ofObj value)
            :: arr.drop (popcount (bm &&& (1 <<< ((hv >>> shift) &&& 0x1f) - 1)))),
          false) := rfl

theorem without_bitmap_eq (bm : Nat) (arr : List (Entry D × Entry D))
    (shift hv : Nat) (key : Option D) :
    Node.without (.bitmap bm arr) shift hv key =
      if bm &&& 1 <<< ((hv >>> shift) &&& 0x1f) = 0 then .err
      else
        match withoutSlot arr (popcount (bm &&& (1 <<< ((hv >>> shift) &&& 0x1f) - 1)))
            shift hv key with
        | .err => .err
        | .unchanged => .kept (.bitmap bm arr) true
        | .replaced pr =>
          .kept (.bitmap bm
            (arr.set (popcount (bm &&& (1 <<< ((hv >>> shift) &&& 0x1f) - 1))) pr)) false
        | .vanish =>
          if popcount bm = 1 then .gone
          else
            .kept (.bitmap (bm &&& (0xffffffff ^^^ 1 <<< ((hv >>> shift) &&& 0x1f)))
              (arr.take (popcount (bm &&& (1 <<< ((hv >>> shift) &&& 0x1f) - 1)))
                ++ arr.drop (popcount (bm &&& (1 <<< ((hv >>> shift) &&& 0x1f) - 1)) + 1)))
              false := rfl

theorem find_bitmap_eq (bm : Nat) (arr : List (Entry D × Entry D))
    (shift hv : Nat) (key : Option D) :
    Node.find (.bitmap bm arr) shift hv key =
      if bm &&& 1 <<< ((hv >>> shift) &&& 0x1f) = 0 then none
      else findSlot arr (popcount (bm &&& (1 <<< ((hv >>> shift) &&& 0x1f) - 1)))
        shift hv key := rfl

theorem findNullHit_bitmap_eq (bm : Nat) (arr : List (Entry D × Entry D))
    (shift hv : Nat) (key : Option D) :
    Node.findNullHit (.bitmap bm arr) shift hv key =
      if bm &&& 1 <<< ((hv >>> shift) &&& 0x1f) = 0 then false
      else nullHitSlot arr (popcount (bm &&& (1 <<< ((hv >>> shift) &&& 0x1f) - 1)))
        shift hv key := rfl


/-! ### Well-formedness preservation by assoc -/

theorem WFN_assoc_bound (hsh : Option D → Nat) :
    ∀ (N : Nat) (n : Node D) (shift acc hv : Nat) (key value : Option D),
    sizeOf n < N → WFN hsh n shift acc → hsh key = hv → hv % 2 ^ shift = acc →
    WFN hsh (Node.assoc hsh n shift hv key value).1 shift acc := by
  intro N
  induction N with
  | zero =>
    intro n shift acc hv key value hsz hWF hk hacc
    exact absurd hsz (by omega)
  | succ N ihN =>
    intro n shift acc hv key value hsz hWF hk hacc
    cases hWF with
    | collision hacc30 hlen hkeys hpw =>
      rename_i items
      cases hca : collAssoc items key value with
      | none =>
        simp only [Node.assoc, hca]
        exact WFN.collision hacc30 hlen hkeys hpw
      | some items2 =>
        simp only [Node.assoc, hca]
        rcases collAssoc_keys items key value items2 hca with ⟨hm, hl⟩ | ⟨hm, habs, hl⟩
        · refine WFN.collision hacc30 (by omega) ?_ ?_
          · intro p hp
            have hp1 : p.1 ∈ items2.map Prod.fst := List.mem_map_of_mem _ hp
            rw [hm] at hp1
            obtain ⟨q, hq, hq1⟩ := List.mem_map.1 hp1
            rw [← hq1]
            exact hkeys q hq
          · have hpm : (items.map Prod.fst).Pairwise (· ≠ ·) := (List.pairwise_map).2 hpw
            rw [← hm] at hpm
            exact (List.pairwise_map).1 hpm
        · refine WFN.collision hacc30 (by omega) ?_ ?_
          · intro p hp
            have hp1 : p.1 ∈ items2.map Prod.fst := List.mem_map_of_mem _ hp
            rw [hm] at hp1
            rcases List.mem_append.1 hp1 with hp2 | hp2
            · obtain ⟨q, hq, hq1⟩ := List.mem_map.1 hp2
              rw [← hq1]
              exact hkeys q hq
            · have hp3 : p.1 = key := by simpa using hp2
              rw [hp3, hk]
              exact hacc
          · have hpm : (items.map Prod.fst).Pairwise (· ≠ ·) := (List.pairwise_map).2 hpw
            have hnew : (items.map Prod.fst ++ [key]).Pairwise (· ≠ ·) := by
              rw [List.pairwise_append]
              refine ⟨hpm, by simp, ?_⟩
              intro x hx y hy
              obtain ⟨q, hq, hq1⟩ := List.mem_map.1 hx
              have hy2 : y = key := by simpa using hy
              rw [hy2, ← hq1]
              exact habs q hq
            rw [← hm] at hnew
            exact (List.pairwise_map).1 hnew
    | bitmap hs25 hdvd haccs hbm32 hlen hslots =>
      rename_i bm arr
      rw [assoc_bitmap_eq, slice_eq_div_mod,
        popcount_mask_eq bm (show hv / 2 ^ shift % 32 ≤ 32 by omega)]
      have hi032 : hv / 2 ^ shift % 32 < 32 := Nat.mod_lt _ (by omega)
      by_cases hocc : bitAt bm (hv / 2 ^ shift % 32) = 1
      · rw [if_pos ((land_bit_ne_zero_iff bm _).2 hocc)]
        have hidxlt : slotIdx bm (hv / 2 ^ shift % 32) < arr.length := by
          rw [hlen]
          exact slotIdx_lt_bitcount hocc
        rw [assocSlot_lt hsh arr _ hidxlt]
        have hslot := hslots _ hi032 hocc
        obtain ⟨p, hp⟩ : ∃ p, arr.getD (slotIdx bm (hv / 2 ^ shift % 32)) (.null, .null) = p :=
          ⟨_, rfl⟩
        rw [hp] at hslot ⊢
        cases hslot with
        | leaf k2 v2 _ _ _ hkey2 =>
          by_cases hnn : k2 = none ∧ v2 = none
          · obtain ⟨rfl, rfl⟩ := hnn
            exact WFN.bitmap hs25 hdvd haccs hbm32 hlen hslots
          · rw [slotAssoc_leaf hsh k2 v2 shift hv key value hnn]
            by_cases hkk : k2 = key
            · rw [if_pos hkk]
              by_cases hvv : v2 = value
              · rw [if_pos hvv]
                exact WFN.bitmap hs25 hdvd haccs hbm32 hlen hslots
              · rw [if_neg hvv]
                refine WFN.bitmap hs25 hdvd haccs hbm32 ?_ ?_
                · rw [List.length_set, hlen]
                · intro i hi32 hbi
                  by_cases hii : slotIdx bm i = slotIdx bm (hv / 2 ^ shift % 32)
                  · have hieq : i = hv / 2 ^ shift % 32 := slotIdx_inj hbi hocc hii
                    rw [hii, getD_set_self _ _ _ _ hidxlt, hieq]
                    exact SlotWF.leaf k2 value shift acc _ hkey2
                  · rw [getD_set_ne _ _ _ _ _ hii]
                    exact hslots i hi32 hbi
            · rw [if_neg hkk]
              refine WFN.bitmap hs25 hdvd haccs hbm32 ?_ ?_
              · rw [List.length_set, hlen]
              · intro i hi32 hbi
                by_cases hii : slotIdx bm i = slotIdx bm (hv / 2 ^ shift % 32)
                · have hieq : i = hv / 2 ^ shift % 32 := slotIdx_inj hbi hocc hii
                  rw [hii, getD_set_self _ _ _ _ hidxlt, hieq]
                  refine SlotWF.child _ shift acc _ ?_
                  by_cases hsh25 : 25 ≤ shift
                  · rw [if_pos hsh25]
                    have hs250 : shift = 25 := by omega
                    subst hs250
                    refine WFN_coll_two hsh k2 v2 key value ?_ ?_ ?_ hkk
                    · omega
                    · exact hkey2
                    · rw [hk, show (2 : Nat) ^ 30 = 2 ^ (25 + 5) by norm_num,
                        mod_pow_split, hacc]
                  · rw [if_neg hsh25]
                    have hagree2 : hsh k2 % 2 ^ (shift + 5) = hv % 2 ^ (shift + 5) := by
                      rw [hkey2, mod_pow_split, hacc]
                    have hwf := WFN_create_node hsh (shift + 5) k2 v2 hv key value
                      (Nat.dvd_add hdvd (dvd_refl 5)) (by omega) hk hkk hagree2
                    rw [mod_pow_split, hacc] at hwf
                    exact hwf
                · rw [getD_set_ne _ _ _ _ _ hii]
                  exact hslots i hi32 hbi
        | child c _ _ _ hc =>
          have hmem : (Entry.node c, Entry.null) ∈ arr := by
            rw [← hp]
            exact getD_mem arr _ _ hidxlt
          have hszc : sizeOf c < N := by
            have h1 := sizeOf_child_lt bm hmem
            omega
          have hacc5 : hv % 2 ^ (shift + 5) = acc + 2 ^ shift * (hv / 2 ^ shift % 32) := by
            rw [mod_pow_split, hacc]
          have hwfc := ihN c (shift + 5) (acc + 2 ^ shift * (hv / 2 ^ shift % 32)) hv
            key value hszc hc hk hacc5
          cases hb : (Node.assoc hsh c (shift + 5) hv key value).2 with
          | true =>
            rw [slotAssoc_child_none hsh c _ shift hv key value hb]
            exact WFN.bitmap hs25 hdvd haccs hbm32 hlen hslots
          | false =>
            rw [slotAssoc_child_some hsh c _ shift hv key value hb]
            refine WFN.bitmap hs25 hdvd haccs hbm32 ?_ ?_
            · rw [List.length_set, hlen]
            · intro i hi32 hbi
              by_cases hii : slotIdx bm i = slotIdx bm (hv / 2 ^ shift % 32)
              · have hieq : i = hv / 2 ^ shift % 32 := slotIdx_inj hbi hocc hii
                rw [hii, getD_set_self _ _ _ _ hidxlt, hieq]
                exact SlotWF.child _ shift acc _ hwfc
              · rw [getD_set_ne _ _ _ _ _ hii]
                exact hslots i hi32 hbi
      · have hocc0 : bitAt bm (hv / 2 ^ shift % 32) = 0 := by
          have := bitAt_lt_two bm (hv / 2 ^ shift % 32)
          omega
        rw [if_neg (show ¬ bm &&& 1 <<< (hv / 2 ^ shift % 32) ≠ 0 by
          intro hne2
          exact absurd ((land_bit_ne_zero_iff bm _).1 hne2) (by omega))]
        rw [lor_fresh hocc0]
        have hidxle : slotIdx bm (hv / 2 ^ shift % 32) ≤ arr.length := by
          rw [hlen]
          exact slotIdx_le_bitcount bm _
        refine WFN.bitmap hs25 hdvd haccs ?_ ?_ ?_
        · exact add_pow_lt_32 hbm32 hi032 hocc0
        · rw [length_insertAt _ _ _ hidxle, hlen, bitcount_add_pow hocc0]
        · intro i hi32 hbi
          by_cases hii : i = hv / 2 ^ shift % 32
          · rw [hii, slotIdx_add_pow hocc0, if_neg (by omega), Nat.add_zero,
              getD_insertAt_self _ _ _ _ hidxle]
            refine SlotWF.leaf key value shift acc _ ?_
            rw [hk, mod_pow_split, hacc]
          · have hbi0 : bitAt bm i = 1 := by
              rw [← bitAt_add_pow_ne hocc0 hii]
              exact hbi
            have hsw := hslots i hi32 hbi0
            rw [slotIdx_add_pow hocc0 i]
            by_cases hlt : hv / 2 ^ shift % 32 < i
            · rw [if_pos hlt]
              have hle2 : slotIdx bm (hv / 2 ^ shift % 32) < slotIdx bm i + 1 := by
                have := slotIdx_mono bm (show hv / 2 ^ shift % 32 ≤ i by omega)
                omega
              rw [getD_insertAt_gt _ _ _ _ _ hidxle hle2,
                show slotIdx bm i + 1 - 1 = slotIdx bm i by omega]
              exact hsw
            · rw [if_neg hlt, Nat.add_zero]
              have hji : i < hv / 2 ^ shift % 32 := by omega
              rw [getD_insertAt_lt _ _ _ _ _ hidxle (slotIdx_lt_slotIdx hbi0 hji)]
              exact hsw

/-- BitmapNode.assoc and CollisionNode.assoc preserve well-formedness when
probed with the key hash whose consumed prefix matches the node. -/
theorem WFN_assoc (hsh : Option D → Nat) (n : Node D) (shift acc hv : Nat)
    (key value : Option D) (hWF : WFN hsh n shift acc) (hk : hsh key = hv)
    (hacc : hv % 2 ^ shift = acc) :
    WFN hsh (Node.assoc hsh n shift hv key value).1 shift acc :=
  WFN_assoc_bound hsh (sizeOf n + 1) n shift acc hv key value (by omega) hWF hk hacc


/-! ### Well-formedness preservation by without -/

theorem WFN_without_vanish (hsh : Option D → Nat) {bm : Nat}
    {arr : List (Entry D × Entry D)} {shift acc : Nat} (hv : Nat)
    (hs25 : shift ≤ 25) (hdvd : 5 ∣ shift) (haccs : acc < 2 ^ shift)
    (hbm32 : bm < 2 ^ 32) (hlen : arr.length = bitcount bm)
    (hslots : ∀ i, i < 32 → bitAt bm i = 1 →
      SlotWF hsh (arr.getD (slotIdx bm i) (.null, .null)) shift acc i)
    (hocc : bitAt bm (hv / 2 ^ shift % 32) = 1) (hi032 : hv / 2 ^ shift % 32 < 32)
    (hidxlt : slotIdx bm (hv / 2 ^ shift % 32) < arr.length) :
    WFN hsh (.bitmap (bm &&& (0xffffffff ^^^ 1 <<< (hv / 2 ^ shift % 32)))
      (arr.take (slotIdx bm (hv / 2 ^ shift % 32))
        ++ arr.drop (slotIdx bm (hv / 2 ^ shift % 32) + 1))) shift acc := by
  rw [land_clear_bit hbm32 hi032 hocc]
  refine WFN.bitmap hs25 hdvd haccs ?_ ?_ ?_
  · have hsub : bm - 2 ^ (hv / 2 ^ shift % 32) ≤ bm := Nat.sub_le _ _
    omega
  · rw [length_eraseAt _ _ hidxlt, hlen, bitcount_sub_pow hocc]
  · intro i hi32 hbi
    have hine : i ≠ hv / 2 ^ shift % 32 := by
      intro he
      rw [he, bitAt_sub_pow_self hocc] at hbi
      omega
    have hbi0 : bitAt bm i = 1 := by
      rw [← bitAt_sub_pow_ne hocc hine]
      exact hbi
    have hsw := hslots i hi32 hbi0
    rw [slotIdx_sub_pow hocc i]
    by_cases hlt : hv / 2 ^ shift % 32 < i
    · rw [if_pos hlt]
      have hstrict : slotIdx bm (hv / 2 ^ shift % 32) < slotIdx bm i :=
        slotIdx_lt_slotIdx hocc hlt
      rw [getD_eraseAt_ge _ _ _ _ hidxlt (by omega),
        show slotIdx bm i - 1 + 1 = slotIdx bm i by omega]
      exact hsw
    · rw [if_neg hlt, Nat.sub_zero]
      have hji : i < hv / 2 ^ shift % 32 := by omega
      rw [getD_eraseAt_lt _ _ _ _ hidxlt (slotIdx_lt_slotIdx hbi0 hji)]
      exact hsw

theorem WFN_without_bound (hsh : Option D → Nat) :
    ∀ (N : Nat) (n : Node D) (shift acc hv : Nat) (key : Option D) (n2 : Node D)
    (b : Bool), sizeOf n < N → WFN hsh n shift acc →
    Node.without n shift hv key = .kept n2 b → WFN hsh n2 shift acc := by
  intro N
  induction N with
  | zero =>
    intro n shift acc hv key n2 b hsz hWF hw
    exact absurd hsz (by omega)
  | succ N ihN =>
    intro n shift acc hv key n2 b hsz hWF hw
    cases hWF with
    | collision hacc30 hlen hkeys hpw =>
      rename_i items
      cases hcr : collRemove items key with
      | none =>
        simp only [Node.without, collWithout, hcr] at hw
        exact WRes.noConfusion hw
      | some items2 =>
        by_cases hone : items2.length = 1
        · simp only [Node.without, collWithout, hcr, if_pos hone] at hw
          exact WRes.noConfusion hw
        · simp only [Node.without, collWithout, hcr, if_neg hone] at hw
          cases hw
          obtain ⟨hsub, hlen2⟩ := collRemove_shape items key items2 hcr
          refine WFN.collision hacc30 (by omega) ?_ ?_
          · intro p hp
            exact hkeys p (hsub.subset hp)
          · exact List.Pairwise.sublist hsub hpw
    | bitmap hs25 hdvd haccs hbm32 hlen hslots =>
      rename_i bm arr
      rw [without_bitmap_eq, slice_eq_div_mod,
        popcount_mask_eq bm (show hv / 2 ^ shift % 32 ≤ 32 by omega)] at hw
      have hi032 : hv / 2 ^ shift % 32 < 32 := Nat.mod_lt _ (by omega)
      by_cases hocc : bitAt bm (hv / 2 ^ shift % 32) = 1
      · rw [if_neg (show ¬ bm &&& 1 <<< (hv / 2 ^ shift % 32) = 0 from
          (land_bit_ne_zero_iff bm _).2 hocc)] at hw
        have hidxlt : slotIdx bm (hv / 2 ^ shift % 32) < arr.length := by
          rw [hlen]
          exact slotIdx_lt_bitcount hocc
        rw [withoutSlot_lt arr _ hidxlt] at hw
        have hslot := hslots _ hi032 hocc
        obtain ⟨p, hp⟩ : ∃ p, arr.getD (slotIdx bm (hv / 2 ^ shift % 32)) (.null, .null) = p :=
          ⟨_, rfl⟩
        rw [hp] at hslot hw
        cases hslot with
        | leaf k2 v2 _ _ _ hkey2 =>
          rw [slotWithout_leaf k2 v2 shift hv key] at hw
          by_cases hkk : k2 ≠ key
          · rw [if_pos hkk] at hw
            simp at hw
          · rw [if_neg hkk] at hw
            by_cases hpc : popcount bm = 1
            · simp only [if_pos hpc] at hw
              simp at hw
            · simp only [if_neg hpc] at hw
              cases hw
              exact WFN_without_vanish hsh hv hs25 hdvd haccs hbm32 hlen hslots
                hocc hi032 hidxlt
        | child c _ _ _ hc =>
          have hmem : (Entry.node c, Entry.null) ∈ arr := by
            rw [← hp]
            exact getD_mem arr _ _ hidxlt
          have hszc : sizeOf c < N := by
            have h1 := sizeOf_child_lt bm hmem
            omega
          cases hwc : Node.without c (shift + 5) hv key with
          | err =>
            rw [slotWithout_child c _ shift hv key, hwc] at hw
            simp at hw
          | gone =>
            rw [slotWithout_child c _ shift hv key, hwc] at hw
            by_cases hpc : popcount bm = 1
            · simp only [if_pos hpc] at hw
              simp at hw
            · simp only [if_neg hpc] at hw
              cases hw
              exact WFN_without_vanish hsh hv hs25 hdvd haccs hbm32 hlen hslots
                hocc hi032 hidxlt
          | kept c2 b2 =>
            cases b2 with
            | true =>
              rw [slotWithout_child c _ shift hv key, hwc] at hw
              cases hw
              exact WFN.bitmap hs25 hdvd haccs hbm32 hlen hslots
            | false =>
              rw [slotWithout_child c _ shift hv key, hwc] at hw
              cases hw
              have hwfc := ihN c (shift + 5)
                (acc + 2 ^ shift * (hv / 2 ^ shift % 32)) hv key c2 false hszc hc hwc
              refine WFN.bitmap hs25 hdvd haccs hbm32 ?_ ?_
              · rw [List.length_set, hlen]
              · intro i hi32 hbi
                by_cases hii : slotIdx bm i = slotIdx bm (hv / 2 ^ shift % 32)
                · have hieq : i = hv / 2 ^ shift % 32 := slotIdx_inj hbi hocc hii
                  rw [hii, getD_set_self _ _ _ _ hidxlt, hieq]
                  exact SlotWF.child _ shift acc _ hwfc
                · rw [getD_set_ne _ _ _ _ _ hii]
                  exact hslots i hi32 hbi
      · have h0 : bm &&& 1 <<< (hv / 2 ^ shift % 32) = 0 := by
          by_contra hne2
          exact absurd ((land_bit_ne_zero_iff bm _).1 hne2)
            (by have := bitAt_lt_two bm (hv / 2 ^ shift % 32); omega)
        rw [if_pos h0] at hw
        exact WRes.noConfusion hw

/-- BitmapNode.without and CollisionNode.without preserve well-formedness
on the node they return. -/
theorem WFN_without (hsh : Option D → Nat) (n : Node D) (shift acc hv : Nat)
    (key : Option D) (n2 : Node D) (b : Bool) (hWF : WFN hsh n shift acc)
    (hw : Node.without n shift hv key = .kept n2 b) : WFN hsh n2 shift acc :=
  WFN_without_bound hsh (sizeOf n + 1) n shift acc hv key n2 b (by omega) hWF hw


/-! ### Container-level well-formedness and reachability -/

theorem assocWithAdded_some (hsh : Option D → Nat) (r0 : Node D) (shift hv : Nat)
    (key value : Option D) :
    (assocWithAdded hsh (some r0) shift hv key value).1
      = (Node.assoc hsh r0 shift hv key value).1 := by
  show (match Node.find r0 shift hv key with
    | some _ => ((Node.assoc hsh r0 shift hv key value).1, false)
    | none => ((Node.assoc hsh r0 shift hv key value).1, true)).1
    = (Node.assoc hsh r0 shift hv key value).1
  cases Node.find r0 shift hv key <;> rfl

theorem WFC_set (hsh : Option D → Nat) (c : HAMT D) (key value : Option D)
    (hWFC : WFC hsh c) : WFC hsh (c.set hsh key value) := by
  intro r hr
  unfold HAMT.set at hr
  cases hc : c.root with
  | none =>
    rw [hc] at hr
    replace hr : some (Node.bitmap (1 <<< (hsh key &&& 0x1f))
      [(ofObj key, ofObj value)]) = some r := hr
    cases hr
    have h5 : hsh key &&& 0x1f = hsh key % 32 := by
      have h := Nat.and_pow_two_sub_one_eq_mod (hsh key) 5
      norm_num at h
      exact h
    rw [h5]
    refine WFN_one_leaf hsh (hsh key % 32) key value (by omega) ⟨0, rfl⟩ (by omega)
      (Nat.mod_lt _ (by omega)) ?_
    norm_num
  | some r0 =>
    rw [hc] at hr
    replace hr : some (assocWithAdded hsh (some r0) 0 (hsh key) key value).1
      = some r := hr
    rw [assocWithAdded_some] at hr
    cases hr
    exact WFN_assoc hsh r0 0 0 (hsh key) key value (hWFC r0 hc) rfl (by omega)

theorem WFC_delete (hsh : Option D → Nat) (c c2 : HAMT D) (key : Option D)
    (hWFC : WFC hsh c) (hd : c.delete hsh key = some c2) : WFC hsh c2 := by
  intro r hr
  unfold HAMT.delete at hd
  cases hc : c.root with
  | none =>
    rw [hc] at hd
    simp at hd
  | some r0 =>
    rw [hc] at hd
    replace hd : (match Node.without r0 0 (hsh key) key with
      | WRes.err => none
      | WRes.gone => some (⟨none, c.size - 1⟩ : HAMT D)
      | WRes.kept n _ => some (⟨some n, c.size - 1⟩ : HAMT D)) = some c2 := hd
    cases hw : Node.without r0 0 (hsh key) key with
    | err =>
      rw [hw] at hd
      simp at hd
    | gone =>
      rw [hw] at hd
      replace hd : some (⟨none, c.size - 1⟩ : HAMT D) = some c2 := hd
      cases hd
      exact Option.noConfusion hr
    | kept n2 b =>
      rw [hw] at hd
      replace hd : some (⟨some n2, c.size - 1⟩ : HAMT D) = some c2 := hd
      cases hd
      replace hr : some n2 = some r := hr
      cases hr
      exact WFN_without hsh r0 0 0 (hsh key) key _ b (hWFC r0 hc) hw

/-- Every container reachable through the public write operations is well
formed. -/
theorem Reach_WFC (hsh : Option D → Nat) (c : HAMT D) (h : Reach hsh c) :
    WFC hsh c := by
  induction h with
  | empty =>
    intro r hr
    exact Option.noConfusion hr
  | set key value hre ih => exact WFC_set hsh _ key value ih
  | delete key hre hd ih => exact WFC_delete hsh _ _ key ih hd

/-! ### Collision-node key lists of well-formed nodes -/

theorem SlotWF_node_inv (hsh : Option D → Nat) {p : Entry D × Entry D}
    {shift acc i : Nat} {child : Node D} {e2 : Entry D}
    (hs : SlotWF hsh p shift acc i) (hp : p = (.node child, e2)) :
    e2 = .null ∧ WFN hsh child (shift + 5) (acc + 2 ^ shift * i) := by
  cases hs with
  | leaf k v _ _ _ _ =>
    exact absurd (congrArg Prod.fst hp) (ofObj_ne_node k child)
  | child c _ _ _ hc =>
    have h1 : Entry.node c = Entry.node child := congrArg Prod.fst hp
    have h2 : Entry.null = e2 := congrArg Prod.snd hp
    have hc2 : c = child := by injection h1
    subst hc2
    exact ⟨h2.symm, hc⟩

theorem pairsColl_mem : ∀ (arr : List (Entry D × Entry D)) (ks : List (Option D)),
    ks ∈ pairsColl arr →
    ∃ child e2, (Entry.node child, e2) ∈ arr ∧ ks ∈ child.collKeyLists := by
  intro arr
  induction arr with
  | nil =>
    intro ks h
    simp [pairsColl] at h
  | cons p rest ih =>
    intro ks h
    obtain ⟨e1, e2⟩ := p
    cases e1 with
    | node child =>
      replace h : ks ∈ child.collKeyLists ++ pairsColl rest := h
      rcases List.mem_append.1 h with h1 | h1
      · exact ⟨child, e2, List.mem_cons_self _ _, h1⟩
      · obtain ⟨child2, e22, hm, hk⟩ := ih ks h1
        exact ⟨child2, e22, List.mem_cons_of_mem _ hm, hk⟩
    | null =>
      replace h : ks ∈ pairsColl rest := h
      obtain ⟨child2, e22, hm, hk⟩ := ih ks h
      exact ⟨child2, e22, List.mem_cons_of_mem _ hm, hk⟩
    | obj d =>
      replace h : ks ∈ pairsColl rest := h
      obtain ⟨child2, e22, hm, hk⟩ := ih ks h
      exact ⟨child2, e22, List.mem_cons_of_mem _ hm, hk⟩

theorem WFN_collLists (hsh : Option D → Nat) :
    ∀ (N : Nat) (n : Node D) (shift acc : Nat), sizeOf n < N → WFN hsh n shift acc →
    ∀ ks, ks ∈ n.collKeyLists →
    ks.Pairwise (· ≠ ·) ∧ ∃ a, ∀ k ∈ ks, hsh k % 2 ^ 30 = a := by
  intro N
  induction N with
  | zero =>
    intro n shift acc hsz
    exact absurd hsz (by omega)
  | succ N ihN =>
    intro n shift acc hsz hWF ks hks
    cases hWF with
    | collision hacc30 hlen hkeys hpw =>
      rename_i items
      simp only [Node.collKeyLists] at hks
      have hks2 : ks = items.map Prod.fst := by simpa using hks
      subst hks2
      constructor
      · exact (List.pairwise_map).2 hpw
      · refine ⟨acc, ?_⟩
        intro k hk
        obtain ⟨q, hq, hq1⟩ := List.mem_map.1 hk
        rw [← hq1]
        exact hkeys q hq
    | bitmap hs25 hdvd haccs hbm32 hlen hslots =>
      rename_i bm arr
      simp only [Node.collKeyLists] at hks
      obtain ⟨child, e2, hmem, hk⟩ := pairsColl_mem arr ks hks
      obtain ⟨j, hj, hje⟩ := List.getElem_of_mem hmem
      have hjb : j < bitcount bm := by
        rw [← hlen]
        exact hj
      obtain ⟨i, hbi, hsi⟩ := slotIdx_surj bm j hjb
      have hi32 : i < 32 := bitAt_one_lt hbm32 hbi
      have hslot := hslots i hi32 hbi
      rw [hsi] at hslot
      have hgd : arr.getD j (.null, .null) = (Entry.node child, e2) := by
        rw [List.getD_eq_getElem?_getD, List.getElem?_eq_getElem hj, Option.getD_some,
          hje]
      rw [hgd] at hslot
      obtain ⟨he2, hwfchild⟩ := SlotWF_node_inv hsh hslot rfl
      have hszc : sizeOf child < N := by
        have h1 := sizeOf_child_lt bm hmem
        omega
      exact ihN child (shift + 5) (acc + 2 ^ shift * i) hszc hwfchild ks hk

/-! ### The is-None branch of find on well-formed trees -/

theorem findNullHit_finds_none (hsh : Option D → Nat) :
    ∀ (N : Nat) (n : Node D) (shift acc hv : Nat) (key : Option D),
    sizeOf n < N → WFN hsh n shift acc → hv % 2 ^ shift = acc →
    Node.findNullHit n shift hv key = true →
    hsh none % 2 ^ shift = acc ∧ (Node.find n shift (hsh none) none).isSome := by
  intro N
  induction N with
  | zero =>
    intro n shift acc hv key hsz
    exact absurd hsz (by omega)
  | succ N ihN =>
    intro n shift acc hv key hsz hWF hacc hhit
    cases hWF with
    | collision hacc30 hlen hkeys hpw =>
      simp [Node.findNullHit] at hhit
    | bitmap hs25 hdvd haccs hbm32 hlen hslots =>
      rename_i bm arr
      rw [findNullHit_bitmap_eq, slice_eq_div_mod,
        popcount_mask_eq bm (show hv / 2 ^ shift % 32 ≤ 32 by omega)] at hhit
      have hi032 : hv / 2 ^ shift % 32 < 32 := Nat.mod_lt _ (by omega)
      by_cases hocc : bitAt bm (hv / 2 ^ shift % 32) = 1
      · rw [if_neg (show ¬ bm &&& 1 <<< (hv / 2 ^ shift % 32) = 0 from
          (land_bit_ne_zero_iff bm _).2 hocc)] at hhit
        have hidxlt : slotIdx bm (hv / 2 ^ shift % 32) < arr.length := by
          rw [hlen]
          exact slotIdx_lt_bitcount hocc
        rw [nullHitSlot_lt arr _ hidxlt] at hhit
        have hslot := hslots _ hi032 hocc
        obtain ⟨p, hp⟩ :
            ∃ p, arr.getD (slotIdx bm (hv / 2 ^ shift % 32)) (.null, .null) = p :=
          ⟨_, rfl⟩
        rw [hp] at hslot hhit
        cases hslot with
        | leaf k2 v2 _ _ _ hkey2 =>
          cases k2 with
          | some d => simp [slotNullHit, ofObj] at hhit
          | none =>
            obtain ⟨hmod, hslice⟩ := slot_decomp_unique haccs hkey2
            refine ⟨hmod, ?_⟩
            rw [find_bitmap_eq, slice_eq_div_mod,
              popcount_mask_eq bm (show hsh none / 2 ^ shift % 32 ≤ 32 by omega),
              hslice, if_neg (show ¬ bm &&& 1 <<< (hv / 2 ^ shift % 32) = 0 from
                (land_bit_ne_zero_iff bm _).2 hocc),
              findSlot_lt arr _ hidxlt, hp]
            simp [slotFind, ofObj]
        | child c _ _ _ hc =>
          have hchild_hit : Node.findNullHit c (shift + 5) hv key = true := hhit
          have hmem : (Entry.node c, Entry.null) ∈ arr := by
            rw [← hp]
            exact getD_mem arr _ _ hidxlt
          have hszc : sizeOf c < N := by
            have h1 := sizeOf_child_lt bm hmem
            omega
          obtain ⟨hmod5, hfind⟩ := ihN c (shift + 5)
            (acc + 2 ^ shift * (hv / 2 ^ shift % 32)) hv key hszc hc
            (by rw [mod_pow_split, hacc]) hchild_hit
          obtain ⟨hmod, hslice⟩ := slot_decomp_unique haccs hmod5
          refine ⟨hmod, ?_⟩
          rw [find_bitmap_eq, slice_eq_div_mod,
            popcount_mask_eq bm (show hsh none / 2 ^ shift % 32 ≤ 32 by omega),
            hslice, if_neg (show ¬ bm &&& 1 <<< (hv / 2 ^ shift % 32) = 0 from
              (land_bit_ne_zero_iff bm _).2 hocc),
            findSlot_lt arr _ hidxlt, hp]
          exact hfind
      · have h0 : bm &&& 1 <<< (hv / 2 ^ shift % 32) = 0 := by
          by_contra hne2
          exact absurd ((land_bit_ne_zero_iff bm _).1 hne2)
            (by have := bitAt_lt_two bm (hv / 2 ^ shift % 32); omega)
        rw [if_pos h0] at hhit
        exact absurd hhit (by simp)


/-! ### Claims C5 and C9 -/

/-- C5 (corrected): in every container reachable through the public
operations, the keys grouped in any one CollisionNode are pairwise
distinct and agree on the low 30 bits of their hash - the six 5-bit
slices the trie dispatches on - but, as c5_counterexample shows, not
necessarily on the full 32-bit hash the original claim asserts. -/
theorem c5_collision_keys_share_low_bits (hsh : Option D → Nat) (c : HAMT D)
    (hre : Reach hsh c) :
    ∀ ks ∈ HAMT.collKeyLists c, ks.Pairwise (· ≠ ·) ∧
      ∀ k1 ∈ ks, ∀ k2 ∈ ks, hsh k1 % 2 ^ 30 = hsh k2 % 2 ^ 30 := by
  intro ks hks
  have hwfc := Reach_WFC hsh c hre
  unfold HAMT.collKeyLists at hks
  cases hc : c.root with
  | none =>
    rw [hc] at hks
    simp at hks
  | some r =>
    rw [hc] at hks
    obtain ⟨hpw, a, ha⟩ := WFN_collLists hsh (sizeOf r + 1) r 0 0 (by omega)
      (hwfc r hc) ks hks
    refine ⟨hpw, ?_⟩
    intro k1 h1 k2 h2
    rw [ha k1 h1, ha k2 h2]

/-- Witness for c5_collision_keys_share_low_bits: the container built
by storing keys 0 and 1 under hshSplit is reachable, its single
CollisionNode groups exactly those keys, and the 30-bit prefixes agree
while the full hashes 0 and 2 to the 30 differ. -/
theorem c5_collision_keys_share_low_bits_witness :
    Reach hshSplit hamtSplitColl ∧
    [some 0, some 1] ∈ HAMT.collKeyLists hamtSplitColl ∧
    hshSplit (some 0) % 2 ^ 30 = hshSplit (some 1) % 2 ^ 30 := by
  have hre : Reach hshSplit hamtSplitColl :=
    Reach.set (some 1) (some 11) (Reach.set (some 0) (some 10) Reach.empty)
  refine ⟨hre, by decide, ?_⟩
  exact (c5_collision_keys_share_low_bits hshSplit hamtSplitColl hre
    [some 0, some 1] (by decide)).2 (some 0) (by decide) (some 1) (by decide)

/-- C9 (corrected): the node_or_val-is-None branch of BitmapNode.find is
not dead code outright; on a reachable container it can only execute when
the key None is actually stored (if any lookup walks into the branch,
membership of None holds), and c9_counterexample shows one set of the key
None already reaches it. -/
theorem c9_null_branch_implies_none_present (hsh : Option D → Nat) (c : HAMT D)
    (hre : Reach hsh c) (key : Option D)
    (hhit : HAMT.findNullHit hsh c key = true) :
    HAMT.contains hsh c none = true := by
  have hwfc := Reach_WFC hsh c hre
  unfold HAMT.findNullHit at hhit
  cases hc : c.root with
  | none =>
    rw [hc] at hhit
    exact absurd hhit (by simp)
  | some r =>
    rw [hc] at hhit
    obtain ⟨hmod, hfind⟩ := findNullHit_finds_none hsh (sizeOf r + 1) r 0 0 (hsh key)
      key (by omega) (hwfc r hc) (by omega) hhit
    unfold HAMT.contains
    rw [hc]
    exact hfind

/-- Witness for c9_null_branch_implies_none_present: storing 7 under the
key None gives a reachable container on which looking up None takes the
is-None branch, and membership indeed reports None present. -/
theorem c9_null_branch_implies_none_present_witness :
    Reach hshZero hamtNoneKey ∧
    HAMT.findNullHit hshZero hamtNoneKey none = true ∧
    HAMT.contains hshZero hamtNoneKey none = true := by
  have hre : Reach hshZero hamtNoneKey := Reach.set none (some 7) Reach.empty
  refine ⟨hre, by decide, ?_⟩
  exact c9_null_branch_implies_none_present hshZero hamtNoneKey hre none (by decide)



/-! ### The heap model: writes only extend, reads are stable -/

theorem heapExtends_refl (heap : List (HNode D)) : HeapExtends heap heap :=
  ⟨le_refl _, fun _ _ => rfl⟩

theorem heapExtends_append (heap l : List (HNode D)) : HeapExtends (heap ++ l) heap :=
  ⟨by rw [List.length_append]; omega, fun i h => List.getElem?_append_left h⟩

theorem heapExtends_trans {h1 h2 h3 : List (HNode D)} (e12 : HeapExtends h2 h1)
    (e23 : HeapExtends h3 h2) : HeapExtends h3 h1 :=
  ⟨le_trans e12.1 e23.1, fun i h => by
    rw [e23.2 i (lt_of_lt_of_le h e12.1), e12.2 i h]⟩

theorem heapClosedFrom_lookup : ∀ (heap : List (HNode D)) (base i : Nat) (nd : HNode D),
    heapClosedFrom heap base = true → heap[i]? = some nd →
    nd.ptrsBelow (base + i) = true := by
  intro heap
  induction heap with
  | nil =>
    intro base i nd h hl
    simp at hl
  | cons nd0 rest ih =>
    intro base i nd h hl
    simp only [heapClosedFrom, Bool.and_eq_true] at h
    match i with
    | 0 =>
      rw [List.getElem?_cons_zero, Option.some.injEq] at hl
      subst hl
      rw [Nat.add_zero]
      exact h.1
    | i + 1 =>
      rw [List.getElem?_cons_succ] at hl
      have h2 := ih (base + 1) i nd h.2 hl
      rw [show base + (i + 1) = base + 1 + i by omega]
      exact h2

theorem heapClosed_lookup (heap : List (HNode D)) (i : Nat) (nd : HNode D)
    (h : heapClosed heap = true) (hl : heap[i]? = some nd) :
    nd.ptrsBelow i = true := by
  have h2 := heapClosedFrom_lookup heap 0 i nd h hl
  rw [Nat.zero_add] at h2
  exact h2

theorem ptrsBelow_fst {bm : Nat} {arr : List (HEntry D × HEntry D)} {a child : Nat}
    {e2 : HEntry D} (h : HNode.ptrsBelow (.bitmap bm arr) a = true)
    (hm : (HEntry.ptr child, e2) ∈ arr) : child < a := by
  simp only [HNode.ptrsBelow, List.all_eq_true] at h
  have h2 := h _ hm
  simp only [Bool.and_eq_true, decide_eq_true_eq] at h2
  exact h2.1

theorem getD_mem_or_default {α : Type} (arr : List α) (i : Nat) (d : α) :
    arr.getD i d ∈ arr ∨ arr.getD i d = d := by
  by_cases h : i < arr.length
  · exact Or.inl (getD_mem arr i d h)
  · right
    rw [List.getD_eq_getElem?_getD, List.getElem?_eq_none (by omega), Option.getD_none]

theorem findH_ext : ∀ (fuel : Nat) (heap heap2 : List (HNode D)) (a shift hv : Nat)
    (k : Option D), heapClosed heap = true → a < heap.length →
    HeapExtends heap2 heap →
    findH fuel heap2 a shift hv k = findH fuel heap a shift hv k := by
  intro fuel
  induction fuel with
  | zero =>
    intro heap heap2 a shift hv k hcl ha hext
    rfl
  | succ fuel ih =>
    intro heap heap2 a shift hv k hcl ha hext
    cases hnd : heap[a]? with
    | none => simp only [findH, hext.2 a ha, hnd]
    | some nd =>
      cases nd with
      | collision items => simp only [findH, hext.2 a ha, hnd]
      | bitmap bm arr =>
        simp only [findH, hext.2 a ha, hnd]
        by_cases hb : bm &&& 1 <<< ((hv >>> shift) &&& 0x1f) = 0
        · rw [if_pos hb, if_pos hb]
        · rw [if_neg hb, if_neg hb]
          obtain ⟨p, hp⟩ :
              ∃ p, arr.getD (popcount (bm &&& (1 <<< ((hv >>> shift) &&& 0x1f) - 1)))
                (.null, .null) = p := ⟨_, rfl⟩
          rw [hp]
          obtain ⟨e1, e2⟩ := p
          cases e1 with
          | null => rfl
          | obj d => rfl
          | ptr child =>
            have hmem : (HEntry.ptr child, e2) ∈ arr := by
              rcases getD_mem_or_default arr
                  (popcount (bm &&& (1 <<< ((hv >>> shift) &&& 0x1f) - 1)))
                  ((.null, .null) : HEntry D × HEntry D) with hm | hm
              · rw [hp] at hm
                exact hm
              · rw [hp] at hm
                exact absurd hm (by simp)
            have hpb := heapClosed_lookup heap a _ hcl hnd
            have hchild : child < a := ptrsBelow_fst hpb hmem
            exact ih heap heap2 child (shift + 5) hv k hcl (by omega) hext

theorem pairsKeysH_ext_aux (fuel : Nat) (heap heap2 : List (HNode D))
    (htl : ∀ b, b < heap.length → toListH fuel heap2 b = toListH fuel heap b) :
    ∀ (arr : List (HEntry D × HEntry D)),
    (∀ child e2, (HEntry.ptr child, e2) ∈ arr → child < heap.length) →
    pairsKeysH fuel heap2 arr = pairsKeysH fuel heap arr := by
  intro arr
  induction arr with
  | nil =>
    intro hb
    simp only [pairsKeysH]
  | cons p rest ihp =>
    intro hb
    obtain ⟨e1, e2⟩ := p
    have hrest := ihp fun c e2b hm => hb c e2b (List.mem_cons_of_mem _ hm)
    cases e1 with
    | null =>
      simp only [pairsKeysH]
      rw [hrest]
    | obj d =>
      simp only [pairsKeysH]
      rw [hrest]
    | ptr child =>
      simp only [pairsKeysH]
      rw [hrest, htl child (hb child e2 (List.mem_cons_self _ _))]

theorem toListH_ext : ∀ (fuel : Nat) (heap heap2 : List (HNode D)) (a : Nat),
    heapClosed heap = true → a < heap.length → HeapExtends heap2 heap →
    toListH fuel heap2 a = toListH fuel heap a := by
  intro fuel
  induction fuel with
  | zero =>
    intro heap heap2 a hcl ha hext
    simp only [toListH]
  | succ fuel ih =>
    intro heap heap2 a hcl ha hext
    cases hnd : heap[a]? with
    | none => simp only [toListH, hext.2 a ha, hnd]
    | some nd =>
      cases nd with
      | collision items => simp only [toListH, hext.2 a ha, hnd]
      | bitmap bm arr =>
        simp only [toListH, hext.2 a ha, hnd]
        have hpb := heapClosed_lookup heap a _ hcl hnd
        refine pairsKeysH_ext_aux fuel heap heap2
          (fun b hb => ih heap heap2 b hcl hb hext) arr ?_
        intro child e2 hm
        have hc := ptrsBelow_fst hpb hm
        omega

theorem createNodeH_extends (hsh : Option D → Nat) :
    ∀ (fuel : Nat) (heap : List (HNode D)) (shift : Nat) (k1 v1 : Option D)
    (hv : Nat) (k2 v2 : Option D) (heap2 : List (HNode D)) (a : Nat),
    createNodeH hsh fuel heap shift k1 v1 hv k2 v2 = some (heap2, a) →
    HeapExtends heap2 heap := by
  intro fuel
  induction fuel with
  | zero =>
    intro heap shift k1 v1 hv k2 v2 heap2 a h
    simp [createNodeH] at h
  | succ fuel ih =>
    intro heap shift k1 v1 hv k2 v2 heap2 a h
    simp only [createNodeH] at h
    by_cases hs : 25 < shift
    · rw [if_pos hs] at h
      simp only [Option.some.injEq, Prod.mk.injEq] at h
      obtain ⟨rfl, rfl⟩ := h
      exact heapExtends_append _ _
    · rw [if_neg hs] at h
      by_cases hm : (hsh k1 >>> shift) &&& 0x1f = (hv >>> shift) &&& 0x1f
      · rw [if_pos hm] at h
        cases hrec : createNodeH hsh fuel heap (shift + 5) k1 v1 hv k2 v2 with
        | none =>
          simp only [hrec] at h
          simp at h
        | some pr =>
          obtain ⟨heap3, node⟩ := pr
          simp only [hrec, Option.some.injEq, Prod.mk.injEq] at h
          obtain ⟨rfl, rfl⟩ := h
          exact heapExtends_trans (ih heap (shift + 5) k1 v1 hv k2 v2 heap3 node hrec)
            (heapExtends_append _ _)
      · rw [if_neg hm] at h
        by_cases hlt : (hsh k1 >>> shift) &&& 0x1f < (hv >>> shift) &&& 0x1f
        · rw [if_pos hlt] at h
          simp only [Option.some.injEq, Prod.mk.injEq] at h
          obtain ⟨rfl, rfl⟩ := h
          exact heapExtends_append _ _
        · rw [if_neg hlt] at h
          simp only [Option.some.injEq, Prod.mk.injEq] at h
          obtain ⟨rfl, rfl⟩ := h
          exact heapExtends_append _ _

theorem assocH_extends (hsh : Option D → Nat) :
    ∀ (fuel : Nat) (heap : List (HNode D)) (a shift hv : Nat) (key value : Option D)
    (heap2 : List (HNode D)) (r2 : Nat),
    assocH hsh fuel heap a shift hv key value = some (heap2, r2) →
    HeapExtends heap2 heap := by
  intro fuel
  induction fuel with
  | zero =>
    intro heap a shift hv key value heap2 r2 h
    simp [assocH] at h
  | succ fuel ih =>
    intro heap a shift hv key value heap2 r2 h
    simp only [assocH] at h
    cases hnd : heap[a]? with
    | none =>
      simp only [hnd] at h
      simp at h
    | some nd =>
      cases nd with
      | collision items =>
        simp only [hnd] at h
        cases hca : collAssoc items key value with
        | none =>
          simp only [hca, Option.some.injEq, Prod.mk.injEq] at h
          obtain ⟨rfl, rfl⟩ := h
          exact heapExtends_refl heap
        | some items2 =>
          simp only [hca, Option.some.injEq, Prod.mk.injEq] at h
          obtain ⟨rfl, rfl⟩ := h
          exact heapExtends_append _ _
      | bitmap bm arr =>
        simp only [hnd] at h
        by_cases hb : bm &&& 1 <<< ((hv >>> shift) &&& 0x1f) ≠ 0
        · rw [if_pos hb] at h
          obtain ⟨p, hp⟩ :
              ∃ p, arr.getD (popcount (bm &&& (1 <<< ((hv >>> shift) &&& 0x1f) - 1)))
                (.null, .null) = p := ⟨_, rfl⟩
          obtain ⟨e1, e2⟩ := p
          cases e1 with
          | ptr child =>
            simp only [hp] at h
            cases hrec : assocH hsh fuel heap child (shift + 5) hv key value with
            | none =>
              simp only [hrec] at h
              simp at h
            | some pr =>
              obtain ⟨heap3, newNode⟩ := pr
              simp only [hrec] at h
              have hext3 := ih heap child (shift + 5) hv key value heap3 newNode hrec
              by_cases hsame : newNode = child
              · rw [if_pos hsame] at h
                simp only [Option.some.injEq, Prod.mk.injEq] at h
                obtain ⟨rfl, rfl⟩ := h
                exact hext3
              · rw [if_neg hsame] at h
                simp only [Option.some.injEq, Prod.mk.injEq] at h
                obtain ⟨rfl, rfl⟩ := h
                exact heapExtends_trans hext3 (heapExtends_append _ _)
          | null =>
            cases e2 with
            | null =>
              simp only [hp, Option.some.injEq, Prod.mk.injEq] at h
              obtain ⟨rfl, rfl⟩ := h
              exact heapExtends_refl heap
            | obj d2 =>
              simp only [hp] at h
              by_cases hkk : (HEntry.null : HEntry D).toObj = key
              · rw [if_pos hkk] at h
                by_cases hvv : (HEntry.obj d2 : HEntry D).eqObj value = true
                · rw [if_pos hvv] at h
                  simp only [Option.some.injEq, Prod.mk.injEq] at h
                  obtain ⟨rfl, rfl⟩ := h
                  exact heapExtends_refl heap
                · rw [if_neg hvv] at h
                  simp only [Option.some.injEq, Prod.mk.injEq] at h
                  obtain ⟨rfl, rfl⟩ := h
                  exact heapExtends_append _ _
              · rw [if_neg hkk] at h
                by_cases hsh25 : 25 ≤ shift
                · rw [if_pos hsh25] at h
                  simp only [Option.some.injEq, Prod.mk.injEq] at h
                  obtain ⟨rfl, rfl⟩ := h
                  exact heapExtends_append _ _
                · rw [if_neg hsh25] at h
                  cases hrec : createNodeH hsh fuel heap (shift + 5)
                      (HEntry.null : HEntry D).toObj (HEntry.obj d2 : HEntry D).toObj
                      hv key value with
                  | none =>
                    simp only [hrec] at h
                    simp at h
                  | some pr =>
                    obtain ⟨heap3, newNode⟩ := pr
                    simp only [hrec, Option.some.injEq, Prod.mk.injEq] at h
                    obtain ⟨rfl, rfl⟩ := h
                    exact heapExtends_trans
                      (createNodeH_extends hsh fuel heap (shift + 5) _ _ hv key value
                        heap3 newNode hrec)
                      (heapExtends_append _ _)
            | ptr c2 =>
              simp only [hp] at h
              by_cases hkk : (HEntry.null : HEntry D).toObj = key
              · rw [if_pos hkk] at h
                by_cases hvv : (HEntry.ptr c2 : HEntry D).eqObj value = true
                · rw [if_pos hvv] at h
                  simp only [Option.some.injEq, Prod.mk.injEq] at h
                  obtain ⟨rfl, rfl⟩ := h
                  exact heapExtends_refl heap
                · rw [if_neg hvv] at h
                  simp only [Option.some.injEq, Prod.mk.injEq] at h
                  obtain ⟨rfl, rfl⟩ := h
                  exact heapExtends_append _ _
              · rw [if_neg hkk] at h
                by_cases hsh25 : 25 ≤ shift
                · rw [if_pos hsh25] at h
                  simp only [Option.some.injEq, Prod.mk.injEq] at h
                  obtain ⟨rfl, rfl⟩ := h
                  exact heapExtends_append _ _
                · rw [if_neg hsh25] at h
                  cases hrec : createNodeH hsh fuel heap (shift + 5)
                      (HEntry.null : HEntry D).toObj (HEntry.ptr c2 : HEntry D).toObj
                      hv key value with
                  | none =>
                    simp only [hrec] at h
                    simp at h
                  | some pr =>
                    obtain ⟨heap3, newNode⟩ := pr
                    simp only [hrec, Option.some.injEq, Prod.mk.injEq] at h
                    obtain ⟨rfl, rfl⟩ := h
                    exact heapExtends_trans
                      (createNodeH_extends hsh fuel heap (shift + 5) _ _ hv key value
                        heap3 newNode hrec)
                      (heapExtends_append _ _)
          | obj d1 =>
            simp only [hp] at h
            by_cases hkk : (HEntry.obj d1 : HEntry D).toObj = key
            · rw [if_pos hkk] at h
              by_cases hvv : (e2 : HEntry D).eqObj value = true
              · rw [if_pos hvv] at h
                simp only [Option.some.injEq, Prod.mk.injEq] at h
                obtain ⟨rfl, rfl⟩ := h
                exact heapExtends_refl heap
              · rw [if_neg hvv] at h
                simp only [Option.some.injEq, Prod.mk.injEq] at h
                obtain ⟨rfl, rfl⟩ := h
                exact heapExtends_append _ _
            · rw [if_neg hkk] at h
              by_cases hsh25 : 25 ≤ shift
              · rw [if_pos hsh25] at h
                simp only [Option.some.injEq, Prod.mk.injEq] at h
                obtain ⟨rfl, rfl⟩ := h
                exact heapExtends_append _ _
              · rw [if_neg hsh25] at h
                cases hrec : createNodeH hsh fuel heap (shift + 5)
                    (HEntry.obj d1 : HEntry D).toObj (e2 : HEntry D).toObj
                    hv key value with
                | none =>
                  simp only [hrec] at h
                  simp at h
                | some pr =>
                  obtain ⟨heap3, newNode⟩ := pr
                  simp only [hrec, Option.some.injEq, Prod.mk.injEq] at h
                  obtain ⟨rfl, rfl⟩ := h
                  exact heapExtends_trans
                    (createNodeH_extends hsh fuel heap (shift + 5) _ _ hv key value
                      heap3 newNode hrec)
                    (heapExtends_append _ _)
        · rw [if_neg hb] at h
          simp only [Option.some.injEq, Prod.mk.injEq] at h
          obtain ⟨rfl, rfl⟩ := h
          exact heapExtends_append _ _

theorem withoutH_extends :
    ∀ (fuel : Nat) (heap : List (HNode D)) (a shift hv : Nat) (key : Option D)
    (heap2 : List (HNode D)) (r2 : Nat),
    withoutH fuel heap a shift hv key = some (.kept heap2 r2) →
    HeapExtends heap2 heap := by
  intro fuel
  induction fuel with
  | zero =>
    intro heap a shift hv key heap2 r2 h
    simp [withoutH] at h
  | succ fuel ih =>
    intro heap a shift hv key heap2 r2 h
    simp only [withoutH] at h
    cases hnd : heap[a]? with
    | none =>
      simp only [hnd] at h
      simp at h
    | some nd =>
      cases nd with
      | collision items =>
        simp only [hnd] at h
        cases hcw : collWithout items key with
        | none =>
          simp only [hcw] at h
          simp at h
        | some o =>
          cases o with
          | none =>
            simp only [hcw] at h
            simp at h
          | some items2 =>
            simp only [hcw, Option.some.injEq, WResH.kept.injEq] at h
            obtain ⟨rfl, rfl⟩ := h
            exact heapExtends_append _ _
      | bitmap bm arr =>
        simp only [hnd] at h
        by_cases hb : bm &&& 1 <<< ((hv >>> shift) &&& 0x1f) = 0
        · rw [if_pos hb] at h
          simp at h
        · rw [if_neg hb] at h
          obtain ⟨p, hp⟩ :
              ∃ p, arr.getD (popcount (bm &&& (1 <<< ((hv >>> shift) &&& 0x1f) - 1)))
                (.null, .null) = p := ⟨_, rfl⟩
          obtain ⟨e1, e2⟩ := p
          cases e1 with
          | ptr child =>
            simp only [hp] at h
            cases hrec : withoutH fuel heap child (shift + 5) hv key with
            | none =>
              simp only [hrec] at h
              simp at h
            | some w =>
              cases w with
              | err =>
                simp only [hrec] at h
                simp at h
              | gone =>
                simp only [hrec] at h
                by_cases hpc : popcount bm = 1
                · rw [if_pos hpc] at h
                  simp at h
                · rw [if_neg hpc] at h
                  simp only [Option.some.injEq, WResH.kept.injEq] at h
                  obtain ⟨rfl, rfl⟩ := h
                  exact heapExtends_append _ _
              | kept heap3 newNode =>
                simp only [hrec] at h
                have hext3 := ih heap child (shift + 5) hv key heap3 newNode hrec
                by_cases hsame : newNode = child
                · rw [if_pos hsame] at h
                  simp only [Option.some.injEq, WResH.kept.injEq] at h
                  obtain ⟨rfl, rfl⟩ := h
                  exact hext3
                · rw [if_neg hsame] at h
                  simp only [Option.some.injEq, WResH.kept.injEq] at h
                  obtain ⟨rfl, rfl⟩ := h
                  exact heapExtends_trans hext3 (heapExtends_append _ _)
          | null =>
            simp only [hp] at h
            by_cases hkk : (HEntry.null : HEntry D).toObj ≠ key
            · rw [if_pos hkk] at h
              simp at h
            · rw [if_neg hkk] at h
              by_cases hpc : popcount bm = 1
              · rw [if_pos hpc] at h
                simp at h
              · rw [if_neg hpc] at h
                simp only [Option.some.injEq, WResH.kept.injEq] at h
                obtain ⟨rfl, rfl⟩ := h
                exact heapExtends_append _ _
          | obj d1 =>
            simp only [hp] at h
            by_cases hkk : (HEntry.obj d1 : HEntry D).toObj ≠ key
            · rw [if_pos hkk] at h
              simp at h
            · rw [if_neg hkk] at h
              by_cases hpc : popcount bm = 1
              · rw [if_pos hpc] at h
                simp at h
              · rw [if_neg hpc] at h
                simp only [Option.some.injEq, WResH.kept.injEq] at h
                obtain ⟨rfl, rfl⟩ := h
                exact heapExtends_append _ _


/-! ### Claim C7 -/

theorem obsIn_ext (hsh : Option D → Nat) (c : HHAMT D) (heap2 : List (HNode D))
    (hclh : heapClosed c.heap = true)
    (hroot : ∀ r, c.root = some r → r < c.heap.length)
    (hext : HeapExtends heap2 c.heap) :
    (∀ k fuel2, HHAMT.containsIn hsh heap2 c k fuel2
      = HHAMT.containsIn hsh c.heap c k fuel2) ∧
    (∀ k d fuel2, HHAMT.getIn hsh heap2 c k d fuel2
      = HHAMT.getIn hsh c.heap c k d fuel2) ∧
    (∀ fuel2, HHAMT.keysIn heap2 c fuel2 = HHAMT.keysIn c.heap c fuel2) := by
  cases hr : c.root with
  | none =>
    refine ⟨fun k fuel2 => ?_, fun k d fuel2 => ?_, fun fuel2 => ?_⟩ <;>
      simp only [HHAMT.containsIn, HHAMT.getIn, HHAMT.keysIn, hr]
  | some r =>
    have hrl := hroot r hr
    refine ⟨fun k fuel2 => ?_, fun k d fuel2 => ?_, fun fuel2 => ?_⟩
    · simp only [HHAMT.containsIn, hr]
      rw [findH_ext fuel2 c.heap heap2 r 0 (hsh k) k hclh hrl hext]
    · simp only [HHAMT.getIn, hr]
      rw [findH_ext fuel2 c.heap heap2 r 0 (hsh k) k hclh hrl hext]
    · simp only [HHAMT.keysIn, hr]
      rw [toListH_ext fuel2 c.heap heap2 r hclh hrl hext]

/-- C7: persistence of the old container.  Both writes - set, and delete
when it succeeds - only ever allocate: the heap they return holds the very
same node at every address of the old heap, and consequently every
observation on the old container - membership, lookup with default, and
iteration - read through the new heap returns exactly what it returned
before the write.  The identity test of line 56 (new_node is key_or_node)
is rendered as address equality, and returning self as returning the
probed address. -/
theorem c7_persistence (hsh : Option D → Nat) (c : HHAMT D) (key value : Option D)
    (fuel : Nat) (hcl : HHClosed c = true) :
    (∀ c2, HHAMT.setH hsh c key value fuel = some c2 →
      HeapExtends c2.heap c.heap ∧
      (∀ k fuel2, HHAMT.containsIn hsh c2.heap c k fuel2
        = HHAMT.containsIn hsh c.heap c k fuel2) ∧
      (∀ k d fuel2, HHAMT.getIn hsh c2.heap c k d fuel2
        = HHAMT.getIn hsh c.heap c k d fuel2) ∧
      (∀ fuel2, HHAMT.keysIn c2.heap c fuel2 = HHAMT.keysIn c.heap c fuel2)) ∧
    (∀ c2, HHAMT.deleteH hsh c key fuel = some c2 →
      HeapExtends c2.heap c.heap ∧
      (∀ k fuel2, HHAMT.containsIn hsh c2.heap c k fuel2
        = HHAMT.containsIn hsh c.heap c k fuel2) ∧
      (∀ k d fuel2, HHAMT.getIn hsh c2.heap c k d fuel2
        = HHAMT.getIn hsh c.heap c k d fuel2) ∧
      (∀ fuel2, HHAMT.keysIn c2.heap c fuel2 = HHAMT.keysIn c.heap c fuel2)) := by
  have hclh : heapClosed c.heap = true := by
    simp only [HHClosed, Bool.and_eq_true] at hcl
    exact hcl.1
  have hroot : ∀ r, c.root = some r → r < c.heap.length := by
    intro r hr
    simp only [HHClosed, Bool.and_eq_true, hr, decide_eq_true_eq] at hcl
    exact hcl.2
  constructor
  · intro c2 hset
    unfold HHAMT.setH at hset
    cases hr : c.root with
    | none =>
      simp only [hr, Option.some.injEq] at hset
      subst hset
      have hext : HeapExtends
          (c.heap ++ [.bitmap (1 <<< (hsh key &&& 0x1f)) [(hOfObj key, hOfObj value)]])
          c.heap := heapExtends_append _ _
      exact ⟨hext, obsIn_ext hsh c _ hclh hroot hext⟩
    | some r =>
      cases ha : assocH hsh fuel c.heap r 0 (hsh key) key value with
      | none =>
        simp only [hr, ha] at hset
        exact Option.noConfusion hset
      | some pr =>
        obtain ⟨heap2, r2⟩ := pr
        simp only [hr, ha, Option.some.injEq] at hset
        subst hset
        have hext := assocH_extends hsh fuel c.heap r 0 (hsh key) key value heap2 r2 ha
        exact ⟨hext, obsIn_ext hsh c _ hclh hroot hext⟩
  · intro c2 hdel
    unfold HHAMT.deleteH at hdel
    cases hr : c.root with
    | none =>
      simp only [hr] at hdel
      exact Option.noConfusion hdel
    | some r =>
      cases hw : withoutH fuel c.heap r 0 (hsh key) key with
      | none =>
        simp only [hr, hw] at hdel
        exact Option.noConfusion hdel
      | some w =>
        cases w with
        | err =>
          simp only [hr, hw] at hdel
          exact Option.noConfusion hdel
        | gone =>
          simp only [hr, hw, Option.some.injEq] at hdel
          subst hdel
          exact ⟨heapExtends_refl _, obsIn_ext hsh c _ hclh hroot (heapExtends_refl _)⟩
        | kept heap2 r2 =>
          simp only [hr, hw, Option.some.injEq] at hdel
          subst hdel
          have hext := withoutH_extends fuel c.heap r 0 (hsh key) key heap2 r2 hw
          exact ⟨hext, obsIn_ext hsh c _ hclh hroot hext⟩

/-- Witness for c7_persistence: on the closed one-node container holding
the key 1, a set of the key 3 succeeds, and membership of the old key read
through the new heap is unchanged. -/
theorem c7_persistence_witness :
    HHClosed hheapEx = true ∧
    HHAMT.setH hshZero hheapEx (some 3) (some 4) 8 = some hheapEx2 ∧
    HHAMT.containsIn hshZero hheapEx2.heap hheapEx (some 1) 8
      = HHAMT.containsIn hshZero hheapEx.heap hheapEx (some 1) 8 := by
  refine ⟨by decide, by decide, ?_⟩
  exact (((c7_persistence hshZero hheapEx (some 3) (some 4) 8 (by decide)).1
    hheapEx2 (by decide)).2).1 (some 1) 8

end Hamt
